import Mathlib

/-!
# asso: start-URL normalisation, account-name sanitisation, config generation

A shallow embedding of `cmd/root.go` and `sso/sso.go`.

Go strings are byte sequences, so a string is a list of bytes here.  The
program leans on three libraries whose behaviour decides what it computes:
`net/url` (`url.Parse`, `(*URL).String`), `regexp` (one `ReplaceAllString`
with a fixed pattern) and `gopkg.in/ini.v1` (`Section`, `Key`, `SetValue`).
Their functions are embedded function by function under the namespaces
`strings`, `url` and `ini`, following the library sources.
-/

namespace Asso

/-- A Go `byte`. -/
abbrev Byte := Fin 256

/-- A Go `string`: an immutable sequence of bytes. -/
abbrev GoString := List Byte

/-- UTF-8 encoding of one character, as the Go compiler stores a literal. -/
def utf8 (c : Char) : GoString :=
  let n := c.toNat
  if n < 0x80 then [Fin.ofNat n]
  else if n < 0x800 then [Fin.ofNat (0xC0 + n / 64), Fin.ofNat (0x80 + n % 64)]
  else if n < 0x10000 then
    [Fin.ofNat (0xE0 + n / 4096), Fin.ofNat (0x80 + n / 64 % 64), Fin.ofNat (0x80 + n % 64)]
  else
    [Fin.ofNat (0xF0 + n / 262144), Fin.ofNat (0x80 + n / 4096 % 64),
      Fin.ofNat (0x80 + n / 64 % 64), Fin.ofNat (0x80 + n % 64)]

/-- The bytes of a string literal. -/
def lit (s : String) : GoString := s.toList.flatMap utf8

/-- The byte of an ASCII character literal. -/
def ch (c : Char) : Byte := Fin.ofNat c.toNat

/-! ## Package `strings` -/

namespace strings

/-- Go `strings.HasPrefix`. -/
def HasPrefix (s p : GoString) : Bool := p.isPrefixOf s

/-- Go `strings.HasSuffix`. -/
def HasSuffix (s p : GoString) : Bool := p.isSuffixOf s

/-- Go `strings.IndexByte`: index of the first `c` in `s` (`none` for `-1`). -/
def IndexByte : GoString → Byte → Option Nat
  | [], _ => none
  | x :: xs, c => if x = c then some 0 else (IndexByte xs c).map (· + 1)

/-- Go `strings.LastIndexByte`: index of the last `c` in `s` (`none` for `-1`). -/
def LastIndexByte : GoString → Byte → Option Nat
  | [], _ => none
  | x :: xs, c =>
    match LastIndexByte xs c with
    | some i => some (i + 1)
    | none => if x = c then some 0 else none

/-- Go `strings.Index`: index of the first occurrence of `sub` in `s`. -/
def Index : GoString → GoString → Option Nat
  | [], sub => if sub = [] then some 0 else none
  | x :: xs, sub =>
    if sub.isPrefixOf (x :: xs) then some 0 else (Index xs sub).map (· + 1)

/-- Go `strings.Count` for a one-byte separator. -/
def Count (s : GoString) (c : Byte) : Nat := s.count c

/-- Go `strings.Contains` for a one-byte separator. -/
def Contains (s : GoString) (c : Byte) : Bool := s.contains c

/-- Go `strings.Cut` for a one-byte separator: the text before and after the
first `sep`, and whether `sep` was found; `(s, "", false)` when it is absent. -/
def Cut : GoString → Byte → GoString × GoString × Bool
  | [], _ => ([], [], false)
  | x :: xs, sep =>
    if x = sep then ([], xs, true)
    else
      let r := Cut xs sep
      (x :: r.1, r.2.1, r.2.2)

/-- Go `strings.ToLower` on one ASCII byte. -/
def lowerByte (c : Byte) : Byte :=
  if 65 ≤ c.val ∧ c.val ≤ 90 then c + 32 else c

/-- Go `strings.ToLower`, on ASCII text (the only text `url.parse` passes:
a scheme that `getScheme` accepted). -/
def ToLower (s : GoString) : GoString := s.map lowerByte

end strings

/-! ## Package `net/url` -/

namespace url

/-- The `encoding` modes of `net/url`. -/
inductive encoding where
  | encodePath
  | encodePathSegment
  | encodeHost
  | encodeZone
  | encodeUserPassword
  | encodeQueryComponent
  | encodeFragment
  deriving DecidableEq, Repr

open encoding

/-- `url.ishex`. -/
def ishex (c : Byte) : Bool :=
  (48 ≤ c.val && c.val ≤ 57) || (97 ≤ c.val && c.val ≤ 102) || (65 ≤ c.val && c.val ≤ 70)

/-- `url.unhex`. -/
def unhex (c : Byte) : Byte :=
  if 48 ≤ c.val ∧ c.val ≤ 57 then c - 48
  else if 97 ≤ c.val ∧ c.val ≤ 102 then c - 97 + 10
  else if 65 ≤ c.val ∧ c.val ≤ 70 then c - 65 + 10
  else 0

/-- The lookup `upperhex[i]` in `"0123456789ABCDEF"`. -/
def upperhex (i : Byte) : Byte :=
  (lit "0123456789ABCDEF").getD i.val 0

/-- ASCII letters and digits, the first test of `url.shouldEscape`. -/
def isAlnum (c : Byte) : Bool :=
  (97 ≤ c.val && c.val ≤ 122) || (65 ≤ c.val && c.val ≤ 90) || (48 ≤ c.val && c.val ≤ 57)

/-- `url.shouldEscape`: whether byte `c` is escaped in `mode`. -/
def shouldEscape (c : Byte) (mode : encoding) : Bool :=
  -- §2.3 Unreserved characters (alphanum)
  if isAlnum c then false
  -- §3.2.2 Host allows sub-delims, `:`, `[`, `]`, `<`, `>`, `"`
  else if (mode = encodeHost ∨ mode = encodeZone) ∧
      c ∈ [ch '!', ch '$', ch '&', 39, ch '(', ch ')', ch '*', ch '+', ch ',', ch ';',
        ch '=', ch ':', ch '[', ch ']', ch '<', ch '>', 34] then false
  -- §2.3 Unreserved characters (mark)
  else if c ∈ [ch '-', ch '_', ch '.', ch '~'] then false
  -- §2.2 Reserved characters (reserved)
  else if c ∈ [ch '$', ch '&', ch '+', ch ',', ch '/', ch ':', ch ';', ch '=', ch '?',
      ch '@'] ∧ mode ∈ [encodePath, encodePathSegment, encodeUserPassword,
        encodeQueryComponent, encodeFragment] then
    match mode with
    | encodePath => c = ch '?'
    | encodePathSegment => c = ch '/' ∨ c = ch ';' ∨ c = ch ',' ∨ c = ch '?'
    | encodeUserPassword => c = ch '@' ∨ c = ch '/' ∨ c = ch '?' ∨ c = ch ':'
    | encodeQueryComponent => true
    | _ => false
  else if mode = encodeFragment ∧ c ∈ [ch '!', ch '(', ch ')', ch '*'] then false
  -- Everything else must be escaped.
  else true

/-- One step of the second loop of `url.escape`. -/
def escapeByte (mode : encoding) (c : Byte) : GoString :=
  if c = ch ' ' ∧ mode = encodeQueryComponent then [ch '+']
  else if shouldEscape c mode then [ch '%', upperhex (c >>> 4), upperhex (c &&& 15)]
  else [c]

/-- `url.escape`. -/
def escape (s : GoString) (mode : encoding) : GoString :=
  s.flatMap (escapeByte mode)

/-- The first loop of `url.unescape`: `true` when every `%` starts a
well-formed escape that `mode` allows and no byte is invalid for a host. -/
def unescapeCheck (mode : encoding) : GoString → Bool
  | [] => true
  | c :: rest =>
    if c = ch '%' then
      match rest with
      | a :: b :: rest2 =>
        if !ishex a || !ishex b then false
        else if mode = encodeHost ∧ (unhex a).val < 8 ∧ [c, a, b] ≠ lit "%25" then false
        else if mode = encodeZone ∧ [c, a, b] ≠ lit "%25" ∧
            (unhex a <<< 4 ||| unhex b) ≠ ch ' ' ∧
            shouldEscape (unhex a <<< 4 ||| unhex b) encodeHost then false
        else unescapeCheck mode rest2
      | _ => false
    else if c = ch '+' then unescapeCheck mode rest
    else if (mode = encodeHost ∨ mode = encodeZone) ∧ c.val < 0x80 ∧
        shouldEscape c encodeHost then false
    else unescapeCheck mode rest

/-- The second loop of `url.unescape`, run on text the first loop accepted. -/
def unescapeDecode (mode : encoding) : GoString → GoString
  | [] => []
  | c :: rest =>
    if c = ch '%' then
      match rest with
      | a :: b :: rest2 => (unhex a <<< 4 ||| unhex b) :: unescapeDecode mode rest2
      | _ => []
    else if c = ch '+' then
      (if mode = encodeQueryComponent then ch ' ' else ch '+') :: unescapeDecode mode rest
    else c :: unescapeDecode mode rest

/-- `url.unescape`; `none` stands for a returned error. -/
def unescape (s : GoString) (mode : encoding) : Option GoString :=
  if unescapeCheck mode s then some (unescapeDecode mode s) else none

/-- `url.validEncoded`. -/
def validEncoded (s : GoString) (mode : encoding) : Bool :=
  s.all fun c =>
    if c ∈ [ch '!', ch '$', ch '&', 39, ch '(', ch ')', ch '*', ch '+', ch ',', ch ';',
        ch '=', ch ':', ch '@'] then true
    else if c = ch '[' ∨ c = ch ']' then true
    else if c = ch '%' then true
    else !shouldEscape c mode

/-- `url.stringContainsCTLByte`. -/
def stringContainsCTLByte (s : GoString) : Bool :=
  s.any fun b => b.val < 0x20 || b.val = 0x7f

/-- The loop of `url.getScheme` at index `i`, `rest` being `rawURL[i:]`. -/
def getSchemeLoop (rawURL : GoString) : Nat → GoString → Option (GoString × GoString)
  | _, [] => some ([], rawURL)
  | i, c :: rest =>
    if (97 ≤ c.val ∧ c.val ≤ 122) ∨ (65 ≤ c.val ∧ c.val ≤ 90) then
      getSchemeLoop rawURL (i + 1) rest
    else if (48 ≤ c.val ∧ c.val ≤ 57) ∨ c = ch '+' ∨ c = ch '-' ∨ c = ch '.' then
      if i = 0 then some ([], rawURL) else getSchemeLoop rawURL (i + 1) rest
    else if c = ch ':' then
      if i = 0 then none else some (rawURL.take i, rawURL.drop (i + 1))
    else some ([], rawURL)

/-- `url.getScheme`: the scheme and the rest; `none` for the error
`missing protocol scheme`. -/
def getScheme (rawURL : GoString) : Option (GoString × GoString) :=
  getSchemeLoop rawURL 0 rawURL

/-- `url.validOptionalPort`. -/
def validOptionalPort (port : GoString) : Bool :=
  match port with
  | [] => true
  | c :: digits => c = ch ':' && digits.all fun b => 48 ≤ b.val && b.val ≤ 57

/-- `url.validUserinfo`. -/
def validUserinfo (s : GoString) : Bool :=
  s.all fun r =>
    isAlnum r ||
      decide (r ∈ [ch '-', ch '.', ch '_', ch ':', ch '~', ch '!', ch '$', ch '&', 39,
        ch '(', ch ')', ch '*', ch '+', ch ',', ch ';', ch '=', ch '%', ch '@'])

/-- `url.Userinfo`. -/
structure Userinfo where
  username : GoString
  password : GoString
  passwordSet : Bool
  deriving DecidableEq, Repr

/-- `(*Userinfo).String` on a non-nil receiver. -/
def Userinfo.String (u : Userinfo) : GoString :=
  let s := escape u.username encodeUserPassword
  if u.passwordSet then s ++ [ch ':'] ++ escape u.password encodeUserPassword else s

/-- `url.URL`. -/
structure URL where
  Scheme : GoString := []
  Opaque : GoString := []
  User : Option Userinfo := none
  Host : GoString := []
  Path : GoString := []
  RawPath : GoString := []
  OmitHost : Bool := false
  ForceQuery : Bool := false
  RawQuery : GoString := []
  Fragment : GoString := []
  RawFragment : GoString := []
  deriving DecidableEq, Repr

/-- `url.parseHost`. -/
def parseHost (host : GoString) : Option GoString :=
  if strings.HasPrefix host [ch '['] then
    match strings.LastIndexByte host (ch ']') with
    | none => none
    | some i =>
      let colonPort := host.drop (i + 1)
      if !validOptionalPort colonPort then none
      else
        match strings.Index (host.take i) (lit "%25") with
        | some zone =>
          match unescape (host.take zone) encodeHost with
          | none => none
          | some host1 =>
            match unescape ((host.take i).drop zone) encodeZone with
            | none => none
            | some host2 =>
              match unescape (host.drop i) encodeHost with
              | none => none
              | some host3 => some (host1 ++ host2 ++ host3)
        | none => unescape host encodeHost
  else
    match strings.LastIndexByte host (ch ':') with
    | some i =>
      if !validOptionalPort (host.drop i) then none else unescape host encodeHost
    | none => unescape host encodeHost

/-- `url.parseAuthority`. -/
def parseAuthority (authority : GoString) : Option (Option Userinfo × GoString) :=
  let i := strings.LastIndexByte authority (ch '@')
  let hostR :=
    match i with
    | none => parseHost authority
    | some i => parseHost (authority.drop (i + 1))
  match hostR with
  | none => none
  | some host =>
    match i with
    | none => some (none, host)
    | some i =>
      let userinfo := authority.take i
      if !validUserinfo userinfo then none
      else if !strings.Contains userinfo (ch ':') then
        match unescape userinfo encodeUserPassword with
        | none => none
        | some userinfo => some (some ⟨userinfo, [], false⟩, host)
      else
        let c := strings.Cut userinfo (ch ':')
        match unescape c.1 encodeUserPassword with
        | none => none
        | some username =>
          match unescape c.2.1 encodeUserPassword with
          | none => none
          | some password => some (some ⟨username, password, true⟩, host)

/-- `(*URL).setPath`. -/
def URL.setPath (u : URL) (p : GoString) : Option URL :=
  match unescape p encodePath with
  | none => none
  | some path =>
    if p = escape path encodePath then some { u with Path := path, RawPath := [] }
    else some { u with Path := path, RawPath := p }

/-- `(*URL).setFragment`. -/
def URL.setFragment (u : URL) (f : GoString) : Option URL :=
  match unescape f encodeFragment with
  | none => none
  | some frag =>
    if f = escape frag encodeFragment then some { u with Fragment := frag, RawFragment := [] }
    else some { u with Fragment := frag, RawFragment := f }

/-- `url.parse(rawURL, viaRequest)` with `viaRequest = false`, the only way
`url.Parse` calls it. -/
def parse (rawURL : GoString) : Option URL :=
  if stringContainsCTLByte rawURL then none
  else if rawURL = lit "*" then some { Path := lit "*" }
  else
    match getScheme rawURL with
    | none => none
    | some (scheme, rest0) =>
      let scheme := strings.ToLower scheme
      let forced : Bool :=
        strings.HasSuffix rest0 (lit "?") && strings.Count rest0 (ch '?') == 1
      let rest1 := if forced then rest0.take (rest0.length - 1) else (strings.Cut rest0 (ch '?')).1
      let rawQuery := if forced then [] else (strings.Cut rest0 (ch '?')).2.1
      let u : URL := { Scheme := scheme, ForceQuery := forced, RawQuery := rawQuery }
      if !strings.HasPrefix rest1 (lit "/") ∧ scheme ≠ [] then
        -- We consider rootless paths per RFC 3986 as opaque.
        some { u with Opaque := rest1 }
      else if !strings.HasPrefix rest1 (lit "/") ∧
          strings.Contains (strings.Cut rest1 (ch '/')).1 (ch ':') then
        -- First path segment has colon. Not allowed in relative URL.
        none
      else if (scheme ≠ [] ∨ !strings.HasPrefix rest1 (lit "///")) ∧
          strings.HasPrefix rest1 (lit "//") then
        let a := rest1.drop 2
        let authority :=
          match strings.IndexByte a (ch '/') with
          | some i => a.take i
          | none => a
        let rest2 :=
          match strings.IndexByte a (ch '/') with
          | some i => a.drop i
          | none => []
        match parseAuthority authority with
        | none => none
        | some (user, host) => URL.setPath { u with User := user, Host := host } rest2
      else if scheme ≠ [] ∧ strings.HasPrefix rest1 (lit "/") then
        -- OmitHost is set to true when rawURL has an empty host (authority).
        URL.setPath { u with OmitHost := true } rest1
      else URL.setPath u rest1

/-- `url.Parse`; `none` stands for a returned error. -/
def Parse (rawURL : GoString) : Option URL :=
  -- Cut off #frag
  let c := strings.Cut rawURL (ch '#')
  match parse c.1 with
  | none => none
  | some u => if c.2.1 = [] then some u else URL.setFragment u c.2.1

/-- `(*URL).EscapedPath`. -/
def URL.EscapedPath (u : URL) : GoString :=
  if u.RawPath ≠ [] ∧ validEncoded u.RawPath encodePath ∧
      unescape u.RawPath encodePath = some u.Path then u.RawPath
  else if u.Path = lit "*" then lit "*"
  else escape u.Path encodePath

/-- `(*URL).EscapedFragment`. -/
def URL.EscapedFragment (u : URL) : GoString :=
  if u.RawFragment ≠ [] ∧ validEncoded u.RawFragment encodeFragment ∧
      unescape u.RawFragment encodeFragment = some u.Fragment then u.RawFragment
  else escape u.Fragment encodeFragment

/-- `(*URL).String`.  The method writes to a `strings.Builder`; each `let`
is what one of its steps writes, in order, and the result is all of it.  The
test `buf.Len() == 0` asks whether scheme, authority and slash wrote nothing. -/
def URL.String (u : URL) : GoString :=
  let scheme : GoString := if u.Scheme ≠ [] then u.Scheme ++ [ch ':'] else []
  let body : GoString :=
    if u.Opaque ≠ [] then u.Opaque
    else
      let authority : GoString :=
        if u.Scheme ≠ [] ∨ u.Host ≠ [] ∨ u.User.isSome then
          if u.OmitHost ∧ u.Host = [] ∧ u.User.isNone then []
          else
            (if u.Host ≠ [] ∨ u.Path ≠ [] ∨ u.User.isSome then lit "//" else []) ++
              (match u.User with
                | some ui => ui.String ++ [ch '@']
                | none => []) ++
              (if u.Host ≠ [] then escape u.Host encodeHost else [])
        else []
      let path := u.EscapedPath
      let slash : GoString :=
        if path ≠ [] ∧ path.head? ≠ some (ch '/') ∧ u.Host ≠ [] then [ch '/'] else []
      let dot : GoString :=
        if scheme ++ authority ++ slash = [] ∧
            strings.Contains (strings.Cut path (ch '/')).1 (ch ':') then
          lit "./"
        else []
      authority ++ slash ++ dot ++ path
  let query : GoString :=
    if u.ForceQuery ∨ u.RawQuery ≠ [] then ch '?' :: u.RawQuery else []
  let fragment : GoString :=
    if u.Fragment ≠ [] then ch '#' :: u.EscapedFragment else []
  scheme ++ body ++ query ++ fragment

end url

/-! ## `cmd/root.go` -/

/-- Lines 68-70 of `cmd/root.go`: `if u.Scheme == "" { u.Scheme = "https" }`. -/
def defaultScheme (u : url.URL) : url.URL :=
  if u.Scheme = [] then { u with Scheme := lit "https" } else u

/-- Lines 64-74 of `cmd/root.go`: the URL that `url.Parse(u.String())` returns
for the parsed input with its scheme defaulted; `none` where either call of
`url.Parse` returns an error. -/
def reparse (s : GoString) : Option url.URL :=
  match url.Parse s with
  | none => none
  | some u => url.Parse (defaultScheme u).String

/-- Lines 78-83 of `cmd/root.go`: the two assignments to `u.Path`. -/
def canonicalPath (u : url.URL) : url.URL :=
  let u : url.URL :=
    if u.Path = [] ∨ u.Path = lit "/" then { u with Path := lit "/start/" } else u
  if !strings.HasSuffix u.Path (lit "/") then { u with Path := u.Path ++ lit "/" } else u

/-- `parseStartURL` up to its last line: the `*url.URL` whose `String()` the
function returns, `none` where it returns `("", false)`. -/
def parseStartURLCore (s : GoString) : Option url.URL :=
  match reparse s with
  | none => none
  | some u => if u.Host = [] then none else some (canonicalPath u)

/-- `parseStartURL` of `cmd/root.go`. -/
def parseStartURL (s : GoString) : GoString × Bool :=
  match parseStartURLCore s with
  | none => ([], false)
  | some u => (u.String, true)

/-! ## Package `regexp`: the one pattern of `sso/sso.go` -/

namespace regexp

/-- One character of the class `[^a-zA-Z0-9]`.  The class is negated, so it
holds every rune that is not an ASCII letter or digit; such a rune is made of
bytes outside `[a-zA-Z0-9]` only (bytes of `0x80` and above, invalid ones
included, which `regexp` reads as U+FFFD), so membership is decided per byte. -/
def nonAlphanumeric (c : Byte) : Bool :=
  !((97 ≤ c.val && c.val ≤ 122) || (65 ≤ c.val && c.val ≤ 90) || (48 ≤ c.val && c.val ≤ 57))

/-- The scan of `ReplaceAllString` for the pattern `[^a-zA-Z0-9]+`: a match
starts at the first byte of the class and, `+` being greedy, runs while bytes
of the class follow; `repl` is written once per match and the other bytes are
copied.  `inMatch` says that the byte before belongs to the current match. -/
def replaceAllLoop (repl : GoString) : Bool → GoString → GoString
  | _, [] => []
  | inMatch, c :: rest =>
    if nonAlphanumeric c then
      (if inMatch then [] else repl) ++ replaceAllLoop repl true rest
    else c :: replaceAllLoop repl false rest

/-- `nonAlphanumericRegex.ReplaceAllString(src, repl)` with
`nonAlphanumericRegex = regexp.MustCompile("[^a-zA-Z0-9]+")` and a `repl`
without `$`, which is written as it stands. -/
def ReplaceAllString (src repl : GoString) : GoString :=
  replaceAllLoop repl false src

end regexp

/-! ## Package `gopkg.in/ini.v1` -/

namespace ini

/-- An `ini.Section`: its name and its keys with their values, in `keyList`
order. -/
structure Section where
  name : GoString
  keys : List (GoString × GoString)
  deriving DecidableEq, Repr

/-- An `ini.File`: its sections in `sectionList` order. -/
structure File where
  sections : List Section
  deriving DecidableEq, Repr

/-- The constant `ini.DefaultSection`. -/
def DefaultSection : GoString := lit "DEFAULT"

/-- `ini.Empty()`: a file holding the default section alone. -/
def Empty : File := ⟨[⟨DefaultSection, []⟩]⟩

/-- `(*File).GetSection`: the section of that name (the default section for
the empty name); `none` stands for the error `section does not exist`. -/
def File.GetSection (f : File) (name : GoString) : Option Section :=
  let name := if name = [] then DefaultSection else name
  f.sections.find? fun sec => sec.name = name

/-- `(*File).NewSection` for a non-empty name: the section is appended unless
one of that name is there already. -/
def File.NewSection (f : File) (name : GoString) : File :=
  if f.sections.any fun sec => sec.name = name then f
  else ⟨f.sections ++ [⟨name, []⟩]⟩

/-- `(*File).Section(name)`: the file, in which the section now exists, and
the name of the section the returned pointer refers to. -/
def File.Section (f : File) (name : GoString) : File × GoString :=
  match f.GetSection name with
  | some sec => (f, sec.name)
  | none =>
    let name := if name = [] then DefaultSection else name
    (f.NewSection name, name)

/-- The values `sname[:i]` that the loop of `(*Section).GetKey` walks through:
`i := strings.LastIndex(sname, ".")`, `sname = sname[:i]`, repeated, with the
default `ChildSectionDelimiter` `"."`; the longest comes first. -/
def parents (sname : GoString) : List GoString :=
  (((List.range sname.length).filter fun i => sname.get? i = some (ch '.')).reverse).map
    fun i => sname.take i

/-- The child-section lookup of `(*Section).GetKey` along `parents`: a name
without a section is skipped (`continue`), a section that has the key owns
it, a section without it passes the question on to its own parents
(`return sec.GetKey(name)`). -/
def File.findOwner (f : File) (key : GoString) : List GoString → Option GoString
  | [] => none
  | sname :: more =>
    match f.GetSection sname with
    | none => File.findOwner f key more
    | some sec =>
      if sec.keys.any (fun kv => kv.1 = key) then some sec.name
      else File.findOwner f key more

/-- `(*Section).GetKey(key)` on the section named `sname`: the name of the
section whose key is returned, which is `sname` itself or, when `sname` has
no such key, the nearest parent section that has one; `none` stands for the
error `key not exists`. -/
def File.GetKey (f : File) (sname key : GoString) : Option GoString :=
  match f.GetSection sname with
  | none => none
  | some sec =>
    if sec.keys.any (fun kv => kv.1 = key) then some sec.name
    else File.findOwner f key (parents sec.name)

/-- Assignment of `value` to the key `key` of the section named `owner`;
a key that is not there yet is appended to the `keyList`. -/
def File.assign (f : File) (owner key value : GoString) : File :=
  ⟨f.sections.map fun sec =>
    if sec.name = owner then
      if sec.keys.any (fun kv => kv.1 = key) then
        ⟨sec.name, sec.keys.map fun kv => if kv.1 = key then (kv.1, value) else kv⟩
      else ⟨sec.name, sec.keys ++ [(key, value)]⟩
    else sec⟩

/-- `s.Key(key).SetValue(value)` for the section `s` named `sname` and a
non-empty `key`: `Key` returns what `GetKey` finds, in `s` or in a parent
section, and creates the key in `s` (`NewKey(key, "")`) when `GetKey` fails;
`SetValue` then writes to the key returned. -/
def File.KeySetValue (f : File) (sname key value : GoString) : File :=
  match f.GetKey sname key with
  | some owner => f.assign owner key value
  | none => f.assign sname key value

end ini

/-! ## `sso/sso.go` -/

/-- A Go `error` value, by its message. -/
abbrev GoError := GoString

deriving instance DecidableEq for Except

/-- `types.AccountInfo`, with the two fields `UpdateConfig` dereferences. -/
structure AccountInfo where
  AccountId : GoString
  AccountName : GoString
  deriving DecidableEq, Repr

/-- `types.RoleInfo`, with the field `UpdateConfig` dereferences. -/
structure RoleInfo where
  RoleName : GoString
  deriving DecidableEq, Repr

/-- `sso.Profile`. -/
structure Profile where
  Name : GoString
  SSOAccountID : GoString
  SSORoleName : GoString
  deriving DecidableEq, Repr

/-- One page of a list operation: `ListAccountsOutput` and
`ListAccountRolesOutput` have this shape. -/
structure Page (α : Type) where
  items : List α
  NextToken : Option GoString

/-- A request sent to the SSO service. -/
inductive Call where
  | ListAccounts (accessToken : GoString) (nextToken : Option GoString)
  | ListAccountRoles (accessToken accountId : GoString) (nextToken : Option GoString)
  deriving DecidableEq, Repr

/-- What a file holds: bytes of unknown origin, or what `SaveTo` wrote for a
document. -/
inductive FileData where
  | raw (bytes : GoString)
  | saved (doc : ini.File)
  deriving DecidableEq, Repr

/-- The state the program acts on. -/
structure World where
  /-- The file at the config path, if `os.Stat` finds one. -/
  configFile : Option FileData
  /-- Whether the config directory exists. -/
  configDir : Bool
  /-- The files of the `sso` directory under the config directory, if it exists. -/
  ssoCache : Option (List (GoString × GoString))
  /-- What has been written to standard output, one entry per print call. -/
  stdout : List GoString
  /-- The requests sent to the SSO service so far. -/
  calls : List Call
  deriving DecidableEq, Repr

/-- What the surroundings answer: the outcomes of the system calls, of the
`aws sso login` process, of the token cache read and of the SSO service. -/
structure Env where
  /-- `config.DefaultSharedConfigFilename()`. -/
  configFile : GoString
  /-- `filepath.Dir(configFile)`. -/
  configDir : GoString
  /-- The error of `os.MkdirAll(configDir, os.ModePerm)`, if any. -/
  mkdirAll : Option GoError
  /-- The error of `os.RemoveAll(ssoCache)`, if any. -/
  removeAll : Option GoError
  /-- The error of the first and of the second `cfg.SaveTo(configFile)`, if any. -/
  saveTo : Bool → Option GoError
  /-- The exit error of `aws sso login`, or the cache directory it leaves. -/
  login : GoString → Except GoError (List (GoString × GoString))
  /-- The result of `getAccessToken(configDir, ssoSessionName)`. -/
  getAccessToken : GoString → Except GoError GoString
  /-- The service operation `ListAccounts`. -/
  ListAccounts : GoString → Option GoString → Except GoError (Page AccountInfo)
  /-- The service operation `ListAccountRoles`. -/
  ListAccountRoles : GoString → GoString → Option GoString → Except GoError (Page RoleInfo)

/-- A call of `fmt.Println`, `fmt.Printf`: the text is appended to stdout. -/
def World.print (w : World) (text : GoString) : World :=
  { w with stdout := w.stdout ++ [text] }

/-- The state of an SDK paginator (`ListAccountsPaginator`,
`ListAccountRolesPaginator`). -/
structure Paginator where
  firstPage : Bool
  nextToken : Option GoString
  deriving DecidableEq, Repr

/-- `HasMorePages`: `p.firstPage || (p.nextToken != nil && len(*p.nextToken) != 0)`. -/
def Paginator.HasMorePages (p : Paginator) : Bool :=
  p.firstPage ||
    match p.nextToken with
    | some t => t ≠ []
    | none => false

/-- The loop `for paginator.HasMorePages() ...` of `getAccounts` and
`getRoles`: `NextPage` sends the request with the paginator's token, an error
ends the function with that error and no list, a page is appended and its
`NextToken` kept.  `fuel` bounds the number of pages; `none` means the bound
was reached with pages left. -/
def pageLoop {α : Type} (request : Option GoString → Call)
    (fetch : Option GoString → Except GoError (Page α)) :
    Nat → Paginator → List α → World → Option (Except GoError (List α) × World)
  | 0, p, acc, w => if p.HasMorePages then none else some (.ok acc, w)
  | fuel + 1, p, acc, w =>
    if p.HasMorePages then
      let w := { w with calls := w.calls ++ [request p.nextToken] }
      match fetch p.nextToken with
      | .error err => some (.error err, w)
      | .ok out => pageLoop request fetch fuel ⟨false, out.NextToken⟩ (acc ++ out.items) w
    else some (.ok acc, w)

/-- `getAccounts`. -/
def getAccounts (env : Env) (fuel : Nat) (token : GoString) (w : World) :
    Option (Except GoError (List AccountInfo) × World) :=
  pageLoop (Call.ListAccounts token) (env.ListAccounts token) fuel ⟨true, none⟩ [] w

/-- `getRoles`. -/
def getRoles (env : Env) (fuel : Nat) (token accountID : GoString) (w : World) :
    Option (Except GoError (List RoleInfo) × World) :=
  pageLoop (Call.ListAccountRoles token accountID) (env.ListAccountRoles token accountID)
    fuel ⟨true, none⟩ [] w

/-- The account-name sanitisation of `UpdateConfig`:
`nonAlphanumericRegex.ReplaceAllString(*a.AccountName, "_")`. -/
def sanitize (accountName : GoString) : GoString :=
  regexp.ReplaceAllString accountName (lit "_")

/-- The profile `UpdateConfig` appends for role `r` of account `a`. -/
def mkProfile (a : AccountInfo) (r : RoleInfo) : Profile :=
  { Name := sanitize a.AccountName ++ lit "/" ++ r.RoleName
    SSOAccountID := a.AccountId
    SSORoleName := r.RoleName }

/-- The loop `for _, r := range roles` of `UpdateConfig`. -/
def rolesLoop (a : AccountInfo) :
    List RoleInfo → List Profile → World → List Profile × World
  | [], profiles, w => (profiles, w)
  | r :: roles, profiles, w =>
    rolesLoop a roles (profiles ++ [mkProfile a r]) (w.print (lit "  - " ++ r.RoleName ++ lit "\n"))

/-- The loop `for _, a := range accounts` of `UpdateConfig`. -/
def accountsLoop (env : Env) (fuel : Nat) (token : GoString) :
    List AccountInfo → List Profile → World → Option (Except GoError (List Profile) × World)
  | [], profiles, w => some (.ok profiles, w)
  | a :: accounts, profiles, w =>
    let w := w.print (lit "Account: " ++ a.AccountName ++ lit " (" ++ a.AccountId ++ lit ")\n")
    match getRoles env fuel token a.AccountId w with
    | none => none
    | some (.error err, w) => some (.error err, w)
    | some (.ok roles, w) =>
      let w := w.print (lit "Roles:\n")
      let r := rolesLoop a roles profiles w
      accountsLoop env fuel token accounts r.1 (r.2.print (lit "\n"))

/-- The loop `for _, p := range profiles` of `UpdateConfig`. -/
def profilesLoop (ssoSessionName defaultRegion : GoString) :
    List Profile → ini.File → World → ini.File × World
  | [], cfg, w => (cfg, w)
  | p :: profiles, cfg, w =>
    let s := cfg.Section (lit "profile " ++ p.Name)
    let cfg := s.1.KeySetValue s.2 (lit "sso_session") ssoSessionName
    let cfg := cfg.KeySetValue s.2 (lit "sso_account_id") p.SSOAccountID
    let cfg := cfg.KeySetValue s.2 (lit "sso_role_name") p.SSORoleName
    let cfg := cfg.KeySetValue s.2 (lit "region") defaultRegion
    profilesLoop ssoSessionName defaultRegion profiles cfg
      (w.print (lit "Added profile " ++ [39] ++ p.Name ++ [39] ++ lit " to config\n"))

/-- The document `UpdateConfig` saves first: `ini.Empty()` with the
`sso-session` section and its two keys. -/
def sessionConfig (startURL ssoSessionName ssoRegion : GoString) : ini.File :=
  let cfg := ini.Empty
  let ssoSession := cfg.Section (lit "sso-session " ++ ssoSessionName)
  let cfg := ssoSession.1.KeySetValue ssoSession.2 (lit "sso_region") ssoRegion
  cfg.KeySetValue ssoSession.2 (lit "sso_start_url") startURL

/-- `UpdateConfig`.  The result is the returned error (`none` for `nil`) and
the state left behind; `none` means that a page loop exceeded `fuel`. -/
def UpdateConfig (env : Env) (fuel : Nat)
    (startURL ssoSessionName ssoRegion defaultRegion : GoString) (w : World) :
    Option (Option GoError × World) :=
  let w := w.print (lit "Initialize config\n")
  -- Create the AWS config dir if it doesn't exist
  match env.mkdirAll with
  | some err => some (some err, w)
  | none =>
    let w := { w with configDir := true }
    -- Clean up any old SSO cache
    let w := w.print (lit "Remove SSO cache\n")
    match env.removeAll with
    | some err => some (some err, w)
    | none =>
      let w := { w with ssoCache := none }
      -- Create initial config file
      let w := w.print (lit "Write config: " ++ env.configFile ++ lit "\n")
      let cfg := sessionConfig startURL ssoSessionName ssoRegion
      match env.saveTo true with
      | some err => some (some err, w)
      | none =>
        let w := { w with configFile := some (.saved cfg) }
        -- Do the initial login
        let w := w.print (lit "Login\n")
        match env.login ssoSessionName with
        | .error err => some (some err, w)
        | .ok cache =>
          let w := { w with ssoCache := some cache }
          -- Get the access token
          let w := w.print (lit "Fetch access token\n")
          match env.getAccessToken ssoSessionName with
          | .error err => some (some err, w)
          | .ok token =>
            let w := w.print (lit "Create SSO client\n")
            -- Get a list of the AWS accounts
            let w := w.print (lit "Get AWS accounts & roles...\n\n")
            match getAccounts env fuel token w with
            | none => none
            | some (.error err, w) => some (some err, w)
            | some (.ok accounts, w) =>
              match accountsLoop env fuel token accounts [] w with
              | none => none
              | some (.error err, w) => some (some err, w)
              | some (.ok profiles, w) =>
                -- Add each profile to the config
                let r := profilesLoop ssoSessionName defaultRegion profiles cfg w
                let w := r.2.print (lit "Saving config to: " ++ env.configFile ++ lit "\n")
                match env.saveTo false with
                | some err => some (some err, w)
                | none => some (none, { w with configFile := some (.saved r.1) })

/-! ## `cmd/root.go`: the command -/

/-- The flags of `rootCmd`. -/
structure Flags where
  defaultRegion : GoString
  force : Bool
  ssoRegion : GoString
  ssoSessionName : GoString

/-- `rootCmd.RunE` on the one argument `cobra.ExactArgs(1)` lets through. -/
def RunE (env : Env) (fuel : Nat) (flags : Flags) (arg : GoString) (w : World) :
    Option (Option GoError × World) :=
  if !flags.force ∧ w.configFile.isSome then
    some (some (lit "config found at " ++ env.configFile ++ lit "\nuse --force to overwrite"), w)
  else
    let r := parseStartURL arg
    if !r.2 then some (some (lit "invalid START_URL: " ++ arg), w)
    else UpdateConfig env fuel r.1 flags.ssoSessionName flags.ssoRegion flags.defaultRegion w

/-! ## Definitions used to state the properties -/

/-- The number of maximal runs of bytes outside `[a-zA-Z0-9]` in `s`: the
positions that hold such a byte and follow no such byte. -/
def maximalRuns (s : GoString) : Nat :=
  ((none :: s.map some).zip s).countP fun p =>
    regexp.nonAlphanumeric p.2 &&
      !(match p.1 with
        | some b => regexp.nonAlphanumeric b
        | none => false)

/-- An environment in which every step succeeds and the service holds the
given accounts, one page each, and the given roles per account id. -/
def exampleEnv (accounts : List AccountInfo) (roles : GoString → List RoleInfo) : Env :=
  { configFile := lit "/home/user/.aws/config"
    configDir := lit "/home/user/.aws"
    mkdirAll := none
    removeAll := none
    saveTo := fun _ => none
    login := fun _ => .ok [(lit "cache/token.json", lit "accessToken")]
    getAccessToken := fun _ => .ok (lit "token")
    ListAccounts := fun _ _ => .ok ⟨accounts, none⟩
    ListAccountRoles := fun _ accountId _ => .ok ⟨roles accountId, none⟩ }

/-- The flags at their defaults, with the given `--force`. -/
def exampleFlags (force : Bool) : Flags :=
  { defaultRegion := lit "us-east-1"
    force := force
    ssoRegion := lit "us-east-1"
    ssoSessionName := lit "default" }

/-- A state with a config file of unknown content and an old SSO cache. -/
def exampleWorld : World :=
  { configFile := some (.raw (lit "[profile old]"))
    configDir := true
    ssoCache := some [(lit "cache/old.json", lit "stale")]
    stdout := []
    calls := [] }

/-- The pages a paginator collects from the request with token `tok` on while
every fetch succeeds: `fetch` answers each request, the paginator asks again
while `HasMorePages` holds for the token of the answer. -/
inductive Pages {α : Type} (fetch : Option GoString → Except GoError (Page α)) :
    Option GoString → List (List α) → Prop where
  | last {tok : Option GoString} {out : Page α} :
      fetch tok = .ok out → (Paginator.mk false out.NextToken).HasMorePages = false →
        Pages fetch tok [out.items]
  | more {tok : Option GoString} {out : Page α} {rest : List (List α)} :
      fetch tok = .ok out → (Paginator.mk false out.NextToken).HasMorePages = true →
        Pages fetch out.NextToken rest → Pages fetch tok (out.items :: rest)

/-- The fetch that follows `n` successful ones, from the request with token
`tok` on, fails with `err`. -/
inductive FailsAfter {α : Type} (fetch : Option GoString → Except GoError (Page α)) :
    Option GoString → Nat → GoError → Prop where
  | now {tok : Option GoString} {err : GoError} :
      fetch tok = .error err → FailsAfter fetch tok 0 err
  | later {tok : Option GoString} {out : Page α} {n : Nat} {err : GoError} :
      fetch tok = .ok out → (Paginator.mk false out.NextToken).HasMorePages = true →
        FailsAfter fetch out.NextToken n err → FailsAfter fetch tok (n + 1) err

/-- What the loops over the catalog may change: the requests sent, all of
them `ListAccountRoles` for an account id of `ids`, and standard output;
files and directories stay. -/
def OnlyRoleCalls (token : GoString) (ids : List GoString) (w w1 : World) : Prop :=
  w1.configFile = w.configFile ∧ w1.configDir = w.configDir ∧ w1.ssoCache = w.ssoCache ∧
    ∃ cs, w1.calls = w.calls ++ cs ∧
      ∀ c ∈ cs, ∃ id ∈ ids, ∃ t, c = Call.ListAccountRoles token id t

/-- Three accounts; the roles of the second come in two pages, and the fetch
of its second page fails. -/
def failingEnv : Env :=
  { exampleEnv [⟨lit "111", lit "Account1 Name"⟩, ⟨lit "222", lit "Account2 Name"⟩,
      ⟨lit "333", lit "Account3 Name"⟩] (fun _ => []) with
    ListAccountRoles := fun _ accountId nextToken =>
      if accountId = lit "222" then
        match nextToken with
        | none => .ok ⟨[⟨lit "Role1"⟩], some (lit "page2")⟩
        | some _ => .error (lit "TooManyRequestsException")
      else .ok ⟨[⟨lit "Role1"⟩, ⟨lit "Role2"⟩], none⟩ }

/-- Two accounts with the same two roles each, in one page per list. -/
def twoByTwoEnv : Env :=
  exampleEnv [⟨lit "111", lit "Account1 Name"⟩, ⟨lit "222", lit "Account2 Name"⟩]
    (fun _ => [⟨lit "Role1"⟩, ⟨lit "Role2"⟩])

/-- One account whose second role name is the first followed by `.x`. -/
def dottedEnv : Env :=
  exampleEnv [⟨lit "111", lit "A"⟩] (fun _ => [⟨lit "R"⟩, ⟨lit "R.x"⟩])

/-- Two accounts whose names sanitise to the same text, both with role `R`,
the second with a role `R.x` as well. -/
def collidingEnv : Env :=
  exampleEnv [⟨lit "111", lit "My Account"⟩, ⟨lit "222", lit "My-Account"⟩]
    (fun accountId => if accountId = lit "111" then [⟨lit "R"⟩] else [⟨lit "R"⟩, ⟨lit "R.x"⟩])

/-- The document a run saved, when it ended without error. -/
def savedDocument (r : Option (Option GoError × World)) : Option ini.File :=
  match r with
  | some (none, w) =>
    match w.configFile with
    | some (.saved doc) => some doc
    | _ => none
  | _ => none

/-- The state in which `UpdateConfig` calls `getAccounts`, when every step
before has succeeded: directory there, old cache replaced by the one the login
left, session document saved, seven lines printed. -/
def beforeCatalog (env : Env) (startURL ssoSessionName ssoRegion : GoString)
    (cache : List (GoString × GoString)) (w : World) : World :=
  let w := w.print (lit "Initialize config\n")
  let w := { w with configDir := true }
  let w := w.print (lit "Remove SSO cache\n")
  let w := { w with ssoCache := none }
  let w := w.print (lit "Write config: " ++ env.configFile ++ lit "\n")
  let w := { w with
    configFile := some (.saved (sessionConfig startURL ssoSessionName ssoRegion)) }
  let w := w.print (lit "Login\n")
  let w := { w with ssoCache := some cache }
  let w := w.print (lit "Fetch access token\n")
  let w := w.print (lit "Create SSO client\n")
  w.print (lit "Get AWS accounts & roles...\n\n")

/-! ### Start URLs: byte classes and well-formed values -/

/-- Printable ASCII other than `?` and `#`: what the part of a rendered URL
between the scheme and the query consists of. -/
def plain (b : Byte) : Bool :=
  0x20 ≤ b.val && b.val < 0x7f && b != ch '?' && b != ch '#'

/-- Plain bytes that cannot end or split an authority: no `/`, no `@`. -/
def authByte (b : Byte) : Bool :=
  plain b && b != ch '/' && b != ch '@'

/-- Authority bytes that `validUserinfo` accepts and that are no `:`. -/
def userByte (b : Byte) : Bool :=
  authByte b && b != ch ':' && url.validUserinfo [b]

/-- A `%XX` escape that the first loop of `url.unescape` accepts in `mode`. -/
def escapeOK (mode : url.encoding) (a b : Byte) : Bool :=
  url.ishex a && url.ishex b &&
    !(decide (mode = url.encoding.encodeHost) && decide ((url.unhex a).val < 8) &&
      decide ([ch '%', a, b] ≠ lit "%25")) &&
    !(decide (mode = url.encoding.encodeZone) && decide ([ch '%', a, b] ≠ lit "%25") &&
      decide ((url.unhex a <<< 4 ||| url.unhex b) ≠ ch ' ') &&
      url.shouldEscape (url.unhex a <<< 4 ||| url.unhex b) url.encoding.encodeHost)

/-- A byte other than `%` that the first loop of `url.unescape` accepts in
`mode`. -/
def rawOK (mode : url.encoding) (c : Byte) : Bool :=
  !((decide (mode = url.encoding.encodeHost) || decide (mode = url.encoding.encodeZone)) &&
    decide (c.val < 0x80) && url.shouldEscape c url.encoding.encodeHost)

/-- What the second loop of `url.unescape` writes for a byte other than `%`. -/
def rawValue (mode : url.encoding) (c : Byte) : Byte :=
  if c = ch '+' ∧ mode = url.encoding.encodeQueryComponent then ch ' ' else c

/-- A byte of a parsed host outside a zone: one that `shouldEscape` leaves
alone in a host, one of `0x80` and above, or `%`. -/
def hostByte (c : Byte) : Bool :=
  !url.shouldEscape c url.encoding.encodeHost || decide (0x80 ≤ c.val) || c == ch '%'

/-- A byte of the zone of a parsed host that came from ASCII text: one that
`shouldEscape` leaves alone in a host, `%`, or a blank. -/
def zoneByte (c : Byte) : Bool :=
  !url.shouldEscape c url.encoding.encodeHost || c == ch '%' || c == ch ' '

/-- Escaping byte `c` in mode `me` and unescaping in mode `mu` gives `c` back,
whatever text follows. -/
def RoundTrips (me mu : url.encoding) (c : Byte) : Prop :=
  ∀ t : GoString,
    url.unescapeCheck mu (url.escapeByte me c ++ t) = url.unescapeCheck mu t ∧
      url.unescapeDecode mu (url.escapeByte me c ++ t) = c :: url.unescapeDecode mu t
/-- A byte of a parsed host before its zone: one that `shouldEscape` leaves
alone in a host, or one of `0x80` and above. -/
def strictByte (c : Byte) : Bool :=
  !url.shouldEscape c url.encoding.encodeHost || decide (0x80 ≤ c.val)

/-- Lower-case ASCII letters. -/
def lowerLetter (c : Byte) : Bool := 97 ≤ c.val && c.val ≤ 122

/-- The bytes of a lower-case scheme: letters, digits, `+`, `-`, `.`. -/
def lowerSchemeByte (c : Byte) : Bool :=
  lowerLetter c || (48 ≤ c.val && c.val ≤ 57) || c == ch '+' || c == ch '-' || c == ch '.'

/-- The bytes `getScheme` lets into a scheme. -/
def schemeByte (c : Byte) : Bool :=
  (97 ≤ c.val && c.val ≤ 122) || (65 ≤ c.val && c.val ≤ 90) || (48 ≤ c.val && c.val ≤ 57) ||
    c == ch '+' || c == ch '-' || c == ch '.'

/-- A scheme as `url.parse` stores it when there is one: a lower-case letter
followed by lower-case letters, digits, `+`, `-` and `.`. -/
def SchemeOK (scheme : GoString) : Prop :=
  ∃ c t, scheme = c :: t ∧ lowerLetter c = true ∧ t.all lowerSchemeByte = true

/-- Whether `url.parse` finds a lone `?` at the end of the text after the
scheme and sets `ForceQuery`. -/
def queryForced (rest : GoString) : Bool :=
  strings.HasSuffix rest (lit "?") && strings.Count rest (ch '?') == 1

/-- The text `url.parse` goes on with once the query is split off. -/
def queryRest (rest : GoString) : GoString :=
  if queryForced rest then rest.take (rest.length - 1) else (strings.Cut rest (ch '?')).1

/-- The `RawQuery` that `url.parse` splits off. -/
def queryRaw (rest : GoString) : GoString :=
  if queryForced rest then [] else (strings.Cut rest (ch '?')).2.1

/-- The rest of `url.parse` once scheme and query are stored in `u`: opaque
text, authority and path of `rest`. -/
def parseHier (u : url.URL) (rest : GoString) : Option url.URL :=
  if !strings.HasPrefix rest (lit "/") ∧ u.Scheme ≠ [] then
    some { u with Opaque := rest }
  else if !strings.HasPrefix rest (lit "/") ∧
      strings.Contains (strings.Cut rest (ch '/')).1 (ch ':') then
    none
  else if (u.Scheme ≠ [] ∨ !strings.HasPrefix rest (lit "///")) ∧
      strings.HasPrefix rest (lit "//") then
    let a := rest.drop 2
    let authority :=
      match strings.IndexByte a (ch '/') with
      | some i => a.take i
      | none => a
    let rest2 :=
      match strings.IndexByte a (ch '/') with
      | some i => a.drop i
      | none => []
    match url.parseAuthority authority with
    | none => none
    | some (user, host) => url.URL.setPath { u with User := user, Host := host } rest2
  else if u.Scheme ≠ [] ∧ strings.HasPrefix rest (lit "/") then
    url.URL.setPath { u with OmitHost := true } rest
  else url.URL.setPath u rest

/-- What `String` writes for the user, with its `@`. -/
def userPart (u : url.URL) : GoString :=
  match u.User with
  | some ui => ui.String ++ [ch '@']
  | none => []

/-- What `String` writes between the `:` of the scheme and the query for a
URL with a scheme and without opaque text: `//`, user, host and path. -/
def hier (u : url.URL) : GoString :=
  (if u.OmitHost ∧ u.Host = [] ∧ u.User.isNone then []
    else
      (if u.Host ≠ [] ∨ u.Path ≠ [] ∨ u.User.isSome then lit "//" else []) ++ userPart u ++
        (if u.Host ≠ [] then url.escape u.Host url.encoding.encodeHost else [])) ++
    (if u.EscapedPath ≠ [] ∧ u.EscapedPath.head? ≠ some (ch '/') ∧ u.Host ≠ [] then [ch '/']
      else []) ++
    u.EscapedPath

/-- What `String` writes for the query, with its `?`. -/
def queryPart (u : url.URL) : GoString :=
  if u.ForceQuery ∨ u.RawQuery ≠ [] then ch '?' :: u.RawQuery else []

/-- What `String` writes for the fragment, with its `#`. -/
def fragmentPart (u : url.URL) : GoString :=
  if u.Fragment ≠ [] then ch '#' :: u.EscapedFragment else []

/-- The query of a parsed URL: no `#`, no control byte, and empty when
`ForceQuery` is set. -/
def QueryOK (u : url.URL) : Prop :=
  ch '#' ∉ u.RawQuery ∧ url.stringContainsCTLByte u.RawQuery = false ∧
    (u.ForceQuery = true → u.RawQuery = [])

/-- The user as `parseAuthority` reads it back from what `String` wrote: a
password that is not set is read as empty. -/
def normUser (user : Option url.Userinfo) : Option url.Userinfo :=
  user.map fun ui => if ui.passwordSet then ui else ⟨ui.username, [], false⟩

/-! ## Start URLs: escaping and unescaping -/

section UrlBytes

open url url.encoding

theorem lit_pct25 : lit "%25" = [ch '%', ch '2', ch '5'] := by decide

theorem unescapeCheck_nil (m : encoding) : unescapeCheck m [] = true := by
  unfold unescapeCheck; rfl

theorem unescapeCheck_pct (m : encoding) (a b : Byte) (r : GoString) :
    unescapeCheck m (ch '%' :: a :: b :: r) = (escapeOK m a b && unescapeCheck m r) := by
  conv_lhs => unfold unescapeCheck
  simp only [if_true, escapeOK]
  by_cases h1 : ishex a = true <;> by_cases h2 : ishex b = true <;>
    by_cases h3 : m = encodeHost ∧ (unhex a).val < 8 ∧ [ch '%', a, b] ≠ lit "%25" <;>
    by_cases h4 : m = encodeZone ∧ [ch '%', a, b] ≠ lit "%25" ∧
      (unhex a <<< 4 ||| unhex b) ≠ ch ' ' ∧
      shouldEscape (unhex a <<< 4 ||| unhex b) encodeHost = true <;>
    simp_all [Bool.and_assoc, Bool.or_assoc]

theorem unescapeCheck_pct_one (m : encoding) (a : Byte) :
    unescapeCheck m [ch '%', a] = false := by
  unfold unescapeCheck; simp

theorem unescapeCheck_pct_nil (m : encoding) : unescapeCheck m [ch '%'] = false := by
  unfold unescapeCheck; simp

theorem unescapeCheck_raw (m : encoding) (c : Byte) (r : GoString) (hc : c ≠ ch '%') :
    unescapeCheck m (c :: r) = (rawOK m c && unescapeCheck m r) := by
  conv_lhs => unfold unescapeCheck
  simp only [if_neg hc, rawOK]
  by_cases hp : c = ch '+'
  · subst hp
    have : shouldEscape (ch '+') encodeHost = false := by decide
    simp [this]
  · simp only [if_neg hp]
    by_cases h : (m = encodeHost ∨ m = encodeZone) ∧ c.val < 0x80 ∧
        shouldEscape c encodeHost = true
    · rw [if_pos h]
      obtain ⟨h1, h2, h3⟩ := h
      rcases h1 with h1 | h1 <;> simp [h1, h2, h3]
    · rw [if_neg h]
      by_cases h1 : m = encodeHost ∨ m = encodeZone
      · by_cases h2 : c.val < 0x80
        · have h3 : shouldEscape c encodeHost = false := by
            cases hs : shouldEscape c encodeHost
            · rfl
            · exact absurd ⟨h1, h2, hs⟩ h
          simp [h3]
        · simp [h2]
      · have : ¬ m = encodeHost ∧ ¬ m = encodeZone := by
          constructor <;> intro hm <;> exact h1 (by simp [hm])
        simp [this.1, this.2]

theorem unescapeDecode_nil (m : encoding) : unescapeDecode m [] = [] := by
  unfold unescapeDecode; rfl

theorem unescapeDecode_pct (m : encoding) (a b : Byte) (r : GoString) :
    unescapeDecode m (ch '%' :: a :: b :: r) =
      (unhex a <<< 4 ||| unhex b) :: unescapeDecode m r := by
  conv_lhs => unfold unescapeDecode
  simp

theorem unescapeDecode_raw (m : encoding) (c : Byte) (r : GoString) (hc : c ≠ ch '%') :
    unescapeDecode m (c :: r) = rawValue m c :: unescapeDecode m r := by
  conv_lhs => unfold unescapeDecode
  simp only [if_neg hc, rawValue]
  by_cases hp : c = ch '+'
  · subst hp
    by_cases hm : m = encodeQueryComponent <;> simp [hm]
  · simp [hp]

/-- Induction along the steps of `url.unescape`: an escape of three bytes, a
`%` with fewer than two bytes after it, any other byte. -/
theorem escape_induction (motive : GoString → Prop) (hnil : motive [])
    (hpct : ∀ a b r, motive r → motive (ch '%' :: a :: b :: r))
    (hone : ∀ a, motive [ch '%', a]) (hzero : motive [ch '%'])
    (hraw : ∀ c r, c ≠ ch '%' → motive r → motive (c :: r)) : ∀ s, motive s := by
  suffices h : ∀ n (s : GoString), s.length = n → motive s from fun s => h _ s rfl
  intro n
  induction n using Nat.strong_induction_on with
  | _ n ih =>
    intro s h
    match s, h with
    | [], _ => exact hnil
    | c :: r, h =>
      by_cases hc : c = ch '%'
      · subst hc
        match r, h with
        | [], _ => exact hzero
        | [a], _ => exact hone a
        | a :: b :: r2, h =>
          exact hpct a b r2 (ih r2.length (by simp at h; omega) r2 rfl)
      · exact hraw c r hc (ih r.length (by simp at h; omega) r rfl)

set_option maxRecDepth 100000 in
theorem hex_roundtrip : ∀ c : Byte,
    ishex (upperhex (c >>> 4)) = true ∧ ishex (upperhex (c &&& 15)) = true ∧
      (unhex (upperhex (c >>> 4)) <<< 4 ||| unhex (upperhex (c &&& 15))) = c := by
  decide!

theorem shouldEscape_pct : ∀ m : encoding, shouldEscape (ch '%') m = true := by
  intro m; cases m <;> decide

set_option maxRecDepth 100000 in
theorem escapeOK_host : ∀ c : Byte, hostByte c = true → shouldEscape c encodeHost = true →
    escapeOK encodeHost (upperhex (c >>> 4)) (upperhex (c &&& 15)) = true := by
  decide!

set_option maxRecDepth 100000 in
theorem escapeOK_zone : ∀ c : Byte, zoneByte c = true → shouldEscape c encodeHost = true →
    escapeOK encodeZone (upperhex (c >>> 4)) (upperhex (c &&& 15)) = true := by
  decide!

theorem escapeOK_other (m : encoding) (a b : Byte) (h1 : m ≠ encodeHost) (h2 : m ≠ encodeZone) :
    escapeOK m a b = (ishex a && ishex b) := by
  simp [escapeOK, h1, h2]

theorem rawOK_other (m : encoding) (c : Byte) (h1 : m ≠ encodeHost) (h2 : m ≠ encodeZone) :
    rawOK m c = true := by
  simp [rawOK, h1, h2]

theorem rawOK_of_not_shouldEscape (m : encoding) (c : Byte)
    (h : shouldEscape c encodeHost = false) : rawOK m c = true := by
  simp [rawOK, h]

theorem rawValue_other (m : encoding) (c : Byte) (h : m ≠ encodeQueryComponent) :
    rawValue m c = c := by
  simp [rawValue, h]

/-- In the modes of a path, a fragment and a user name or password, what
`escape` writes for a byte is read back by `unescape`. -/
theorem roundTrips_other (m : encoding) (c : Byte) (h1 : m ≠ encodeHost) (h2 : m ≠ encodeZone)
    (h3 : m ≠ encodeQueryComponent) : RoundTrips m m c := by
  intro t
  unfold escapeByte
  rw [if_neg (by intro h; exact h3 h.2)]
  by_cases hs : shouldEscape c m = true
  · rw [if_pos hs]
    simp only [List.cons_append, List.nil_append]
    rw [unescapeCheck_pct, unescapeDecode_pct, escapeOK_other m _ _ h1 h2]
    simp [hex_roundtrip c]
  · rw [if_neg hs]
    have hc : c ≠ ch '%' := by
      intro h; subst h; exact hs (shouldEscape_pct m)
    simp only [List.cons_append, List.nil_append]
    rw [unescapeCheck_raw m c t hc, unescapeDecode_raw m c t hc, rawOK_other m c h1 h2,
      rawValue_other m c h3]
    simp

/-- A byte of a parsed host, escaped as a host, is read back as a host. -/
theorem roundTrips_host (c : Byte) (h : hostByte c = true) : RoundTrips encodeHost encodeHost c := by
  intro t
  unfold escapeByte
  rw [if_neg (by intro h; exact absurd h.2 (by decide))]
  by_cases hs : shouldEscape c encodeHost = true
  · rw [if_pos hs]
    simp only [List.cons_append, List.nil_append]
    rw [unescapeCheck_pct, unescapeDecode_pct, escapeOK_host c h hs]
    simp [hex_roundtrip c]
  · rw [if_neg hs]
    have hc : c ≠ ch '%' := by
      intro h; subst h; exact hs (shouldEscape_pct _)
    simp only [List.cons_append, List.nil_append]
    rw [unescapeCheck_raw _ c t hc, unescapeDecode_raw _ c t hc,
      rawOK_of_not_shouldEscape _ c (by simpa using hs), rawValue_other _ c (by decide)]
    simp

/-- A byte of a parsed zone, escaped as a host, is read back as a zone. -/
theorem roundTrips_zone (c : Byte) (h : zoneByte c = true) : RoundTrips encodeHost encodeZone c := by
  intro t
  unfold escapeByte
  rw [if_neg (by intro h; exact absurd h.2 (by decide))]
  by_cases hs : shouldEscape c encodeHost = true
  · rw [if_pos hs]
    simp only [List.cons_append, List.nil_append]
    rw [unescapeCheck_pct, unescapeDecode_pct, escapeOK_zone c h hs]
    simp [hex_roundtrip c]
  · rw [if_neg hs]
    have hc : c ≠ ch '%' := by
      intro h; subst h; exact hs (shouldEscape_pct _)
    simp only [List.cons_append, List.nil_append]
    rw [unescapeCheck_raw _ c t hc, unescapeDecode_raw _ c t hc,
      rawOK_of_not_shouldEscape _ c (by simpa using hs), rawValue_other _ c (by decide)]
    simp

theorem escape_nil (m : encoding) : escape [] m = [] := rfl

theorem escape_cons (m : encoding) (c : Byte) (s : GoString) :
    escape (c :: s) m = escapeByte m c ++ escape s m := rfl

theorem escape_append (m : encoding) (s t : GoString) :
    escape (s ++ t) m = escape s m ++ escape t m := by
  simp [escape, List.flatMap_append]

/-- Text escaped in mode `me` is read back in mode `mu`, whatever follows, when
each of its bytes is. -/
theorem unescape_escape_append (me mu : encoding) (s : GoString)
    (h : ∀ c ∈ s, RoundTrips me mu c) (t : GoString) :
    unescapeCheck mu (escape s me ++ t) = unescapeCheck mu t ∧
      unescapeDecode mu (escape s me ++ t) = s ++ unescapeDecode mu t := by
  induction s with
  | nil => simp [escape_nil]
  | cons c s ih =>
    rw [escape_cons, List.append_assoc]
    obtain ⟨h1, h2⟩ := h c (by simp) (escape s me ++ t)
    obtain ⟨h3, h4⟩ := ih (fun x hx => h x (List.mem_cons_of_mem _ hx))
    rw [h1, h2, h3, h4]
    simp

theorem unescape_escape (me mu : encoding) (s : GoString)
    (h : ∀ c ∈ s, RoundTrips me mu c) : unescape (escape s me) mu = some s := by
  have := unescape_escape_append me mu s h []
  simp only [List.append_nil, unescapeCheck_nil, unescapeDecode_nil] at this
  unfold unescape
  rw [this.1, this.2]
  rfl

theorem unescape_escape_path (s : GoString) : unescape (escape s encodePath) encodePath = some s :=
  unescape_escape _ _ s fun c _ => roundTrips_other _ c (by decide) (by decide) (by decide)

theorem unescape_escape_fragment (s : GoString) :
    unescape (escape s encodeFragment) encodeFragment = some s :=
  unescape_escape _ _ s fun c _ => roundTrips_other _ c (by decide) (by decide) (by decide)

theorem unescape_escape_user (s : GoString) :
    unescape (escape s encodeUserPassword) encodeUserPassword = some s :=
  unescape_escape _ _ s fun c _ => roundTrips_other _ c (by decide) (by decide) (by decide)

/-! ### What escaped text is made of -/

set_option maxRecDepth 100000 in
theorem escapeByte_path_plain : ∀ c : Byte, (escapeByte encodePath c).all plain = true := by
  decide!

set_option maxRecDepth 100000 in
theorem escapeByte_host_auth : ∀ c : Byte, (escapeByte encodeHost c).all authByte = true := by
  decide!

set_option maxRecDepth 100000 in
theorem escapeByte_user : ∀ c : Byte, (escapeByte encodeUserPassword c).all userByte = true := by
  decide!

set_option maxRecDepth 100000 in
theorem validEncoded_byte_plain : ∀ c : Byte, validEncoded [c] encodePath = true → plain c = true := by
  decide!

theorem escape_all (m : encoding) (p : Byte → Bool)
    (h : ∀ c : Byte, (escapeByte m c).all p = true) (s : GoString) :
    (escape s m).all p = true := by
  induction s with
  | nil => rfl
  | cons c s ih => rw [escape_cons, List.all_append, h c, ih]; rfl

theorem validEncoded_plain (s : GoString) (h : validEncoded s encodePath = true) :
    s.all plain = true := by
  induction s with
  | nil => rfl
  | cons c s ih =>
    unfold validEncoded at h
    rw [List.all_cons, Bool.and_eq_true] at h
    rw [List.all_cons, Bool.and_eq_true]
    refine ⟨validEncoded_byte_plain c ?_, ih ?_⟩
    · unfold validEncoded; rw [List.all_cons, List.all_nil, Bool.and_true]; exact h.1
    · unfold validEncoded; exact h.2

theorem authByte_plain (b : Byte) (h : authByte b = true) : plain b = true := by
  unfold authByte at h
  simp only [Bool.and_eq_true] at h
  exact h.1.1

theorem userByte_auth (b : Byte) (h : userByte b = true) : authByte b = true := by
  unfold userByte at h
  simp only [Bool.and_eq_true] at h
  exact h.1.1

theorem all_imp {p q : Byte → Bool} (h : ∀ b, p b = true → q b = true) (s : GoString)
    (hs : s.all p = true) : s.all q = true := by
  rw [List.all_eq_true] at hs ⊢
  exact fun b hb => h b (hs b hb)

end UrlBytes

/-! ## Package `strings`: cutting and searching -/

section StringsLemmas

open strings

theorem Cut_append (a b : GoString) (sep : Byte) (h : sep ∉ a) :
    Cut (a ++ sep :: b) sep = (a, b, true) := by
  induction a with
  | nil => simp [Cut]
  | cons x xs ih =>
    have hx : x ≠ sep := fun e => h (by simp [e])
    have hxs : sep ∉ xs := fun e => h (List.mem_cons_of_mem _ e)
    rw [List.cons_append, Cut, if_neg hx, ih hxs]

theorem Cut_absent (a : GoString) (sep : Byte) (h : sep ∉ a) : Cut a sep = (a, [], false) := by
  induction a with
  | nil => simp [Cut]
  | cons x xs ih =>
    have hx : x ≠ sep := fun e => h (by simp [e])
    have hxs : sep ∉ xs := fun e => h (List.mem_cons_of_mem _ e)
    rw [Cut, if_neg hx, ih hxs]

/-- What `strings.Cut` returns: the text before holds no separator; the text
is put together again from the two parts when the separator was found, and is
the first part otherwise. -/
theorem Cut_spec (s : GoString) (sep : Byte) :
    sep ∉ (Cut s sep).1 ∧
      ((Cut s sep).2.2 = true → s = (Cut s sep).1 ++ sep :: (Cut s sep).2.1) ∧
      ((Cut s sep).2.2 = false → s = (Cut s sep).1 ∧ (Cut s sep).2.1 = []) := by
  induction s with
  | nil => simp [Cut]
  | cons x xs ih =>
    by_cases hx : x = sep
    · simp [Cut, hx]
    · obtain ⟨h1, h2, h3⟩ := ih
      simp only [Cut, if_neg hx]
      refine ⟨?_, ?_, ?_⟩
      · intro hm
        rcases List.mem_cons.1 hm with e | e
        · exact hx e.symm
        · exact h1 e
      · intro hf
        rw [List.cons_append, ← h2 hf]
      · intro hf
        exact ⟨by rw [← (h3 hf).1], (h3 hf).2⟩

theorem IndexByte_append (a b : GoString) (c : Byte) (h : c ∉ a) :
    IndexByte (a ++ c :: b) c = some a.length := by
  induction a with
  | nil => simp [IndexByte]
  | cons x xs ih =>
    have hx : x ≠ c := fun e => h (by simp [e])
    have hxs : c ∉ xs := fun e => h (List.mem_cons_of_mem _ e)
    simp [IndexByte, hx, ih hxs]

theorem IndexByte_absent (a : GoString) (c : Byte) (h : c ∉ a) : IndexByte a c = none := by
  induction a with
  | nil => simp [IndexByte]
  | cons x xs ih =>
    have hx : x ≠ c := fun e => h (by simp [e])
    have hxs : c ∉ xs := fun e => h (List.mem_cons_of_mem _ e)
    simp [IndexByte, hx, ih hxs]

theorem IndexByte_some (s : GoString) (c : Byte) (i : Nat) (h : IndexByte s c = some i) :
    ∃ a b, s = a ++ c :: b ∧ c ∉ a ∧ i = a.length := by
  induction s generalizing i with
  | nil => simp [IndexByte] at h
  | cons x xs ih =>
    by_cases hx : x = c
    · simp only [IndexByte, if_pos hx, Option.some.injEq] at h
      exact ⟨[], xs, by simp [hx], by simp, by simp [← h]⟩
    · simp only [IndexByte, if_neg hx, Option.map_eq_some'] at h
      obtain ⟨j, hj, hi⟩ := h
      obtain ⟨a, b, h1, h2, h3⟩ := ih j hj
      refine ⟨x :: a, b, by simp [h1], ?_, by simp [← hi, h3]⟩
      intro hm
      rcases List.mem_cons.1 hm with e | e
      · exact hx e.symm
      · exact h2 e

theorem IndexByte_none (s : GoString) (c : Byte) (h : IndexByte s c = none) : c ∉ s := by
  induction s with
  | nil => simp
  | cons x xs ih =>
    by_cases hx : x = c
    · simp [IndexByte, hx] at h
    · simp only [IndexByte, if_neg hx, Option.map_eq_none'] at h
      intro hm
      rcases List.mem_cons.1 hm with e | e
      · exact hx e.symm
      · exact ih h e

theorem LastIndexByte_absent (a : GoString) (c : Byte) (h : c ∉ a) :
    LastIndexByte a c = none := by
  induction a with
  | nil => simp [LastIndexByte]
  | cons x xs ih =>
    have hx : x ≠ c := fun e => h (by simp [e])
    have hxs : c ∉ xs := fun e => h (List.mem_cons_of_mem _ e)
    simp [LastIndexByte, hx, ih hxs]

theorem LastIndexByte_append (a b : GoString) (c : Byte) (h : c ∉ b) :
    LastIndexByte (a ++ c :: b) c = some a.length := by
  induction a with
  | nil => simp [LastIndexByte, LastIndexByte_absent b c h]
  | cons x xs ih => simp [LastIndexByte, ih]

theorem LastIndexByte_none (s : GoString) (c : Byte) (h : LastIndexByte s c = none) : c ∉ s := by
  induction s with
  | nil => simp
  | cons x xs ih =>
    unfold LastIndexByte at h
    cases hl : LastIndexByte xs c with
    | some j => simp [hl] at h
    | none =>
      simp only [hl] at h
      by_cases hx : x = c
      · simp [hx] at h
      · intro hm
        rcases List.mem_cons.1 hm with e | e
        · exact hx e.symm
        · exact ih hl e

theorem LastIndexByte_some (s : GoString) (c : Byte) (i : Nat) (h : LastIndexByte s c = some i) :
    ∃ a b, s = a ++ c :: b ∧ c ∉ b ∧ i = a.length := by
  induction s generalizing i with
  | nil => simp [LastIndexByte] at h
  | cons x xs ih =>
    unfold LastIndexByte at h
    cases hl : LastIndexByte xs c with
    | some j =>
      simp only [hl, Option.some.injEq] at h
      obtain ⟨a, b, h1, h2, h3⟩ := ih j hl
      exact ⟨x :: a, b, by simp [h1], h2, by simp [← h, h3]⟩
    | none =>
      simp only [hl] at h
      by_cases hx : x = c
      · simp only [if_pos hx, Option.some.injEq] at h
        exact ⟨[], xs, by simp [hx], LastIndexByte_none xs c hl, by simp [← h]⟩
      · simp [hx] at h

theorem Index_some (s sub : GoString) (z : Nat) (h : Index s sub = some z) :
    ∃ a b, s = a ++ sub ++ b ∧ z = a.length := by
  induction s generalizing z with
  | nil =>
    by_cases hs : sub = []
    · simp only [Index, if_pos hs, Option.some.injEq] at h
      exact ⟨[], [], by simp [hs], by simp [← h]⟩
    · simp [Index, hs] at h
  | cons x xs ih =>
    by_cases hp : sub.isPrefixOf (x :: xs) = true
    · simp only [Index, if_pos hp, Option.some.injEq] at h
      obtain ⟨t, ht⟩ := List.isPrefixOf_iff_prefix.1 hp
      exact ⟨[], t, by simp [ht], by simp [← h]⟩
    · simp only [Index, if_neg hp, Option.map_eq_some'] at h
      obtain ⟨j, hj, hz⟩ := h
      obtain ⟨a, b, h1, h2⟩ := ih j hj
      exact ⟨x :: a, b, by simp [h1], by simp [← hz, h2]⟩

end StringsLemmas

/-! ## Start URLs: hosts -/

section UrlHost

open url url.encoding strings

theorem strictByte_hostByte (c : Byte) (h : strictByte c = true) : hostByte c = true := by
  unfold strictByte at h
  unfold hostByte
  simp only [Bool.or_eq_true] at h ⊢
  exact Or.inl h

theorem hostByte_of_safe (c : Byte) (h : shouldEscape c encodeHost = false) :
    hostByte c = true := by
  simp [hostByte, h]

/-- Text that needs no escaping in a host is what `escape` returns for it. -/
theorem escape_safe (s : GoString) (h : ∀ c ∈ s, shouldEscape c encodeHost = false) :
    escape s encodeHost = s := by
  induction s with
  | nil => rfl
  | cons c s ih =>
    rw [escape_cons, ih (fun x hx => h x (List.mem_cons_of_mem _ hx))]
    have hc := h c (by simp)
    have hne : ¬(c = ch ' ' ∧ encodeHost = encodeQueryComponent) := fun e => by
      exact absurd e.2 (by decide)
    simp [escapeByte, hc, hne]

theorem unescape_safe (s : GoString) (h : ∀ c ∈ s, shouldEscape c encodeHost = false) :
    unescape s encodeHost = some s := by
  have := unescape_escape encodeHost encodeHost s
    (fun c hc => roundTrips_host c (hostByte_of_safe c (h c hc)))
  rwa [escape_safe s h] at this

set_option maxRecDepth 100000 in
theorem digit_safe : ∀ c : Byte, 48 ≤ c.val → c.val ≤ 57 →
    shouldEscape c encodeHost = false ∧ c ≠ ch ']' ∧ c ≠ ch ':' ∧ c ≠ ch '%' := by
  decide!

/-- A valid optional port needs no escaping and holds no `]`; after its first
byte it holds no `:` either. -/
theorem port_safe (port : GoString) (h : validOptionalPort port = true) :
    (∀ c ∈ port, shouldEscape c encodeHost = false) ∧ ch ']' ∉ port ∧
      (∀ c ∈ port.tail, c ≠ ch ':') := by
  match port, h with
  | [], _ => simp
  | c :: digits, h =>
    unfold validOptionalPort at h
    simp only [Bool.and_eq_true, decide_eq_true_eq, List.all_eq_true] at h
    obtain ⟨hc, hd⟩ := h
    subst hc
    refine ⟨?_, ?_, ?_⟩
    · intro x hx
      rcases List.mem_cons.1 hx with e | e
      · subst e; decide
      · have := hd x e
        exact (digit_safe x (by simpa using this.1) (by simpa using this.2)).1
    · intro hx
      rcases List.mem_cons.1 hx with e | e
      · exact absurd e (by decide)
      · have := hd _ e
        exact (digit_safe _ (by simpa using this.1) (by simpa using this.2)).2.1 rfl
    · intro x hx
      have := hd x hx
      exact (digit_safe x (by simpa using this.1) (by simpa using this.2)).2.2.1

/-- `unescape` reads the text before and after a byte that is neither `%` nor
a hexadecimal digit apart. -/
theorem unescape_split (m : encoding) (c : Byte) (d : GoString)
    (hx : ishex c = false) : ∀ a : GoString,
    unescapeCheck m (a ++ c :: d) = (unescapeCheck m a && unescapeCheck m (c :: d)) ∧
      (unescapeCheck m (a ++ c :: d) = true →
        unescapeDecode m (a ++ c :: d) = unescapeDecode m a ++ unescapeDecode m (c :: d)) := by
  apply escape_induction
  · simp [unescapeCheck_nil, unescapeDecode_nil]
  · intro a b r ih
    simp only [List.cons_append]
    rw [unescapeCheck_pct, unescapeCheck_pct, unescapeDecode_pct, unescapeDecode_pct, ih.1]
    refine ⟨by rw [Bool.and_assoc], ?_⟩
    intro h
    simp only [Bool.and_eq_true] at h
    rw [ih.2 (by rw [ih.1]; simp [h.2.1, h.2.2])]
    simp
  · intro a
    simp only [List.cons_append, List.nil_append]
    rw [unescapeCheck_pct, unescapeCheck_pct_one]
    simp [escapeOK, hx]
  · simp only [List.cons_append, List.nil_append]
    rw [unescapeCheck_pct_nil]
    cases d with
    | nil => simp [unescapeCheck_pct_one]
    | cons x d => rw [unescapeCheck_pct]; simp [escapeOK, hx]
  · intro x r hxp ih
    simp only [List.cons_append]
    rw [unescapeCheck_raw m x _ hxp, unescapeCheck_raw m x _ hxp, unescapeDecode_raw m x _ hxp,
      unescapeDecode_raw m x _ hxp, ih.1]
    refine ⟨by rw [Bool.and_assoc], ?_⟩
    intro h
    simp only [Bool.and_eq_true] at h
    rw [ih.2 (by rw [ih.1]; simp [h.2.1, h.2.2])]
    simp

set_option maxRecDepth 100000 in
theorem escapeOK_host_value : ∀ a : Byte, ishex a = true → ∀ b : Byte, ishex b = true →
    escapeOK encodeHost a b = true →
      hostByte (unhex a <<< 4 ||| unhex b) = true ∧
        ([ch '%', a, b] ≠ lit "%25" → strictByte (unhex a <<< 4 ||| unhex b) = true) ∧
        (unhex a <<< 4 ||| unhex b) ≠ ch '[' ∧ (unhex a <<< 4 ||| unhex b) ≠ ch ':' := by
  decide!

set_option maxRecDepth 100000 in
theorem escapeOK_zone_value : ∀ a : Byte, ishex a = true → ∀ b : Byte, ishex b = true →
    escapeOK encodeZone a b = true → zoneByte (unhex a <<< 4 ||| unhex b) = true := by
  decide!

set_option maxRecDepth 100000 in
theorem rawOK_host_value : ∀ c : Byte, rawOK encodeHost c = true → strictByte c = true := by
  decide!

set_option maxRecDepth 100000 in
theorem rawOK_zone_value : ∀ c : Byte, c.val < 0x80 → rawOK encodeZone c = true →
    zoneByte c = true := by
  decide!

theorem escapeOK_ishex (m : encoding) (a b : Byte) (h : escapeOK m a b = true) :
    ishex a = true ∧ ishex b = true := by
  unfold escapeOK at h
  simp only [Bool.and_eq_true] at h
  exact ⟨h.1.1.1, h.1.1.2⟩

/-- What a host is made of once unescaped. -/
theorem unescapeDecode_host_bytes : ∀ e : GoString, unescapeCheck encodeHost e = true →
    ∀ x ∈ unescapeDecode encodeHost e, hostByte x = true := by
  apply escape_induction
  · simp [unescapeDecode_nil]
  · intro a b r ih h x hx
    rw [unescapeCheck_pct, Bool.and_eq_true] at h
    rw [unescapeDecode_pct] at hx
    rcases List.mem_cons.1 hx with e | e
    · rw [e]
      exact (escapeOK_host_value a (escapeOK_ishex _ a b h.1).1 b (escapeOK_ishex _ a b h.1).2
        h.1).1
    · exact ih h.2 x e
  · intro a h; rw [unescapeCheck_pct_one] at h; exact absurd h (by simp)
  · intro h; rw [unescapeCheck_pct_nil] at h; exact absurd h (by simp)
  · intro c r hc ih h x hx
    rw [unescapeCheck_raw _ c r hc, Bool.and_eq_true] at h
    rw [unescapeDecode_raw _ c r hc, rawValue_other _ c (by decide)] at hx
    rcases List.mem_cons.1 hx with e | e
    · rw [e]; exact strictByte_hostByte c (rawOK_host_value c h.1)
    · exact ih h.2 x e

theorem Index_cons_none (x : Byte) (xs sub : GoString) (h : Index (x :: xs) sub = none) :
    sub.isPrefixOf (x :: xs) = false ∧ Index xs sub = none := by
  unfold Index at h
  by_cases hp : sub.isPrefixOf (x :: xs) = true
  · simp [hp] at h
  · simp only [if_neg hp, Option.map_eq_none'] at h
    exact ⟨by simpa only [Bool.not_eq_true] using hp, h⟩

/-- What a host without `%25` is made of once unescaped. -/
theorem unescapeDecode_host_strict : ∀ e : GoString, unescapeCheck encodeHost e = true →
    Index e (lit "%25") = none → ∀ x ∈ unescapeDecode encodeHost e, strictByte x = true := by
  apply escape_induction
  · simp [unescapeDecode_nil]
  · intro a b r ih h hi x hx
    rw [unescapeCheck_pct, Bool.and_eq_true] at h
    rw [unescapeDecode_pct] at hx
    obtain ⟨hp, hi1⟩ := Index_cons_none _ _ _ hi
    obtain ⟨_, hi2⟩ := Index_cons_none _ _ _ hi1
    obtain ⟨_, hi3⟩ := Index_cons_none _ _ _ hi2
    rcases List.mem_cons.1 hx with e | e
    · rw [e]
      refine (escapeOK_host_value a (escapeOK_ishex _ a b h.1).1 b (escapeOK_ishex _ a b h.1).2
        h.1).2.1 ?_
      intro heq
      rw [lit_pct25] at hp heq
      simp only [List.cons.injEq, and_true, true_and] at heq
      simp [List.isPrefixOf, heq.1, heq.2] at hp
    · exact ih h.2 hi3 x e
  · intro a h; rw [unescapeCheck_pct_one] at h; exact absurd h (by simp)
  · intro h; rw [unescapeCheck_pct_nil] at h; exact absurd h (by simp)
  · intro c r hc ih h hi x hx
    rw [unescapeCheck_raw _ c r hc, Bool.and_eq_true] at h
    rw [unescapeDecode_raw _ c r hc, rawValue_other _ c (by decide)] at hx
    obtain ⟨_, hi1⟩ := Index_cons_none _ _ _ hi
    rcases List.mem_cons.1 hx with e | e
    · rw [e]; exact rawOK_host_value c h.1
    · exact ih h.2 hi1 x e

/-- What the zone of a host written in ASCII is made of once unescaped. -/
theorem unescapeDecode_zone_bytes : ∀ e : GoString, unescapeCheck encodeZone e = true →
    (∀ b ∈ e, b.val < 0x80) → ∀ x ∈ unescapeDecode encodeZone e, zoneByte x = true := by
  apply escape_induction
  · simp [unescapeDecode_nil]
  · intro a b r ih h ha x hx
    rw [unescapeCheck_pct, Bool.and_eq_true] at h
    rw [unescapeDecode_pct] at hx
    rcases List.mem_cons.1 hx with e | e
    · rw [e]
      exact escapeOK_zone_value a (escapeOK_ishex _ a b h.1).1 b (escapeOK_ishex _ a b h.1).2 h.1
    · exact ih h.2 (fun y hy => ha y (by simp [hy])) x e
  · intro a h; rw [unescapeCheck_pct_one] at h; exact absurd h (by simp)
  · intro h; rw [unescapeCheck_pct_nil] at h; exact absurd h (by simp)
  · intro c r hc ih h ha x hx
    rw [unescapeCheck_raw _ c r hc, Bool.and_eq_true] at h
    rw [unescapeDecode_raw _ c r hc, rawValue_other _ c (by decide)] at hx
    rcases List.mem_cons.1 hx with e | e
    · rw [e]; exact rawOK_zone_value c (ha c (by simp)) h.1
    · exact ih h.2 (fun y hy => ha y (by simp [hy])) x e

theorem Index_nil_pct25 : Index [] (lit "%25") = none := by decide

theorem Index_skip (x : Byte) (rest : GoString) (h : x ≠ ch '%') :
    Index (x :: rest) (lit "%25") = (Index rest (lit "%25")).map (· + 1) := by
  conv_lhs => unfold Index
  rw [lit_pct25]
  simp [List.isPrefixOf, h.symm]

theorem Index_skip_pct (x : Byte) (rest : GoString) (h : x ≠ ch '2') :
    Index (ch '%' :: x :: rest) (lit "%25") = (Index (x :: rest) (lit "%25")).map (· + 1) := by
  conv_lhs => unfold Index
  rw [lit_pct25]
  simp [List.isPrefixOf, h.symm]

theorem Index_found (rest : GoString) : Index (lit "%25" ++ rest) (lit "%25") = some 0 := by
  rw [lit_pct25]
  simp [Index, List.isPrefixOf]

set_option maxRecDepth 100000 in
theorem escapeByte_strict : ∀ c : Byte, strictByte c = true →
    escapeByte encodeHost c = [c] ∧ c ≠ ch '%' ∨
      escapeByte encodeHost c = [ch '%', upperhex (c >>> 4), upperhex (c &&& 15)] ∧
        upperhex (c >>> 4) ≠ ch '2' ∧ upperhex (c >>> 4) ≠ ch '%' ∧
        upperhex (c &&& 15) ≠ ch '%' := by
  decide!

/-- The first `%25` of escaped host text does not start in the part that
comes from bytes other than `%`. -/
theorem Index_escape_strict (s : GoString) (h : ∀ c ∈ s, strictByte c = true) (t : GoString) :
    Index (escape s encodeHost ++ t) (lit "%25") =
      (Index t (lit "%25")).map (· + (escape s encodeHost).length) := by
  induction s with
  | nil => simp [escape_nil]
  | cons c s ih =>
    rw [escape_cons, List.append_assoc]
    have ih := ih (fun x hx => h x (List.mem_cons_of_mem _ hx))
    rcases escapeByte_strict c (h c (by simp)) with ⟨h1, h2⟩ | ⟨h1, h2, h3, h4⟩
    · rw [h1]
      simp only [List.cons_append, List.nil_append]
      rw [Index_skip c _ h2, ih]
      cases Index t (lit "%25") <;> simp [Nat.add_assoc]
    · rw [h1]
      simp only [List.cons_append, List.nil_append]
      rw [Index_skip_pct _ _ h2, Index_skip _ _ h3, Index_skip _ _ h4, ih]
      cases Index t (lit "%25") <;> simp [Nat.add_assoc]

theorem Index_some_first (s sub : GoString) (hsub : sub ≠ []) (z : Nat)
    (h : Index s sub = some z) :
    ∃ a b, s = a ++ sub ++ b ∧ z = a.length ∧ Index a sub = none := by
  induction s generalizing z with
  | nil => simp [Index, hsub] at h
  | cons x xs ih =>
    by_cases hp : sub.isPrefixOf (x :: xs) = true
    · simp only [Index, if_pos hp, Option.some.injEq] at h
      obtain ⟨t, ht⟩ := List.isPrefixOf_iff_prefix.1 hp
      exact ⟨[], t, by simp [ht], by simp [← h], by simp [Index, hsub]⟩
    · simp only [Index, if_neg hp, Option.map_eq_some'] at h
      obtain ⟨j, hj, hz⟩ := h
      obtain ⟨a, b, h1, h2, h3⟩ := ih j hj
      refine ⟨x :: a, b, by simp [h1], by simp [← hz, h2], ?_⟩
      have hq : ¬ sub.isPrefixOf (x :: a) = true := by
        intro hq
        apply hp
        obtain ⟨t, ht⟩ := List.isPrefixOf_iff_prefix.1 hq
        apply List.isPrefixOf_iff_prefix.2
        exact ⟨t ++ (sub ++ b), by rw [h1, ← List.append_assoc, ht]; simp⟩
      simp [Index, hq, h3]

theorem HasPrefix_singleton (s : GoString) (c : Byte) :
    HasPrefix s [c] = true ↔ s.head? = some c := by
  cases s with
  | nil => simp [HasPrefix, List.isPrefixOf]
  | cons x xs =>
    simp only [HasPrefix, List.isPrefixOf, List.head?_cons, Option.some.injEq, Bool.and_true,
      beq_iff_eq]
    exact eq_comm

set_option maxRecDepth 100000 in
theorem escapeByte_host_head : ∀ c : Byte,
    (c ≠ ch '[' → (escapeByte encodeHost c).head? ≠ some (ch '[')) ∧
      (c ≠ ch ':' → (escapeByte encodeHost c).all (fun b => b != ch ':') = true) ∧
      escapeByte encodeHost c ≠ [] := by
  decide!

theorem escape_head (s : GoString) (h : s.head? ≠ some (ch '[')) :
    (escape s encodeHost).head? ≠ some (ch '[') := by
  cases s with
  | nil => simp [escape_nil]
  | cons c s =>
    rw [escape_cons]
    have hc : c ≠ ch '[' := by simpa using h
    have h1 := (escapeByte_host_head c).1 hc
    have h2 := (escapeByte_host_head c).2.2
    cases he : escapeByte encodeHost c with
    | nil => exact absurd he h2
    | cons y ys => rw [he] at h1; simpa using h1

theorem escape_no_colon (s : GoString) (h : ch ':' ∉ s) : ch ':' ∉ escape s encodeHost := by
  induction s with
  | nil => simp [escape_nil]
  | cons c s ih =>
    rw [escape_cons]
    intro hm
    rcases List.mem_append.1 hm with e | e
    · have hc : c ≠ ch ':' := fun e => h (by simp [e])
      have := (escapeByte_host_head c).2.1 hc
      rw [List.all_eq_true] at this
      simpa using this _ e
    · exact ih (fun e => h (List.mem_cons_of_mem _ e)) e

/-- Unescaping a host neither makes a leading `[` nor a `:`. -/
theorem unescapeDecode_host_keeps : ∀ e : GoString, unescapeCheck encodeHost e = true →
    (e.head? ≠ some (ch '[') → (unescapeDecode encodeHost e).head? ≠ some (ch '[')) ∧
      (ch ':' ∉ e → ch ':' ∉ unescapeDecode encodeHost e) := by
  apply escape_induction
  · simp [unescapeDecode_nil]
  · intro a b r ih h
    rw [unescapeCheck_pct, Bool.and_eq_true] at h
    rw [unescapeDecode_pct]
    have hv := escapeOK_host_value a (escapeOK_ishex _ a b h.1).1 b (escapeOK_ishex _ a b h.1).2
      h.1
    refine ⟨fun _ => by simpa using hv.2.2.1, ?_⟩
    intro hm hx
    rcases List.mem_cons.1 hx with e | e
    · exact hv.2.2.2 e.symm
    · exact (ih h.2).2 (fun e1 => hm (by simp [e1])) e
  · intro a h; rw [unescapeCheck_pct_one] at h; exact absurd h (by simp)
  · intro h; rw [unescapeCheck_pct_nil] at h; exact absurd h (by simp)
  · intro c r hc ih h
    rw [unescapeCheck_raw _ c r hc, Bool.and_eq_true] at h
    rw [unescapeDecode_raw _ c r hc, rawValue_other _ c (by decide)]
    refine ⟨fun hh => by simpa using hh, ?_⟩
    intro hm hx
    rcases List.mem_cons.1 hx with e | e
    · exact hm (by simp [e])
    · exact (ih h.2).2 (fun e1 => hm (by simp [e1])) e

theorem unescape_some (e h : GoString) (m : encoding) (hu : unescape e m = some h) :
    unescapeCheck m e = true ∧ h = unescapeDecode m e := by
  unfold unescape at hu
  by_cases hc : unescapeCheck m e = true
  · rw [if_pos hc] at hu
    exact ⟨hc, by simpa using hu.symm⟩
  · rw [if_neg hc] at hu
    exact absurd hu (by simp)

end UrlHost

section UrlHostParse

open url url.encoding strings

theorem take_length_append (a b : GoString) : (a ++ b).take a.length = a := by
  induction a with
  | nil => simp
  | cons x xs ih => simp [ih]

theorem drop_length_append (a b : GoString) : (a ++ b).drop a.length = b := by
  induction a with
  | nil => simp
  | cons x xs ih => simp [ih]

theorem drop_length_succ_append (a b : GoString) (c : Byte) :
    (a ++ c :: b).drop (a.length + 1) = b := by
  induction a with
  | nil => simp
  | cons x xs ih => simp [ih]

theorem bracket_port_safe (pt : GoString) (hv : validOptionalPort pt = true) :
    ∀ c ∈ ch ']' :: pt, shouldEscape c encodeHost = false := by
  intro c hc
  rcases List.mem_cons.1 hc with e | e
  · subst e; decide
  · exact (port_safe pt hv).1 c e

theorem hostByte_all_roundTrips (h : GoString) (hb : ∀ c ∈ h, hostByte c = true) :
    unescape (escape h encodeHost) encodeHost = some h :=
  unescape_escape _ _ h fun c hc => roundTrips_host c (hb c hc)

/-- A host without brackets is parsed back from its escaped form. -/
theorem parseHost_escape_plain (h : GoString) (hh : h.head? ≠ some (ch '['))
    (hb : ∀ c ∈ h, hostByte c = true)
    (hport : ch ':' ∉ h ∨ ∃ a d, h = a ++ ch ':' :: d ∧ validOptionalPort (ch ':' :: d) = true) :
    parseHost (escape h encodeHost) = some h := by
  have hp : HasPrefix (escape h encodeHost) [ch '['] = false := by
    cases hq : HasPrefix (escape h encodeHost) [ch '[']
    · rfl
    · exact absurd ((HasPrefix_singleton _ _).1 hq) (escape_head h hh)
  unfold parseHost
  rw [hp]
  simp only [Bool.false_eq_true, if_false]
  rcases hport with hc | ⟨a, d, he, hv⟩
  · rw [LastIndexByte_absent _ _ (escape_no_colon h hc)]
    exact hostByte_all_roundTrips h hb
  · have hsafe := (port_safe _ hv).1
    have hd : ch ':' ∉ d := fun e => (port_safe _ hv).2.2 _ e rfl
    have hesc : escape h encodeHost = escape a encodeHost ++ ch ':' :: d := by
      rw [he, escape_append, escape_safe _ hsafe]
    rw [hesc, LastIndexByte_append _ _ _ hd]
    simp only [drop_length_append, hv, Bool.not_true, Bool.false_eq_true, if_false]
    rw [← hesc]
    exact hostByte_all_roundTrips h hb

/-- A bracketed host without a zone is parsed back from its escaped form. -/
theorem parseHost_escape_bracket (hB pt : GoString) (hh : hB.head? = some (ch '['))
    (hb : ∀ c ∈ hB, strictByte c = true) (hv : validOptionalPort pt = true) :
    parseHost (escape (hB ++ ch ']' :: pt) encodeHost) = some (hB ++ ch ']' :: pt) := by
  have hsafe := bracket_port_safe pt hv
  have hesc : escape (hB ++ ch ']' :: pt) encodeHost =
      escape hB encodeHost ++ ch ']' :: pt := by
    rw [escape_append, escape_safe _ hsafe]
  have hhead : (escape hB encodeHost).head? = some (ch '[') := by
    cases hB with
    | nil => simp at hh
    | cons c r =>
      have hc : c = ch '[' := by simpa using hh
      subst hc
      rfl
  have hp : HasPrefix (escape hB encodeHost ++ ch ']' :: pt) [ch '['] = true := by
    rw [HasPrefix_singleton]
    cases he : escape hB encodeHost with
    | nil => rw [he] at hhead; simp at hhead
    | cons y ys => rw [he] at hhead; simpa using hhead
  have hall : ∀ c ∈ hB ++ ch ']' :: pt, hostByte c = true := by
    intro c hc
    rcases List.mem_append.1 hc with e | e
    · exact strictByte_hostByte c (hb c e)
    · exact hostByte_of_safe c (hsafe c e)
  have hidx : Index (escape hB encodeHost) (lit "%25") = none := by
    have := Index_escape_strict hB hb []
    rw [List.append_nil, Index_nil_pct25] at this
    rw [this]; rfl
  rw [hesc]
  unfold parseHost
  rw [hp, LastIndexByte_append _ _ _ (port_safe pt hv).2.1]
  simp only [if_true, drop_length_succ_append, hv, Bool.not_true, Bool.false_eq_true, if_false,
    take_length_append, hidx]
  rw [← hesc]
  exact hostByte_all_roundTrips _ hall

/-- A bracketed host with a zone is parsed back from its escaped form. -/
theorem parseHost_escape_zone (h1 dz pt : GoString) (hh : h1.head? = some (ch '['))
    (hb : ∀ c ∈ h1, strictByte c = true) (hz : ∀ c ∈ dz, zoneByte c = true)
    (hv : validOptionalPort pt = true) :
    parseHost (escape (h1 ++ (ch '%' :: dz) ++ ch ']' :: pt) encodeHost) =
      some (h1 ++ (ch '%' :: dz) ++ ch ']' :: pt) := by
  have hsafe := bracket_port_safe pt hv
  have hpct : escape (ch '%' :: dz) encodeHost = lit "%25" ++ escape dz encodeHost := by
    rw [escape_cons]
    have : escapeByte encodeHost (ch '%') = lit "%25" := by decide
    rw [this]
  have hesc : escape (h1 ++ (ch '%' :: dz) ++ ch ']' :: pt) encodeHost =
      (escape h1 encodeHost ++ escape (ch '%' :: dz) encodeHost) ++ ch ']' :: pt := by
    rw [escape_append, escape_append, escape_safe _ hsafe]
  have hhead : (escape h1 encodeHost).head? = some (ch '[') := by
    cases h1 with
    | nil => simp at hh
    | cons c r =>
      have hc : c = ch '[' := by simpa using hh
      subst hc
      rfl
  have hp : HasPrefix ((escape h1 encodeHost ++ escape (ch '%' :: dz) encodeHost) ++
      ch ']' :: pt) [ch '['] = true := by
    rw [HasPrefix_singleton]
    cases he : escape h1 encodeHost with
    | nil => rw [he] at hhead; simp at hhead
    | cons y ys => rw [he] at hhead; simpa using hhead
  have hidx : Index (escape h1 encodeHost ++ escape (ch '%' :: dz) encodeHost) (lit "%25") =
      some (escape h1 encodeHost).length := by
    rw [Index_escape_strict h1 hb, hpct, Index_found]
    simp
  have hz1 : ∀ c ∈ ch '%' :: dz, zoneByte c = true := by
    intro c hc
    rcases List.mem_cons.1 hc with e | e
    · subst e; decide
    · exact hz c e
  have r1 : unescape (escape h1 encodeHost) encodeHost = some h1 :=
    hostByte_all_roundTrips h1 fun c hc => strictByte_hostByte c (hb c hc)
  have r2 : unescape (escape (ch '%' :: dz) encodeHost) encodeZone = some (ch '%' :: dz) :=
    unescape_escape _ _ _ fun c hc => roundTrips_zone c (hz1 c hc)
  have r3 : unescape (ch ']' :: pt) encodeHost = some (ch ']' :: pt) := unescape_safe _ hsafe
  have t1 : ((escape h1 encodeHost ++ escape (ch '%' :: dz) encodeHost) ++ ch ']' :: pt).take
      (escape h1 encodeHost).length = escape h1 encodeHost := by
    rw [List.append_assoc]; exact take_length_append _ _
  rw [hesc]
  unfold parseHost
  rw [hp, LastIndexByte_append _ _ _ (port_safe pt hv).2.1]
  simp only [if_true, drop_length_succ_append, hv, Bool.not_true, Bool.false_eq_true, if_false,
    take_length_append, hidx, drop_length_append, t1, r1, r2, r3]

theorem head_of_HasPrefix_append (b : GoString) (c x : Byte) (rest : GoString) (hx : x ≠ c)
    (h : HasPrefix (b ++ x :: rest) [c] = true) : b.head? = some c := by
  rw [HasPrefix_singleton] at h
  cases b with
  | nil => simp at h; exact absurd h hx
  | cons y ys => simpa using h

theorem unescapeDecode_head (m : encoding) (c : Byte) (b : GoString) (hc : c ≠ ch '%')
    (hm : m ≠ encodeQueryComponent) (h : b.head? = some c) :
    (unescapeDecode m b).head? = some c := by
  cases b with
  | nil => simp at h
  | cons y ys =>
    have hy : y = c := by simpa using h
    subst hy
    rw [unescapeDecode_raw m y ys hc, rawValue_other m y hm]
    rfl

/-- A host that `parseHost` returns for ASCII text is parsed back from its
escaped form, the form `String` writes. -/
theorem parseHost_escape (e h : GoString) (hascii : ∀ b ∈ e, b.val < 0x80)
    (hp : parseHost e = some h) : parseHost (escape h encodeHost) = some h := by
  unfold parseHost at hp
  by_cases hb : HasPrefix e [ch '['] = true
  · rw [if_pos hb] at hp
    cases hl : LastIndexByte e (ch ']') with
    | none => rw [hl] at hp; simp at hp
    | some i =>
      rw [hl] at hp
      obtain ⟨B, pt, he, hpt, hi⟩ := LastIndexByte_some e _ i hl
      subst hi; subst he
      simp only [drop_length_succ_append] at hp
      by_cases hv : validOptionalPort pt = true
      · simp only [hv, Bool.not_true, Bool.false_eq_true, if_false, take_length_append,
          drop_length_append] at hp
        have hsafe := bracket_port_safe pt hv
        have hBhead : B.head? = some (ch '[') :=
          head_of_HasPrefix_append B _ _ pt (by decide) hb
        have h3 := unescape_some _ _ _ (unescape_safe _ hsafe)
        cases hz : Index B (lit "%25") with
        | none =>
          rw [hz] at hp
          simp only at hp
          obtain ⟨hc, hd⟩ := unescape_some _ _ _ hp
          have hs := unescape_split encodeHost (ch ']') pt (by decide) B
          rw [hs.1, Bool.and_eq_true] at hc
          have hdec := hs.2 (by rw [hs.1]; simp [hc.1, hc.2])
          rw [hdec, ← h3.2] at hd
          subst hd
          exact parseHost_escape_bracket _ pt
            (unescapeDecode_head _ _ B (by decide) (by decide) hBhead)
            (unescapeDecode_host_strict B hc.1 hz) hv
        | some z =>
          rw [hz] at hp
          obtain ⟨B1, B2, hB, hzl, hnone⟩ := Index_some_first B _ (by decide) z hz
          subst hzl; subst hB
          have t1 : (B1 ++ lit "%25" ++ B2 ++ ch ']' :: pt).take B1.length = B1 := by
            rw [List.append_assoc, List.append_assoc]; exact take_length_append _ _
          have t2 : (B1 ++ lit "%25" ++ B2).drop B1.length = lit "%25" ++ B2 := by
            rw [List.append_assoc]; exact drop_length_append _ _
          simp only [t1, t2, unescape_safe _ hsafe] at hp
          cases u1 : unescape B1 encodeHost with
          | none => rw [u1] at hp; simp at hp
          | some host1 =>
            cases u2 : unescape (lit "%25" ++ B2) encodeZone with
            | none => rw [u1, u2] at hp; simp at hp
            | some host2 =>
              rw [u1, u2] at hp
              simp only [Option.some.injEq] at hp
              obtain ⟨c1, d1⟩ := unescape_some _ _ _ u1
              obtain ⟨c2, d2⟩ := unescape_some _ _ _ u2
              rw [lit_pct25] at c2 d2
              simp only [List.cons_append, List.nil_append] at c2 d2
              rw [unescapeCheck_pct, Bool.and_eq_true] at c2
              rw [unescapeDecode_pct] at d2
              have hval : (unhex (ch '2') <<< 4 ||| unhex (ch '5')) = ch '%' := by decide
              rw [hval] at d2
              have hB1head : B1.head? = some (ch '[') := by
                cases B1 with
                | nil =>
                  rw [lit_pct25] at hBhead
                  simp at hBhead
                  exact absurd hBhead (by decide)
                | cons y ys => simpa using hBhead
              have hasc2 : ∀ b ∈ B2, b.val < 0x80 := fun b hb2 =>
                hascii b (by simp [hb2])
              rw [← hp, d1, d2]
              exact parseHost_escape_zone _ _ pt
                (unescapeDecode_head _ _ B1 (by decide) (by decide) hB1head)
                (unescapeDecode_host_strict B1 c1 hnone)
                (unescapeDecode_zone_bytes B2 c2.2 hasc2) hv
      · simp [hv] at hp
  · rw [if_neg hb] at hp
    have hhead : e.head? ≠ some (ch '[') := fun hq => hb ((HasPrefix_singleton _ _).2 hq)
    cases hl : LastIndexByte e (ch ':') with
    | none =>
      rw [hl] at hp
      simp only at hp
      obtain ⟨hc, hd⟩ := unescape_some _ _ _ hp
      subst hd
      exact parseHost_escape_plain _ ((unescapeDecode_host_keeps e hc).1 hhead)
        (unescapeDecode_host_bytes e hc)
        (Or.inl ((unescapeDecode_host_keeps e hc).2 (LastIndexByte_none e _ hl)))
    | some i =>
      rw [hl] at hp
      obtain ⟨A, D, he, hD, hi⟩ := LastIndexByte_some e _ i hl
      subst hi
      rw [he] at hp
      simp only [drop_length_append] at hp
      by_cases hv : validOptionalPort (ch ':' :: D) = true
      · simp only [hv, Bool.not_true, Bool.false_eq_true, if_false] at hp
        rw [← he] at hp
        obtain ⟨hc, hd⟩ := unescape_some _ _ _ hp
        have hkeep := unescapeDecode_host_keeps e hc
        have hbytes := unescapeDecode_host_bytes e hc
        have h3 := unescape_some _ _ _ (unescape_safe _ (port_safe _ hv).1)
        have hs := unescape_split encodeHost (ch ':') D (by decide) A
        rw [he] at hc
        rw [hs.1, Bool.and_eq_true] at hc
        have hdec := hs.2 (by rw [hs.1]; simp [hc.1, hc.2])
        rw [← h3.2, ← he] at hdec
        rw [← hd] at hkeep hbytes hdec
        exact parseHost_escape_plain h (hkeep.1 hhead) hbytes (Or.inr ⟨_, D, hdec, hv⟩)
      · simp [hv] at hp

end UrlHostParse

/-! ## Start URLs: schemes -/

section UrlScheme

open url url.encoding strings

set_option maxRecDepth 100000 in
theorem schemeByte_cases : ∀ c : Byte,
    (schemeByte c = true ↔
      ((97 ≤ c.val ∧ c.val ≤ 122) ∨ (65 ≤ c.val ∧ c.val ≤ 90)) ∨
        ((48 ≤ c.val ∧ c.val ≤ 57) ∨ c = ch '+' ∨ c = ch '-' ∨ c = ch '.')) ∧
      (schemeByte c = true → c ≠ ch ':' ∧ c ≠ ch '#' ∧ c ≠ ch '?' ∧
        ¬(c.val < 0x20 ∨ c.val = 0x7f) ∧ lowerSchemeByte (lowerByte c) = true) ∧
      (lowerSchemeByte c = true → schemeByte c = true ∧ lowerByte c = c) ∧
      (lowerLetter c = true → lowerSchemeByte c = true ∧ (97 ≤ c.val ∧ c.val ≤ 122)) ∧
      ((97 ≤ c.val ∧ c.val ≤ 122) ∨ (65 ≤ c.val ∧ c.val ≤ 90) →
        lowerLetter (lowerByte c) = true) := by
  decide!

/-- The loop of `getScheme` on a scheme followed by `:`. -/
theorem getSchemeLoop_scheme (raw : GoString) (rest : GoString) :
    ∀ (mid pre : GoString), raw = pre ++ (mid ++ ch ':' :: rest) →
      mid.all schemeByte = true →
      (pre = [] → ∃ c t, mid = c :: t ∧ ((97 ≤ c.val ∧ c.val ≤ 122) ∨ (65 ≤ c.val ∧ c.val ≤ 90))) →
      getSchemeLoop raw pre.length (mid ++ ch ':' :: rest) = some (pre ++ mid, rest) := by
  intro mid
  induction mid with
  | nil =>
    intro pre hraw _ hpre
    have hne : pre ≠ [] := by
      intro h
      obtain ⟨c, t, hct, _⟩ := hpre h
      simp at hct
    have hlen : pre.length ≠ 0 := by
      intro h; exact hne (List.length_eq_zero.1 h)
    simp only [List.nil_append, List.append_nil]
    unfold getSchemeLoop
    have h1 : ¬((97 ≤ (ch ':').val ∧ (ch ':').val ≤ 122) ∨
        (65 ≤ (ch ':').val ∧ (ch ':').val ≤ 90)) := by decide
    have h2 : ¬((48 ≤ (ch ':').val ∧ (ch ':').val ≤ 57) ∨ ch ':' = ch '+' ∨ ch ':' = ch '-' ∨
        ch ':' = ch '.') := by decide
    rw [if_neg h1, if_neg h2, if_pos rfl, if_neg hlen, hraw]
    simp only [List.nil_append, take_length_append, drop_length_succ_append]
  | cons c mid ih =>
    intro pre hraw hall hpre
    rw [List.all_cons, Bool.and_eq_true] at hall
    have hnext := ih (pre ++ [c]) (by rw [hraw]; simp) hall.2 (by simp)
    simp only [List.length_append, List.length_singleton, List.append_assoc,
      List.singleton_append] at hnext
    simp only [List.cons_append]
    unfold getSchemeLoop
    by_cases hl : (97 ≤ c.val ∧ c.val ≤ 122) ∨ (65 ≤ c.val ∧ c.val ≤ 90)
    · rw [if_pos hl]; exact hnext
    · rw [if_neg hl]
      have hd := ((schemeByte_cases c).1.1 hall.1).resolve_left hl
      rw [if_pos hd]
      have hlen : pre.length ≠ 0 := by
        intro h
        obtain ⟨c', t, hct, hc'⟩ := hpre (List.length_eq_zero.1 h)
        simp only [List.cons.injEq] at hct
        exact hl (hct.1 ▸ hc')
      rw [if_neg hlen]; exact hnext

theorem SchemeOK_valid (scheme : GoString) (h : SchemeOK scheme) :
    scheme ≠ [] ∧ scheme.all schemeByte = true ∧ ToLower scheme = scheme ∧
      (∃ c t, scheme = c :: t ∧ ((97 ≤ c.val ∧ c.val ≤ 122) ∨ (65 ≤ c.val ∧ c.val ≤ 90))) := by
  obtain ⟨c, t, hs, hc, ht⟩ := h
  subst hs
  have hc1 := (schemeByte_cases c).2.2.2.1 hc
  have hc2 := (schemeByte_cases c).2.2.1 hc1.1
  rw [List.all_eq_true] at ht
  refine ⟨by simp, ?_, ?_, c, t, rfl, Or.inl hc1.2⟩
  · rw [List.all_cons, hc2.1, Bool.true_and, List.all_eq_true]
    exact fun x hx => ((schemeByte_cases x).2.2.1 (ht x hx)).1
  · unfold ToLower
    rw [List.map_cons, hc2.2]
    congr 1
    conv_rhs => rw [← List.map_id t]
    apply List.map_congr_left
    intro x hx
    exact ((schemeByte_cases x).2.2.1 (ht x hx)).2

/-- `getScheme` finds a well-formed scheme that is followed by `:`. -/
theorem getScheme_scheme (scheme rest : GoString) (h : SchemeOK scheme) :
    getScheme (scheme ++ ch ':' :: rest) = some (scheme, rest) := by
  obtain ⟨_, hall, _, hhead⟩ := SchemeOK_valid scheme h
  have := getSchemeLoop_scheme (scheme ++ ch ':' :: rest) rest scheme [] rfl hall
    (fun _ => hhead)
  simpa [getScheme] using this

/-- What the loop of `getScheme` returns: no scheme and the whole text, or a
scheme of valid bytes that starts with a letter, and the text after its `:`. -/
theorem getSchemeLoop_result (raw : GoString) :
    ∀ (xs pre : GoString) (scheme rest : GoString), raw = pre ++ xs →
      pre.all schemeByte = true →
      (∀ c t, pre = c :: t → ((97 ≤ c.val ∧ c.val ≤ 122) ∨ (65 ≤ c.val ∧ c.val ≤ 90))) →
      getSchemeLoop raw pre.length xs = some (scheme, rest) →
      (scheme = [] ∧ rest = raw) ∨
        (scheme.all schemeByte = true ∧ raw = scheme ++ ch ':' :: rest ∧
          ∃ c t, scheme = c :: t ∧ ((97 ≤ c.val ∧ c.val ≤ 122) ∨ (65 ≤ c.val ∧ c.val ≤ 90))) := by
  intro xs
  induction xs with
  | nil =>
    intro pre scheme rest _ _ _ h
    simp only [getSchemeLoop, Option.some.injEq, Prod.mk.injEq] at h
    exact Or.inl ⟨h.1.symm, h.2.symm⟩
  | cons c xs ih =>
    intro pre scheme rest hraw hall hhead h
    have hstep : ∀ (hc : schemeByte c = true)
        (hh : pre = [] → ((97 ≤ c.val ∧ c.val ≤ 122) ∨ (65 ≤ c.val ∧ c.val ≤ 90))),
        getSchemeLoop raw (pre.length + 1) xs = some (scheme, rest) →
        (scheme = [] ∧ rest = raw) ∨
          (scheme.all schemeByte = true ∧ raw = scheme ++ ch ':' :: rest ∧
            ∃ c t, scheme = c :: t ∧
              ((97 ≤ c.val ∧ c.val ≤ 122) ∨ (65 ≤ c.val ∧ c.val ≤ 90))) := by
      intro hc hh h'
      refine ih (pre ++ [c]) scheme rest (by rw [hraw]; simp) ?_ ?_ (by simpa using h')
      · rw [List.all_append, hall]; simp [hc]
      · intro c' t hct
        cases pre with
        | nil =>
          simp only [List.nil_append, List.cons.injEq] at hct
          exact hct.1 ▸ hh rfl
        | cons p ps =>
          simp only [List.cons_append, List.cons.injEq] at hct
          exact hct.1 ▸ hhead p ps rfl
    unfold getSchemeLoop at h
    by_cases hl : (97 ≤ c.val ∧ c.val ≤ 122) ∨ (65 ≤ c.val ∧ c.val ≤ 90)
    · rw [if_pos hl] at h
      exact hstep ((schemeByte_cases c).1.2 (Or.inl hl)) (fun _ => hl) h
    · rw [if_neg hl] at h
      by_cases hd : (48 ≤ c.val ∧ c.val ≤ 57) ∨ c = ch '+' ∨ c = ch '-' ∨ c = ch '.'
      · rw [if_pos hd] at h
        by_cases hz : pre.length = 0
        · rw [if_pos hz] at h
          simp only [Option.some.injEq, Prod.mk.injEq] at h
          exact Or.inl ⟨h.1.symm, h.2.symm⟩
        · rw [if_neg hz] at h
          exact hstep ((schemeByte_cases c).1.2 (Or.inr hd))
            (fun hp => absurd (by simp [hp]) hz) h
      · rw [if_neg hd] at h
        by_cases hcol : c = ch ':'
        · rw [if_pos hcol] at h
          by_cases hz : pre.length = 0
          · simp [hz] at h
          · rw [if_neg hz] at h
            simp only [Option.some.injEq, Prod.mk.injEq] at h
            right
            rw [hraw, hcol] at h
            rw [take_length_append, drop_length_succ_append] at h
            rw [← h.1, ← h.2]
            refine ⟨hall, by rw [hraw, hcol], ?_⟩
            cases pre with
            | nil => simp at hz
            | cons p ps => exact ⟨p, ps, rfl, hhead p ps rfl⟩
        · rw [if_neg hcol] at h
          simp only [Option.some.injEq, Prod.mk.injEq] at h
          exact Or.inl ⟨h.1.symm, h.2.symm⟩

/-- The scheme `url.parse` stores is empty or well formed, and the text it
came from is the scheme, `:` and the rest. -/
theorem getScheme_result (raw scheme rest : GoString) (h : getScheme raw = some (scheme, rest)) :
    (scheme = [] ∧ rest = raw) ∨
      (SchemeOK (ToLower scheme) ∧ scheme.all schemeByte = true ∧
        raw = scheme ++ ch ':' :: rest) := by
  rcases getSchemeLoop_result raw raw [] scheme rest rfl rfl (by simp) h with h1 | ⟨h1, h2, h3⟩
  · exact Or.inl h1
  · right
    refine ⟨?_, h1, h2⟩
    obtain ⟨c, t, hct, hc⟩ := h3
    subst hct
    rw [List.all_cons, Bool.and_eq_true, List.all_eq_true] at h1
    refine ⟨lowerByte c, t.map lowerByte, rfl, (schemeByte_cases c).2.2.2.2 hc, ?_⟩
    rw [List.all_eq_true]
    intro x hx
    obtain ⟨y, hy, hyx⟩ := List.mem_map.1 hx
    rw [← hyx]
    exact ((schemeByte_cases y).2.1 (h1.2 y hy)).2.2.2.2

end UrlScheme

/-! ## Start URLs: what `String` writes and how `Parse` reads it -/

section UrlRender

open url url.encoding strings

theorem parse_eq (raw : GoString) :
    parse raw =
      if stringContainsCTLByte raw then none
      else if raw = lit "*" then some { Path := lit "*" }
      else
        match getScheme raw with
        | none => none
        | some (scheme, rest) =>
          parseHier { Scheme := ToLower scheme, ForceQuery := queryForced rest,
                      RawQuery := queryRaw rest } (queryRest rest) := by
  unfold parse
  split
  · rfl
  · split
    · rfl
    · cases getScheme raw with
      | none => rfl
      | some p => rfl

/-- `String` writes the scheme, `:`, the opaque text or `//`, user, host and
path, then query and fragment. -/
theorem String_eq (u : URL) (hs : u.Scheme ≠ []) :
    u.String = u.Scheme ++ ch ':' ::
      ((if u.Opaque ≠ [] then u.Opaque else hier u) ++ queryPart u ++ fragmentPart u) := by
  unfold URL.String hier queryPart fragmentPart userPart
  simp only [hs, ne_eq, not_false_eq_true, if_true, true_or, List.append_eq_nil, and_false,
    List.cons_ne_nil, false_and, if_false, List.append_nil, List.append_assoc,
    List.singleton_append, List.cons_append, List.nil_append]

theorem plain_facts (s : GoString) (h : s.all plain = true) :
    ch '?' ∉ s ∧ ch '#' ∉ s ∧ stringContainsCTLByte s = false ∧ ∀ b ∈ s, b.val < 0x80 := by
  rw [List.all_eq_true] at h
  have hb : ∀ b : Byte, plain b = true →
      b ≠ ch '?' ∧ b ≠ ch '#' ∧ (decide (b.val < 0x20) || decide (b.val = 0x7f)) = false ∧
        b.val < 0x80 := by
    intro b hb
    unfold plain at hb
    simp only [Bool.and_eq_true, decide_eq_true_eq, bne_iff_ne, ne_eq] at hb
    obtain ⟨⟨⟨h1, h2⟩, h3⟩, h4⟩ := hb
    refine ⟨h3, h4, ?_, by omega⟩
    simp only [Bool.or_eq_false_iff, decide_eq_false_iff_not]
    omega
  refine ⟨fun hm => (hb _ (h _ hm)).1 rfl, fun hm => (hb _ (h _ hm)).2.1 rfl, ?_,
    fun b hm => (hb b (h b hm)).2.2.2⟩
  unfold stringContainsCTLByte
  rw [List.any_eq_false]
  intro b hm
  have := (hb b (h b hm)).2.2.1
  simpa using this

theorem EscapedPath_plain (u : URL) : u.EscapedPath.all plain = true := by
  unfold URL.EscapedPath
  split
  · rename_i h
    exact validEncoded_plain _ h.2.1
  · split
    · decide
    · exact escape_all _ _ escapeByte_path_plain _

theorem Userinfo_String_user (ui : Userinfo) :
    ∃ a b, ui.String = a ++ b ∧ a = escape ui.username encodeUserPassword ∧
      a.all userByte = true ∧
      (b = [] ∧ ui.passwordSet = false ∨
        ∃ p, b = ch ':' :: p ∧ p = escape ui.password encodeUserPassword ∧
          p.all userByte = true ∧ ui.passwordSet = true) := by
  unfold Userinfo.String
  cases hp : ui.passwordSet
  · exact ⟨_, [], by simp, rfl, escape_all _ _ escapeByte_user _, Or.inl ⟨rfl, rfl⟩⟩
  · refine ⟨_, ch ':' :: escape ui.password encodeUserPassword, by simp, rfl,
      escape_all _ _ escapeByte_user _, Or.inr ⟨_, rfl, rfl, escape_all _ _ escapeByte_user _, rfl⟩⟩

theorem userByte_all_plain (s : GoString) (h : s.all userByte = true) : s.all plain = true :=
  all_imp (fun b hb => authByte_plain b (userByte_auth b hb)) s h

theorem userPart_plain (u : URL) : (userPart u).all plain = true := by
  unfold userPart
  cases u.User with
  | none => rfl
  | some ui =>
    obtain ⟨a, b, hab, _, ha, hb⟩ := Userinfo_String_user ui
    simp only
    rw [hab, List.all_append, List.all_append, userByte_all_plain a ha]
    rcases hb with ⟨hb, _⟩ | ⟨p, hb, _, hp, _⟩
    · rw [hb]; rfl
    · rw [hb, List.all_cons, userByte_all_plain p hp]; rfl

/-- What `String` writes between scheme and query holds printable ASCII only,
and neither `?` nor `#`. -/
theorem hier_plain (u : URL) : (hier u).all plain = true := by
  unfold hier
  have h1 : (lit "//").all plain = true := by decide
  have h2 := userPart_plain u
  have h3 : (escape u.Host encodeHost).all plain = true :=
    all_imp authByte_plain _ (escape_all _ _ escapeByte_host_auth _)
  have h4 := EscapedPath_plain u
  have h5 : [ch '/'].all plain = true := by decide
  simp only [List.all_append, Bool.and_eq_true]
  refine ⟨⟨?_, ?_⟩, h4⟩
  · split
    · rfl
    · simp only [List.all_append, Bool.and_eq_true]
      refine ⟨⟨?_, h2⟩, ?_⟩
      · split
        · exact h1
        · rfl
      · split
        · exact h3
        · rfl
  · split
    · exact h5
    · rfl

theorem lit_question : lit "?" = [ch '?'] := by decide

theorem mem_of_suffix_singleton (t a q : GoString) (c : Byte) (hq : q ≠ [])
    (h : t ++ [c] = a ++ q) : c ∈ q := by
  have hr := congrArg List.reverse h
  simp only [List.reverse_append, List.reverse_singleton, List.singleton_append] at hr
  cases hqr : q.reverse with
  | nil => exact absurd (List.reverse_eq_nil_iff.1 hqr) hq
  | cons y ys =>
    rw [hqr] at hr
    simp only [List.cons_append, List.cons.injEq] at hr
    have : y ∈ q.reverse := by rw [hqr]; simp
    rw [hr.1]
    exact List.mem_reverse.1 this

/-- How `url.parse` splits the query off the text that `String` wrote. -/
theorem query_split (body q : GoString) (fq : Bool) (hb : ch '?' ∉ body)
    (hfq : fq = true → q = []) :
    queryForced (body ++ if fq = true ∨ q ≠ [] then ch '?' :: q else []) = fq ∧
      queryRest (body ++ if fq = true ∨ q ≠ [] then ch '?' :: q else []) = body ∧
      queryRaw (body ++ if fq = true ∨ q ≠ [] then ch '?' :: q else []) = q := by
  have hcount : Count body (ch '?') = 0 := by
    unfold Count
    exact List.count_eq_zero_of_not_mem hb
  cases hf : fq
  · by_cases hq : q = []
    · subst hq
      have hforced : queryForced body = false := by
        unfold queryForced
        rw [hcount]
        simp
      simp only [Bool.false_eq_true, ne_eq, not_true_eq_false, or_self, if_false,
        List.append_nil]
      unfold queryRest queryRaw
      rw [hforced]
      simp [Cut_absent body _ hb]
    · have hforced : queryForced (body ++ ch '?' :: q) = false := by
        unfold queryForced
        cases hsuf : HasSuffix (body ++ ch '?' :: q) (lit "?")
        · rfl
        · rw [Bool.true_and]
          unfold HasSuffix at hsuf
          rw [lit_question, List.isSuffixOf_iff_suffix] at hsuf
          obtain ⟨t, ht⟩ := hsuf
          have hmem : ch '?' ∈ q :=
            mem_of_suffix_singleton t (body ++ [ch '?']) q _ hq (by rw [ht]; simp)
          have : 0 < List.count (ch '?') q := List.count_pos_iff.2 hmem
          unfold Count
          rw [List.count_append, List.count_cons_self]
          unfold Count at hcount
          rw [hcount]
          simp only [Nat.zero_add, beq_eq_false_iff_ne, ne_eq]
          omega
      simp only [Bool.false_eq_true, ne_eq, hq, not_false_eq_true, or_true, if_true]
      unfold queryRest queryRaw
      rw [hforced]
      simp [Cut_append body q _ hb]
  · have hq := hfq hf
    subst hq
    have hforced : queryForced (body ++ [ch '?']) = true := by
      unfold queryForced
      have : HasSuffix (body ++ [ch '?']) (lit "?") = true := by
        unfold HasSuffix
        rw [lit_question, List.isSuffixOf_iff_suffix]
        exact ⟨body, rfl⟩
      rw [this]
      unfold Count
      unfold Count at hcount
      rw [List.count_append, hcount]
      simp
    simp only [true_or, if_true]
    unfold queryRest queryRaw
    rw [hforced]
    simp

theorem lit_star : lit "*" = [ch '*'] := by decide

/-- How `Parse` reads text of the shape `String` writes: a scheme, `:`, a
body without `?` and `#`, a query and a fragment. -/
theorem Parse_render (scheme body q ef : GoString) (fq : Bool) (hs : SchemeOK scheme)
    (hb1 : ch '?' ∉ body) (hb2 : ch '#' ∉ body) (hq1 : ch '#' ∉ q) (hfq : fq = true → q = []) :
    Parse (scheme ++ ch ':' :: (body ++ (if fq = true ∨ q ≠ [] then ch '?' :: q else []) ++
        (if ef ≠ [] then ch '#' :: ef else []))) =
      if stringContainsCTLByte
          (scheme ++ ch ':' :: (body ++ if fq = true ∨ q ≠ [] then ch '?' :: q else [])) then none
      else
        match parseHier { Scheme := scheme, ForceQuery := fq, RawQuery := q } body with
        | none => none
        | some u => if ef = [] then some u else URL.setFragment u ef := by
  obtain ⟨hne, hall, hlow, _⟩ := SchemeOK_valid scheme hs
  have hsch : ch '#' ∉ scheme := by
    rw [List.all_eq_true] at hall
    exact fun hm => ((schemeByte_cases _).2.1 (hall _ hm)).2.1 rfl
  have hQ : ch '#' ∉ (if fq = true ∨ q ≠ [] then ch '?' :: q else []) := by
    split
    · intro hm
      rcases List.mem_cons.1 hm with e | e
      · exact absurd e (by decide)
      · exact hq1 e
    · simp
  have hpre : ch '#' ∉
      scheme ++ ch ':' :: (body ++ if fq = true ∨ q ≠ [] then ch '?' :: q else []) := by
    intro hm
    rcases List.mem_append.1 hm with e | e
    · exact hsch e
    · rcases List.mem_cons.1 e with e | e
      · exact absurd e (by decide)
      · rcases List.mem_append.1 e with e | e
        · exact hb2 e
        · exact hQ e
  have hcut : (Cut (scheme ++ ch ':' :: (body ++
      (if fq = true ∨ q ≠ [] then ch '?' :: q else []) ++
      (if ef ≠ [] then ch '#' :: ef else []))) (ch '#')).1 =
        scheme ++ ch ':' :: (body ++ if fq = true ∨ q ≠ [] then ch '?' :: q else []) ∧
      (Cut (scheme ++ ch ':' :: (body ++
      (if fq = true ∨ q ≠ [] then ch '?' :: q else []) ++
      (if ef ≠ [] then ch '#' :: ef else []))) (ch '#')).2.1 = ef := by
    by_cases he : ef = []
    · subst he
      simp only [ne_eq, not_true_eq_false, if_false, List.append_nil]
      rw [Cut_absent _ _ hpre]
      exact ⟨rfl, rfl⟩
    · simp only [ne_eq, he, not_false_eq_true, if_true]
      have : scheme ++ ch ':' :: (body ++ (if fq = true ∨ ¬q = [] then ch '?' :: q else []) ++
          ch '#' :: ef) =
          (scheme ++ ch ':' :: (body ++ if fq = true ∨ ¬q = [] then ch '?' :: q else [])) ++
            ch '#' :: ef := by simp
      rw [this, Cut_append _ _ _ hpre]
      exact ⟨rfl, rfl⟩
  have hstar : scheme ++ ch ':' :: (body ++ if fq = true ∨ q ≠ [] then ch '?' :: q else []) ≠
      lit "*" := by
    rw [lit_star]
    obtain ⟨c, t, hct, _⟩ := hs
    subst hct
    intro h
    simp at h
  obtain ⟨q1, q2, q3⟩ := query_split body q fq hb1 hfq
  unfold Parse
  simp only [hcut.1, hcut.2]
  rw [parse_eq]
  simp only [if_neg hstar, getScheme_scheme scheme _ hs, hlow, q1, q2, q3]
  by_cases hctl : stringContainsCTLByte
      (scheme ++ ch ':' :: (body ++ if fq = true ∨ q ≠ [] then ch '?' :: q else [])) = true
  · simp only [if_pos hctl]
  · simp only [if_neg hctl]

end UrlRender

/-! ## Start URLs: what `Parse` returns -/

section UrlParseFacts

open url url.encoding strings

theorem setPath_some (u u1 : URL) (p : GoString) (h : URL.setPath u p = some u1) :
    unescape p encodePath = some u1.Path ∧
      (u1 = { u with Path := u1.Path, RawPath := [] } ∧ p = escape u1.Path encodePath ∨
        u1 = { u with Path := u1.Path, RawPath := p } ∧ p ≠ escape u1.Path encodePath) := by
  unfold URL.setPath at h
  cases hu : unescape p encodePath with
  | none => rw [hu] at h; simp at h
  | some path =>
    rw [hu] at h
    simp only at h
    by_cases he : p = escape path encodePath
    · rw [if_pos he] at h
      simp only [Option.some.injEq] at h
      subst h
      exact ⟨rfl, Or.inl ⟨rfl, he⟩⟩
    · rw [if_neg he] at h
      simp only [Option.some.injEq] at h
      subst h
      exact ⟨rfl, Or.inr ⟨rfl, he⟩⟩

/-- `setPath` keeps every field but `Path` and `RawPath`; a raw path that is
empty or starts with `/` gives such a `Path` and such a `RawPath`. -/
theorem setPath_fields (u u1 : URL) (p : GoString) (h : URL.setPath u p = some u1) :
    u1.Scheme = u.Scheme ∧ u1.Opaque = u.Opaque ∧ u1.User = u.User ∧ u1.Host = u.Host ∧
      u1.ForceQuery = u.ForceQuery ∧ u1.RawQuery = u.RawQuery ∧
      (p = [] ∨ p.head? = some (ch '/') →
        (u1.Path = [] ∨ u1.Path.head? = some (ch '/')) ∧
          (u1.RawPath = [] ∨ u1.RawPath.head? = some (ch '/'))) := by
  obtain ⟨hp, hcase⟩ := setPath_some u u1 p h
  obtain ⟨_, hd⟩ := unescape_some _ _ _ hp
  have hpath : p = [] ∨ p.head? = some (ch '/') →
      (u1.Path = [] ∨ u1.Path.head? = some (ch '/')) := by
    rintro (e | e)
    · left; rw [hd, e, unescapeDecode_nil]
    · right; rw [hd]; exact unescapeDecode_head _ _ p (by decide) (by decide) e
  rcases hcase with ⟨e, _⟩ | ⟨e, _⟩
  · rw [e]
    exact ⟨rfl, rfl, rfl, rfl, rfl, rfl, fun hh => ⟨hpath hh, Or.inl rfl⟩⟩
  · rw [e]
    exact ⟨rfl, rfl, rfl, rfl, rfl, rfl, fun hh => ⟨hpath hh, hh⟩⟩

theorem setFragment_fields (u u1 : URL) (f : GoString) (h : URL.setFragment u f = some u1) :
    u1.Scheme = u.Scheme ∧ u1.Opaque = u.Opaque ∧ u1.User = u.User ∧ u1.Host = u.Host ∧
      u1.Path = u.Path ∧ u1.RawPath = u.RawPath ∧ u1.ForceQuery = u.ForceQuery ∧
      u1.RawQuery = u.RawQuery ∧ unescape f encodeFragment = some u1.Fragment ∧
      (u1.RawFragment = [] ∧ f = escape u1.Fragment encodeFragment ∨
        u1.RawFragment = f ∧ f ≠ escape u1.Fragment encodeFragment) := by
  unfold URL.setFragment at h
  cases hu : unescape f encodeFragment with
  | none => rw [hu] at h; simp at h
  | some frag =>
    rw [hu] at h
    simp only at h
    by_cases he : f = escape frag encodeFragment
    · rw [if_pos he] at h
      simp only [Option.some.injEq] at h
      subst h
      exact ⟨rfl, rfl, rfl, rfl, rfl, rfl, rfl, rfl, rfl, Or.inl ⟨rfl, he⟩⟩
    · rw [if_neg he] at h
      simp only [Option.some.injEq] at h
      subst h
      exact ⟨rfl, rfl, rfl, rfl, rfl, rfl, rfl, rfl, rfl, Or.inr ⟨rfl, he⟩⟩

/-- The host `parseAuthority` returns is what `parseHost` makes of a part of
the authority. -/
theorem parseAuthority_host (a : GoString) (user : Option Userinfo) (host : GoString)
    (h : parseAuthority a = some (user, host)) :
    ∃ e, (∀ b ∈ e, b ∈ a) ∧ parseHost e = some host := by
  unfold parseAuthority at h
  cases hi : LastIndexByte a (ch '@') with
  | none =>
    rw [hi] at h
    simp only at h
    cases hp : parseHost a with
    | none => rw [hp] at h; simp at h
    | some h1 =>
      rw [hp] at h
      simp only [Option.some.injEq, Prod.mk.injEq] at h
      exact ⟨a, fun b hb => hb, by rw [hp, h.2]⟩
  | some i =>
    rw [hi] at h
    simp only at h
    cases hp : parseHost (a.drop (i + 1)) with
    | none => rw [hp] at h; simp at h
    | some h1 =>
      rw [hp] at h
      simp only at h
      refine ⟨a.drop (i + 1), fun b hb => List.mem_of_mem_drop hb, ?_⟩
      rw [hp]
      by_cases hv : validUserinfo (a.take i) = true
      · simp only [hv, Bool.not_true, Bool.false_eq_true, if_false] at h
        split at h
        · split at h
          · simp at h
          · simp only [Option.some.injEq, Prod.mk.injEq] at h; rw [h.2]
        · split at h
          · simp at h
          · split at h
            · simp at h
            · simp only [Option.some.injEq, Prod.mk.injEq] at h; rw [h.2]
      · simp [hv] at h

theorem HasPrefix_slash (rest : GoString) :
    HasPrefix rest (lit "/") = true ↔ rest.head? = some (ch '/') := by
  have : lit "/" = [ch '/'] := by decide
  rw [this]
  exact HasPrefix_singleton rest _

/-- What the rest of `url.parse` returns: scheme and query as stored before;
opaque text only for text that does not start with `/`; a host only together
with a path that is empty or starts with `/`, and only as `parseHost` makes it
of a part of the text. -/
theorem parseHier_facts (u u1 : URL) (rest : GoString) (hu : u.Opaque = [] ∧ u.Host = [])
    (h : parseHier u rest = some u1) :
    u1.Scheme = u.Scheme ∧ u1.ForceQuery = u.ForceQuery ∧ u1.RawQuery = u.RawQuery ∧
      (u1.Opaque ≠ [] → u1.Opaque = rest ∧ HasPrefix rest (lit "/") = false) ∧
      (u1.Host ≠ [] → u1.Opaque = [] ∧
        (u1.Path = [] ∨ u1.Path.head? = some (ch '/')) ∧
        (u1.RawPath = [] ∨ u1.RawPath.head? = some (ch '/')) ∧
        ∃ e, (∀ b ∈ e, b ∈ rest) ∧ parseHost e = some u1.Host) := by
  unfold parseHier at h
  split at h
  · rename_i hc
    simp only [Option.some.injEq] at h
    subst h
    refine ⟨rfl, rfl, rfl, fun _ => ⟨rfl, by simpa using hc.1⟩, fun hh => absurd hu.2 hh⟩
  · split at h
    · simp at h
    · split at h
      · rename_i hc
        have hpre : ∃ a, rest = ch '/' :: ch '/' :: a := by
          have h2 := hc.2
          unfold HasPrefix at h2
          have : lit "//" = [ch '/', ch '/'] := by decide
          rw [this] at h2
          obtain ⟨t, ht⟩ := List.isPrefixOf_iff_prefix.1 h2
          exact ⟨t, by rw [← ht]; rfl⟩
        obtain ⟨a, ha⟩ := hpre
        subst ha
        simp only [List.drop_succ_cons, List.drop_zero] at h
        have key : ∀ authority rest2 : GoString, (∀ b ∈ authority, b ∈ ch '/' :: ch '/' :: a) →
            (rest2 = [] ∨ rest2.head? = some (ch '/')) →
            (match parseAuthority authority with
              | none => none
              | some (user, host) =>
                URL.setPath { u with User := user, Host := host } rest2) = some u1 →
            u1.Scheme = u.Scheme ∧ u1.ForceQuery = u.ForceQuery ∧ u1.RawQuery = u.RawQuery ∧
              (u1.Opaque ≠ [] → u1.Opaque = ch '/' :: ch '/' :: a ∧
                HasPrefix (ch '/' :: ch '/' :: a) (lit "/") = false) ∧
              (u1.Host ≠ [] → u1.Opaque = [] ∧
                (u1.Path = [] ∨ u1.Path.head? = some (ch '/')) ∧
                (u1.RawPath = [] ∨ u1.RawPath.head? = some (ch '/')) ∧
                ∃ e, (∀ b ∈ e, b ∈ ch '/' :: ch '/' :: a) ∧ parseHost e = some u1.Host) := by
          intro authority rest2 hsub hrest2 h
          cases hp : parseAuthority authority with
          | none => rw [hp] at h; simp at h
          | some r =>
            obtain ⟨user, host⟩ := r
            rw [hp] at h
            simp only at h
            obtain ⟨e, he, hpe⟩ := parseAuthority_host _ _ _ hp
            obtain ⟨f1, f2, f3, f4, f5, f6, f7⟩ := setPath_fields _ _ _ h
            simp only at f1 f2 f3 f4 f5 f6
            refine ⟨f1, f5, f6, fun ho => absurd (f2.trans hu.1) ho, fun _ =>
              ⟨f2.trans hu.1, (f7 hrest2).1, (f7 hrest2).2, e, fun b hb => hsub b (he b hb), ?_⟩⟩
            rw [f4]; exact hpe
        cases hi : IndexByte a (ch '/') with
        | none =>
          rw [hi] at h
          exact key a [] (fun b hb => by simp [hb]) (Or.inl rfl) h
        | some i =>
          rw [hi] at h
          obtain ⟨x, y, hxy, _, hlen⟩ := IndexByte_some a _ i hi
          refine key (a.take i) (a.drop i) (fun b hb => by simp [List.mem_of_mem_take hb])
            (Or.inr ?_) h
          subst hlen; subst hxy
          simp only [drop_length_append]
          rfl
      · split at h
        · obtain ⟨f1, f2, f3, f4, f5, f6, _⟩ := setPath_fields _ _ _ h
          simp only at f1 f2 f3 f4 f5 f6
          exact ⟨f1, f5, f6, fun ho => absurd (f2.trans hu.1) ho,
            fun hh => absurd (f4.trans hu.2) hh⟩
        · obtain ⟨f1, f2, f3, f4, f5, f6, _⟩ := setPath_fields _ _ _ h
          exact ⟨f1, f5, f6, fun ho => absurd (f2.trans hu.1) ho,
            fun hh => absurd (f4.trans hu.2) hh⟩

theorem ctl_subset (s t : GoString) (hsub : ∀ b ∈ t, b ∈ s)
    (h : stringContainsCTLByte s = false) : stringContainsCTLByte t = false := by
  unfold stringContainsCTLByte at h ⊢
  rw [List.any_eq_false] at h ⊢
  exact fun b hb => h b (hsub b hb)

/-- The two parts `url.parse` splits the text after the scheme into are made
of bytes of that text; the first holds no `?`, and the query is empty when
`ForceQuery` is set. -/
theorem query_parts (rest : GoString) :
    (∀ b ∈ queryRest rest, b ∈ rest) ∧ (∀ b ∈ queryRaw rest, b ∈ rest) ∧
      ch '?' ∉ queryRest rest ∧ (queryForced rest = true → queryRaw rest = []) := by
  obtain ⟨c1, c2, c3⟩ := Cut_spec rest (ch '?')
  have hcut : (∀ b ∈ (Cut rest (ch '?')).1, b ∈ rest) ∧
      (∀ b ∈ (Cut rest (ch '?')).2.1, b ∈ rest) := by
    cases hf : (Cut rest (ch '?')).2.2
    · have := c3 hf
      rw [this.2]
      exact ⟨fun b hb => by rw [this.1]; exact hb, by simp⟩
    · have := c2 hf
      constructor
      · intro b hb; rw [this]; simp [hb]
      · intro b hb; rw [this]; simp [hb]
  unfold queryRest queryRaw
  by_cases hf : queryForced rest = true
  · simp only [hf, if_true]
    refine ⟨fun b hb => List.mem_of_mem_take hb, by simp, ?_, by simp⟩
    unfold queryForced at hf
    simp only [Bool.and_eq_true, beq_iff_eq] at hf
    obtain ⟨hs, hc⟩ := hf
    unfold HasSuffix at hs
    rw [lit_question, List.isSuffixOf_iff_suffix] at hs
    obtain ⟨t, ht⟩ := hs
    rw [← ht]
    simp only [List.length_append, List.length_singleton, Nat.add_sub_cancel,
      take_length_append]
    unfold Count at hc
    rw [← ht, List.count_append] at hc
    simp only [List.count_singleton_self] at hc
    intro hm
    have := List.count_pos_iff.2 hm
    omega
  · simp only [hf, Bool.false_eq_true, if_false]
    exact ⟨hcut.1, hcut.2, c1, fun h => absurd h (by simp)⟩

/-- What `url.parse` returns: a scheme that is empty or well formed, a query
without `#` and control bytes, opaque text without `?` and `#` that does not
start with `/`, and a host only together with a path that is empty or starts
with `/`. -/
theorem parse_facts (raw : GoString) (u : URL) (hraw : ch '#' ∉ raw)
    (h : parse raw = some u) :
    (u.Scheme = [] ∨ SchemeOK u.Scheme) ∧ QueryOK u ∧
      (u.Opaque ≠ [] → HasPrefix u.Opaque (lit "/") = false ∧ ch '?' ∉ u.Opaque ∧
        ch '#' ∉ u.Opaque) ∧
      (u.Host ≠ [] → u.Opaque = [] ∧ (u.Path = [] ∨ u.Path.head? = some (ch '/')) ∧
        (u.RawPath = [] ∨ u.RawPath.head? = some (ch '/'))) := by
  rw [parse_eq] at h
  by_cases hctl : stringContainsCTLByte raw = true
  · simp [hctl] at h
  · simp only [hctl, Bool.false_eq_true, if_false] at h
    have hctl : stringContainsCTLByte raw = false := by simpa using hctl
    by_cases hstar : raw = lit "*"
    · simp only [hstar, if_true, Option.some.injEq] at h
      subst h
      refine ⟨Or.inl rfl, ?_, ?_, ?_⟩
      · unfold QueryOK
        refine ⟨?_, ?_, ?_⟩
        · show ch '#' ∉ ([] : GoString)
          simp
        · show stringContainsCTLByte [] = false
          rfl
        · intro _; rfl
      · intro ho; exact absurd rfl ho
      · intro hh; exact absurd rfl hh
    · simp only [hstar, if_false] at h
      cases hg : getScheme raw with
      | none => rw [hg] at h; simp at h
      | some p =>
        obtain ⟨scheme, rest⟩ := p
        rw [hg] at h
        simp only at h
        have hsub : ∀ b ∈ rest, b ∈ raw := by
          rcases getScheme_result raw scheme rest hg with ⟨_, e⟩ | ⟨_, _, e⟩
          · intro b hb; rw [← e]; exact hb
          · intro b hb; rw [e]; simp [hb]
        have hsch : ToLower scheme = [] ∨ SchemeOK (ToLower scheme) := by
          rcases getScheme_result raw scheme rest hg with ⟨e, _⟩ | ⟨e, _, _⟩
          · left; rw [e]; rfl
          · right; exact e
        obtain ⟨q1, q2, q3, q4⟩ := query_parts rest
        obtain ⟨f1, f2, f3, f4, f5⟩ := parseHier_facts _ _ _ ⟨rfl, rfl⟩ h
        simp only at f1 f2 f3
        refine ⟨by rw [f1]; exact hsch, ⟨?_, ?_, ?_⟩, ?_, ?_⟩
        · rw [f3]; exact fun hm => hraw (hsub _ (q2 _ hm))
        · rw [f3]; exact ctl_subset raw _ (fun b hb => hsub b (q2 b hb)) hctl
        · rw [f2, f3]; exact q4
        · intro ho
          obtain ⟨e1, e2⟩ := f4 ho
          rw [e1]
          exact ⟨e2, q3, fun hm => hraw (hsub _ (q1 _ hm))⟩
        · intro hh
          obtain ⟨e1, e2, e3, _⟩ := f5 hh
          exact ⟨e1, e2, e3⟩

theorem Parse_facts (s : GoString) (u : URL) (h : Parse s = some u) :
    (u.Scheme = [] ∨ SchemeOK u.Scheme) ∧ QueryOK u ∧
      (u.Opaque ≠ [] → HasPrefix u.Opaque (lit "/") = false ∧ ch '?' ∉ u.Opaque ∧
        ch '#' ∉ u.Opaque) ∧
      (u.Host ≠ [] → u.Opaque = [] ∧ (u.Path = [] ∨ u.Path.head? = some (ch '/')) ∧
        (u.RawPath = [] ∨ u.RawPath.head? = some (ch '/'))) := by
  unfold Parse at h
  simp only at h
  have hc := (Cut_spec s (ch '#')).1
  cases hp : parse (Cut s (ch '#')).1 with
  | none => rw [hp] at h; simp at h
  | some u0 =>
    rw [hp] at h
    simp only at h
    have h0 := parse_facts _ u0 hc hp
    by_cases hf : (Cut s (ch '#')).2.1 = []
    · rw [if_pos hf] at h
      simp only [Option.some.injEq] at h
      rw [← h]; exact h0
    · rw [if_neg hf] at h
      obtain ⟨g1, g2, g3, g4, g5, g6, g7, g8, _⟩ := setFragment_fields _ _ _ h
      unfold QueryOK at h0 ⊢
      rw [g1, g2, g4, g5, g6, g7, g8]
      exact h0

end UrlParseFacts

/-! ## Start URLs: the re-parse and the round trip -/

section UrlRoundTrip

open url url.encoding strings

theorem escapeByte_ne_nil (m : encoding) (c : Byte) : escapeByte m c ≠ [] := by
  unfold escapeByte
  split
  · simp
  · split <;> simp

theorem escape_ne_nil (m : encoding) (s : GoString) (h : s ≠ []) : escape s m ≠ [] := by
  cases s with
  | nil => exact absurd rfl h
  | cons c t =>
    rw [escape_cons]
    intro he
    exact escapeByte_ne_nil m c (List.append_eq_nil.1 he).1

theorem EscapedFragment_ne_nil (u : URL) (h : u.Fragment ≠ []) : u.EscapedFragment ≠ [] := by
  unfold URL.EscapedFragment
  split
  · rename_i hc; exact hc.1
  · exact escape_ne_nil _ _ h

/-- The escaped fragment is read back as the fragment, and is the escaped
form `escape` writes unless it passes `validEncoded`. -/
theorem EscapedFragment_facts (u : URL) :
    unescape u.EscapedFragment encodeFragment = some u.Fragment ∧
      (u.EscapedFragment = escape u.Fragment encodeFragment ∨
        (u.EscapedFragment ≠ [] ∧ validEncoded u.EscapedFragment encodeFragment = true)) := by
  unfold URL.EscapedFragment
  split
  · rename_i hc
    exact ⟨hc.2.2, Or.inr ⟨hc.1, hc.2.1⟩⟩
  · exact ⟨unescape_escape_fragment _, Or.inl rfl⟩

theorem lit_star_head (p : GoString) (h : p.head? = some (ch '/')) : p ≠ lit "*" := by
  intro e
  rw [e, lit_star] at h
  simp only [List.head?_cons, Option.some.injEq] at h
  exact absurd h (by decide)

/-- For a path that starts with `/`, the escaped path starts with `/`, is
read back as the path, and is the escaped form `escape` writes unless it
passes `validEncoded`. -/
theorem EscapedPath_facts (u : URL) (hp : u.Path.head? = some (ch '/'))
    (hr : u.RawPath = [] ∨ u.RawPath.head? = some (ch '/')) :
    u.EscapedPath.head? = some (ch '/') ∧
      unescape u.EscapedPath encodePath = some u.Path ∧
      (u.EscapedPath = escape u.Path encodePath ∨
        (u.EscapedPath ≠ [] ∧ validEncoded u.EscapedPath encodePath = true)) := by
  unfold URL.EscapedPath
  split
  · rename_i hc
    exact ⟨hr.resolve_left hc.1, hc.2.2, Or.inr ⟨hc.1, hc.2.1⟩⟩
  · rw [if_neg (lit_star_head _ hp)]
    refine ⟨?_, unescape_escape_path _, Or.inl rfl⟩
    cases hpath : u.Path with
    | nil => rw [hpath] at hp; simp at hp
    | cons c t =>
      rw [hpath] at hp
      simp only [List.head?_cons, Option.some.injEq] at hp
      subst hp
      rfl

/-- Once a path is stored by `setPath` from its escaped form, `EscapedPath`
returns that form. -/
theorem EscapedPath_stored (w : URL) (ep : GoString)
    (hu : unescape ep encodePath = some w.Path)
    (hv : ep = escape w.Path encodePath ∨ (ep ≠ [] ∧ validEncoded ep encodePath = true))
    (hstar : w.Path ≠ lit "*")
    (hraw : w.RawPath = [] ∧ ep = escape w.Path encodePath ∨
      w.RawPath = ep ∧ ep ≠ escape w.Path encodePath) :
    w.EscapedPath = ep := by
  unfold URL.EscapedPath
  rcases hraw with ⟨h1, h2⟩ | ⟨h1, h2⟩
  · rw [if_neg (by simp [h1]), if_neg hstar, ← h2]
  · have hv2 := hv.resolve_left h2
    rw [if_pos ⟨by rw [h1]; exact hv2.1, by rw [h1]; exact hv2.2, by rw [h1]; exact hu⟩, h1]

theorem EscapedFragment_stored (w : URL) (ef : GoString)
    (hu : unescape ef encodeFragment = some w.Fragment)
    (hv : ef = escape w.Fragment encodeFragment ∨
      (ef ≠ [] ∧ validEncoded ef encodeFragment = true))
    (hraw : w.RawFragment = [] ∧ ef = escape w.Fragment encodeFragment ∨
      w.RawFragment = ef ∧ ef ≠ escape w.Fragment encodeFragment) :
    w.EscapedFragment = ef := by
  unfold URL.EscapedFragment
  rcases hraw with ⟨h1, h2⟩ | ⟨h1, h2⟩
  · rw [if_neg (by simp [h1]), ← h2]
  · have hv2 := hv.resolve_left h2
    rw [if_pos ⟨by rw [h1]; exact hv2.1, by rw [h1]; exact hv2.2, by rw [h1]; exact hu⟩, h1]

/-- How `Parse` reads what `String` wrote for a URL with a well-formed scheme
and a parsed query, the body being the opaque text or `//`, user, host and
path. -/
theorem Parse_String (x : URL) (hs : SchemeOK x.Scheme) (hq : QueryOK x)
    (hb1 : ch '?' ∉ (if x.Opaque ≠ [] then x.Opaque else hier x))
    (hb2 : ch '#' ∉ (if x.Opaque ≠ [] then x.Opaque else hier x)) :
    Parse x.String =
      if stringContainsCTLByte (x.Scheme ++ ch ':' ::
          ((if x.Opaque ≠ [] then x.Opaque else hier x) ++ queryPart x)) then none
      else
        match parseHier { Scheme := x.Scheme, ForceQuery := x.ForceQuery,
                          RawQuery := x.RawQuery }
            (if x.Opaque ≠ [] then x.Opaque else hier x) with
        | none => none
        | some u => if x.Fragment = [] then some u else URL.setFragment u x.EscapedFragment := by
  have hne := (SchemeOK_valid _ hs).1
  have hr := Parse_render x.Scheme (if x.Opaque ≠ [] then x.Opaque else hier x) x.RawQuery
    (if x.Fragment = [] then [] else x.EscapedFragment) x.ForceQuery hs hb1 hb2 hq.1 hq.2.2
  rw [String_eq x hne]
  by_cases hf : x.Fragment = []
  · simp only [hf, if_true, ne_eq, not_true_eq_false, if_false, List.append_nil] at hr
    simp only [fragmentPart, hf, ne_eq, not_true_eq_false, if_false, List.append_nil, queryPart,
      if_true]
    exact hr
  · have he := EscapedFragment_ne_nil x hf
    simp only [hf, if_false, ne_eq, he, not_false_eq_true, if_true] at hr
    simp only [fragmentPart, hf, ne_eq, not_false_eq_true, if_true, queryPart, if_false]
    exact hr

theorem SchemeOK_https : SchemeOK (lit "https") :=
  ⟨ch 'h', lit "ttps", by decide, by decide, by decide⟩

theorem defaultScheme_fields (u : URL) :
    (defaultScheme u).Scheme = (if u.Scheme = [] then lit "https" else u.Scheme) ∧
      (defaultScheme u).Opaque = u.Opaque ∧ (defaultScheme u).ForceQuery = u.ForceQuery ∧
      (defaultScheme u).RawQuery = u.RawQuery := by
  unfold defaultScheme
  split
  · rename_i h; simp [h]
  · rename_i h; simp [h]

/-- The URL of the re-parse, when it has a host: it carries the scheme of the
first parse, `https` if that had none, and its host is parsed back from its
escaped form. -/
theorem reparse_facts (s : GoString) (u2 : URL) (h : reparse s = some u2) (hh : u2.Host ≠ []) :
    ∃ u1, Parse s = some u1 ∧
      u2.Scheme = (if u1.Scheme = [] then lit "https" else u1.Scheme) ∧
      SchemeOK u2.Scheme ∧ parseHost (escape u2.Host encodeHost) = some u2.Host := by
  unfold reparse at h
  cases hp : Parse s with
  | none => rw [hp] at h; simp at h
  | some u1 =>
    rw [hp] at h
    simp only at h
    refine ⟨u1, rfl, ?_⟩
    obtain ⟨g1, g2, g3, _⟩ := Parse_facts s u1 hp
    obtain ⟨d1, d2, d3, d4⟩ := defaultScheme_fields u1
    have hs : SchemeOK (defaultScheme u1).Scheme := by
      rw [d1]
      split
      · exact SchemeOK_https
      · rename_i hne; exact g1.resolve_left hne
    have hq : QueryOK (defaultScheme u1) := by
      unfold QueryOK
      rw [d3, d4]
      exact g2
    have hbody : ch '?' ∉ (if (defaultScheme u1).Opaque ≠ [] then (defaultScheme u1).Opaque
          else hier (defaultScheme u1)) ∧
        ch '#' ∉ (if (defaultScheme u1).Opaque ≠ [] then (defaultScheme u1).Opaque
          else hier (defaultScheme u1)) := by
      split
      · rename_i ho
        rw [d2] at ho ⊢
        exact ⟨(g3 ho).2.1, (g3 ho).2.2⟩
      · have := plain_facts _ (hier_plain (defaultScheme u1))
        exact ⟨this.1, this.2.1⟩
    rw [Parse_String _ hs hq hbody.1 hbody.2] at h
    have hbd : ∀ b ∈ (if (defaultScheme u1).Opaque ≠ [] then (defaultScheme u1).Opaque
        else hier (defaultScheme u1)), (defaultScheme u1).Opaque = [] → b.val < 0x80 := by
      intro b hb ho
      simp only [ho, ne_eq, not_true_eq_false, if_false] at hb
      exact (plain_facts _ (hier_plain (defaultScheme u1))).2.2.2 b hb
    have hbo : (defaultScheme u1).Opaque ≠ [] →
        HasPrefix (if (defaultScheme u1).Opaque ≠ [] then (defaultScheme u1).Opaque
          else hier (defaultScheme u1)) (lit "/") = false := by
      intro ho
      simp only [ho, ne_eq, not_false_eq_true, if_true]
      rw [d2] at ho ⊢
      exact (g3 ho).1
    generalize (if (defaultScheme u1).Opaque ≠ [] then (defaultScheme u1).Opaque
        else hier (defaultScheme u1)) = body at h hbd hbo
    by_cases hctl : stringContainsCTLByte ((defaultScheme u1).Scheme ++ ch ':' ::
        (body ++ queryPart (defaultScheme u1))) = true
    · rw [if_pos hctl] at h; simp at h
    · rw [if_neg hctl] at h
      obtain ⟨r, hph⟩ : ∃ r, parseHier ⟨(defaultScheme u1).Scheme, [], none, [], [], [], false,
          (defaultScheme u1).ForceQuery, (defaultScheme u1).RawQuery, [], []⟩ body = r :=
        ⟨_, rfl⟩
      rw [hph] at h
      cases r with
      | none => simp at h
      | some u0 =>
        simp only at h
        have hsame : u2.Scheme = u0.Scheme ∧ u2.Host = u0.Host := by
          split at h
          · simp only [Option.some.injEq] at h; rw [h]; exact ⟨rfl, rfl⟩
          · obtain ⟨f1, _, _, f4, _⟩ := setFragment_fields _ _ _ h
            exact ⟨f1, f4⟩
        obtain ⟨p1, _, _, p4, p5⟩ := parseHier_facts _ _ _ ⟨rfl, rfl⟩ hph
        simp only at p1
        have hh0 : u0.Host ≠ [] := by rw [← hsame.2]; exact hh
        refine ⟨by rw [hsame.1, p1, d1], by rw [hsame.1, p1]; exact hs, ?_⟩
        obtain ⟨ho0, _, _, e, he, hpe⟩ := p5 hh0
        by_cases ho : (defaultScheme u1).Opaque = []
        · rw [hsame.2]
          exact parseHost_escape e _ (fun b hb => hbd b (he b hb) ho) hpe
        · exfalso
          have hne := (SchemeOK_valid _ hs).1
          have hpre := hbo ho
          unfold parseHier at hph
          simp only [hpre, Bool.not_false, ne_eq, hne, not_false_eq_true, and_self, if_true,
            Option.some.injEq] at hph
          rw [← hph] at hh0
          exact hh0 rfl

theorem Contains_iff (s : GoString) (c : Byte) : Contains s c = true ↔ c ∈ s := by
  unfold Contains
  simp

theorem userByte_facts (s : GoString) (h : s.all userByte = true) :
    validUserinfo s = true ∧ ch ':' ∉ s ∧ ch '@' ∉ s ∧ ch '/' ∉ s := by
  rw [List.all_eq_true] at h
  have hb : ∀ b : Byte, userByte b = true →
      validUserinfo [b] = true ∧ b ≠ ch ':' ∧ b ≠ ch '@' ∧ b ≠ ch '/' := by
    intro b hb
    unfold userByte authByte at hb
    simp only [Bool.and_eq_true, bne_iff_ne, ne_eq] at hb
    exact ⟨hb.2, hb.1.2, hb.1.1.2, hb.1.1.1.2⟩
  refine ⟨?_, fun hm => (hb _ (h _ hm)).2.1 rfl, fun hm => (hb _ (h _ hm)).2.2.1 rfl,
    fun hm => (hb _ (h _ hm)).2.2.2 rfl⟩
  unfold validUserinfo
  rw [List.all_eq_true]
  intro b hm
  have := (hb b (h b hm)).1
  unfold validUserinfo at this
  simpa using this

theorem authByte_facts (s : GoString) (h : s.all authByte = true) :
    ch '@' ∉ s ∧ ch '/' ∉ s := by
  rw [List.all_eq_true] at h
  have hb : ∀ b : Byte, authByte b = true → b ≠ ch '@' ∧ b ≠ ch '/' := by
    intro b hb
    unfold authByte at hb
    simp only [Bool.and_eq_true, bne_iff_ne, ne_eq] at hb
    exact ⟨hb.2, hb.1.2⟩
  exact ⟨fun hm => (hb _ (h _ hm)).1 rfl, fun hm => (hb _ (h _ hm)).2 rfl⟩

theorem validUserinfo_append (a b : GoString) :
    validUserinfo (a ++ b) = (validUserinfo a && validUserinfo b) := by
  unfold validUserinfo
  rw [List.all_append]

/-- `parseAuthority` reads back the user and the host `String` wrote. -/
theorem parseAuthority_render (u : URL) (hH : parseHost (escape u.Host encodeHost) = some u.Host) :
    parseAuthority (userPart u ++ escape u.Host encodeHost) = some (normUser u.User, u.Host) ∧
      ch '/' ∉ userPart u ++ escape u.Host encodeHost := by
  have hhost := authByte_facts _ (escape_all _ _ escapeByte_host_auth u.Host)
  unfold userPart normUser
  cases hu : u.User with
  | none =>
    simp only [List.nil_append, Option.map_none']
    refine ⟨?_, hhost.2⟩
    unfold parseAuthority
    rw [LastIndexByte_absent _ _ hhost.1]
    simp only [hH]
  | some ui =>
    obtain ⟨a, b, hab, ha, hau, hb⟩ := Userinfo_String_user ui
    obtain ⟨va, ca, aa, sa⟩ := userByte_facts a hau
    have hua : unescape a encodeUserPassword = some ui.username := by
      rw [ha]; exact unescape_escape_user _
    simp only [Option.map_some']
    have hshape : ui.String ++ [ch '@'] ++ escape u.Host encodeHost =
        ui.String ++ ch '@' :: escape u.Host encodeHost := by simp
    rw [hshape]
    rcases hb with ⟨hb, hps⟩ | ⟨p, hb, hp, hpu, hps⟩
    · subst hb
      rw [List.append_nil] at hab
      refine ⟨?_, ?_⟩
      · unfold parseAuthority
        rw [LastIndexByte_append _ _ _ hhost.1]
        simp only [drop_length_succ_append, hH, take_length_append]
        have hc : Contains ui.String (ch ':') = false := by
          cases hcc : Contains ui.String (ch ':')
          · rfl
          · rw [hab] at hcc; exact absurd ((Contains_iff _ _).1 hcc) ca
        have hv : validUserinfo ui.String = true := by rw [hab]; exact va
        simp only [hv, Bool.not_true, Bool.false_eq_true, if_false, hc, Bool.not_false, if_true]
        rw [hab, hua, hps]
        simp
      · rw [hab]
        intro hm
        rcases List.mem_append.1 hm with e | e
        · exact sa e
        · rcases List.mem_cons.1 e with e | e
          · exact absurd e (by decide)
          · exact hhost.2 e
    · obtain ⟨vp, cp, ap, sp⟩ := userByte_facts p hpu
      have hup : unescape p encodeUserPassword = some ui.password := by
        rw [hp]; exact unescape_escape_user _
      subst hb
      refine ⟨?_, ?_⟩
      · unfold parseAuthority
        rw [LastIndexByte_append _ _ _ hhost.1]
        simp only [drop_length_succ_append, hH, take_length_append]
        have hc : Contains ui.String (ch ':') = true := by
          rw [hab]; exact (Contains_iff _ _).2 (by simp)
        have hv : validUserinfo ui.String = true := by
          rw [hab, validUserinfo_append, va]
          have : validUserinfo (ch ':' :: p) = true := by
            have h1 : validUserinfo [ch ':'] = true := by decide
            have := validUserinfo_append [ch ':'] p
            simp only [List.singleton_append] at this
            rw [this, h1, vp]; rfl
          rw [this]; rfl
        simp only [hv, Bool.not_true, Bool.false_eq_true, if_false, hc, if_false]
        rw [hab, Cut_append a p _ ca]
        simp only [hua, hup, hps, if_true]
        cases ui
        simp_all
      · rw [hab]
        intro hm
        rcases List.mem_append.1 hm with e | e
        · rcases List.mem_append.1 e with e | e
          · exact sa e
          · rcases List.mem_cons.1 e with e | e
            · exact absurd e (by decide)
            · exact sp e
        · rcases List.mem_cons.1 e with e | e
          · exact absurd e (by decide)
          · exact hhost.2 e

theorem userPart_normUser (u w : URL) (h : w.User = normUser u.User) : userPart w = userPart u := by
  unfold userPart
  rw [h]
  unfold normUser
  cases u.User with
  | none => rfl
  | some ui =>
    simp only [Option.map_some']
    cases hp : ui.passwordSet
    · simp [Userinfo.String, hp]
    · simp [hp]

theorem hier_host (u : URL) (hh : u.Host ≠ []) (hep : u.EscapedPath.head? = some (ch '/')) :
    hier u = lit "//" ++ (userPart u ++ escape u.Host encodeHost) ++ u.EscapedPath := by
  unfold hier
  simp [hh, hep]

/-- How the rest of `url.parse` reads `//`, an authority without `/` and a
path that starts with `/`. -/
theorem parseHier_authority (u : URL) (a ep : GoString) (hs : u.Scheme ≠ []) (ha : ch '/' ∉ a)
    (hep : ep.head? = some (ch '/')) :
    parseHier u (lit "//" ++ a ++ ep) =
      match parseAuthority a with
      | none => none
      | some (user, host) => URL.setPath { u with User := user, Host := host } ep := by
  cases ep with
  | nil => simp at hep
  | cons c t =>
    have hc : c = ch '/' := by simpa using hep
    subst hc
    have h1 : HasPrefix (lit "//" ++ a ++ ch '/' :: t) (lit "/") = true := by
      rw [HasPrefix_slash]; rfl
    have h2 : HasPrefix (lit "//" ++ a ++ ch '/' :: t) (lit "//") = true := by
      unfold HasPrefix
      rw [List.isPrefixOf_iff_prefix, List.append_assoc]
      exact List.prefix_append _ _
    have h3 : (lit "//" ++ a ++ ch '/' :: t).drop 2 = a ++ ch '/' :: t := by
      have : lit "//" = [ch '/', ch '/'] := by decide
      rw [this]; rfl
    unfold parseHier
    simp only [h1, Bool.not_true, Bool.false_eq_true, false_and, if_false, ne_eq, hs,
      not_false_eq_true, true_or, h2, and_self, if_true, h3, IndexByte_append a t _ ha,
      take_length_append, drop_length_append]

theorem ctl_append (a b : GoString) :
    stringContainsCTLByte (a ++ b) = (stringContainsCTLByte a || stringContainsCTLByte b) := by
  unfold stringContainsCTLByte
  rw [List.any_append]

set_option maxRecDepth 100000 in
theorem schemeByte_ctl :
    ∀ b : Byte, schemeByte b = true → (decide (b.val < 0x20) || decide (b.val = 0x7f)) = false := by
  decide!

theorem ctl_scheme (s : GoString) (h : s.all schemeByte = true) :
    stringContainsCTLByte s = false := by
  rw [List.all_eq_true] at h
  unfold stringContainsCTLByte
  rw [List.any_eq_false]
  intro b hb
  have := schemeByte_ctl b (h b hb)
  simpa using this

theorem setPath_ok (u : URL) (p q : GoString) (h : unescape p encodePath = some q) :
    ∃ w, URL.setPath u p = some w := by
  unfold URL.setPath
  rw [h]
  simp only
  split
  · exact ⟨_, rfl⟩
  · exact ⟨_, rfl⟩

theorem setFragment_ok (u : URL) (f q : GoString) (h : unescape f encodeFragment = some q) :
    ∃ w, URL.setFragment u f = some w := by
  unfold URL.setFragment
  rw [h]
  simp only
  split
  · exact ⟨_, rfl⟩
  · exact ⟨_, rfl⟩

/-- What `String` writes for two URLs with a scheme, a host and no opaque
text is the same once their scheme, user text, host, escaped path, query and
fragment text are. -/
theorem String_congr (v w : URL) (hs : v.Scheme ≠ []) (hh : v.Host ≠ [])
    (hep : v.EscapedPath.head? = some (ch '/')) (hov : v.Opaque = []) (how : w.Opaque = [])
    (h1 : w.Scheme = v.Scheme) (h2 : userPart w = userPart v) (h3 : w.Host = v.Host)
    (h4 : w.EscapedPath = v.EscapedPath) (h5 : queryPart w = queryPart v)
    (h6 : fragmentPart w = fragmentPart v) : w.String = v.String := by
  rw [String_eq v hs, String_eq w (by rw [h1]; exact hs),
    hier_host v hh hep, hier_host w (by rw [h3]; exact hh) (by rw [h4]; exact hep)]
  simp only [hov, how, ne_eq, not_true_eq_false, if_false, h1, h2, h3, h4, h5, h6]

/-- The round trip: `Parse` reads what `String` wrote for a URL with a
well-formed scheme, a host that its escaped form parses back to, a path that
starts with `/` and a parsed query, and yields a URL with the same scheme,
host and path that `String` writes the same way. -/
theorem Parse_String_round_trip (v : URL) (hs : SchemeOK v.Scheme) (ho : v.Opaque = [])
    (hq : QueryOK v) (hh : v.Host ≠ [])
    (hH : parseHost (escape v.Host encodeHost) = some v.Host)
    (hp : v.Path.head? = some (ch '/'))
    (hr : v.RawPath = [] ∨ v.RawPath.head? = some (ch '/')) :
    ∃ w, Parse v.String = some w ∧ w.Scheme = v.Scheme ∧ w.Host = v.Host ∧ w.Path = v.Path ∧
      w.String = v.String := by
  obtain ⟨hne, hsb, _, _⟩ := SchemeOK_valid _ hs
  obtain ⟨e1, e2, e3⟩ := EscapedPath_facts v hp hr
  obtain ⟨a1, a2⟩ := parseAuthority_render v hH
  have hhier := hier_host v hh e1
  obtain ⟨b1, b2, b3, _⟩ := plain_facts _ (hier_plain v)
  have hif : (if v.Opaque ≠ [] then v.Opaque else hier v) = hier v := by
    simp only [ho, ne_eq, not_true_eq_false, if_false]
  have hP := Parse_String v hs hq (by rw [hif]; exact b1) (by rw [hif]; exact b2)
  rw [hif] at hP
  have hctl : stringContainsCTLByte (v.Scheme ++ ch ':' :: (hier v ++ queryPart v)) = false := by
    have hc : v.Scheme ++ ch ':' :: (hier v ++ queryPart v) =
        v.Scheme ++ ([ch ':'] ++ (hier v ++ queryPart v)) := rfl
    rw [hc, ctl_append, ctl_append, ctl_append, ctl_scheme _ hsb, b3]
    have h1 : stringContainsCTLByte [ch ':'] = false := by decide
    have h2 : stringContainsCTLByte (queryPart v) = false := by
      unfold queryPart
      split
      · have hc2 : ch '?' :: v.RawQuery = [ch '?'] ++ v.RawQuery := rfl
        rw [hc2, ctl_append, hq.2.1]
        decide
      · rfl
    rw [h1, h2]
    rfl
  rw [hctl] at hP
  simp only [Bool.false_eq_true, if_false] at hP
  rw [hhier, parseHier_authority ⟨v.Scheme, [], none, [], [], [], false, v.ForceQuery, v.RawQuery,
    [], []⟩ _ _ hne a2 e1, a1] at hP
  simp only at hP
  obtain ⟨w0, hw0⟩ := setPath_ok ⟨v.Scheme, [], normUser v.User, v.Host, [], [], false,
    v.ForceQuery, v.RawQuery, [], []⟩ v.EscapedPath v.Path e2
  rw [hw0] at hP
  simp only at hP
  obtain ⟨p1, p2⟩ := setPath_some _ _ _ hw0
  obtain ⟨f1, f2, f3, f4, f5, f6, _⟩ := setPath_fields _ _ _ hw0
  simp only at f1 f2 f3 f4 f5 f6
  have hpath0 : w0.Path = v.Path := by
    rw [e2] at p1
    exact (Option.some.inj p1).symm
  have hraw0 : w0.RawPath = [] ∧ v.EscapedPath = escape w0.Path encodePath ∨
      w0.RawPath = v.EscapedPath ∧ v.EscapedPath ≠ escape w0.Path encodePath := by
    rcases p2 with ⟨e, he⟩ | ⟨e, he⟩
    · exact Or.inl ⟨(congrArg URL.RawPath e).trans rfl, he⟩
    · exact Or.inr ⟨(congrArg URL.RawPath e).trans rfl, he⟩
  have hfrag0 : w0.Fragment = [] := by
    rcases p2 with ⟨e, _⟩ | ⟨e, _⟩
    · exact (congrArg URL.Fragment e).trans rfl
    · exact (congrArg URL.Fragment e).trans rfl
  have hstring : ∀ w : URL, w.Scheme = w0.Scheme → w.Opaque = w0.Opaque → w.User = w0.User →
      w.Host = w0.Host → w.Path = w0.Path → w.RawPath = w0.RawPath →
      w.ForceQuery = w0.ForceQuery → w.RawQuery = w0.RawQuery →
      fragmentPart w = fragmentPart v → w.String = v.String := by
    intro w g1 g2 g3 g4 g5 g6 g7 g8 g9
    have hep : w.EscapedPath = v.EscapedPath := by
      apply EscapedPath_stored w v.EscapedPath
      · rw [g5, hpath0]; exact e2
      · rw [g5, hpath0]; exact e3
      · rw [g5, hpath0]; exact lit_star_head _ hp
      · rw [g5, g6]; exact hraw0
    apply String_congr v w hne hh e1 ho (by rw [g2, f2]) (by rw [g1, f1])
      (userPart_normUser v w (by rw [g3, f3])) (by rw [g4, f4]) hep ?_ g9
    unfold queryPart
    rw [g7, g8, f5, f6]
  by_cases hf : v.Fragment = []
  · rw [if_pos hf] at hP
    refine ⟨w0, hP, f1, f4, hpath0, ?_⟩
    apply hstring w0 rfl rfl rfl rfl rfl rfl rfl rfl
    unfold fragmentPart
    simp only [hfrag0, hf, ne_eq, not_true_eq_false, if_false]
  · rw [if_neg hf] at hP
    obtain ⟨q1, q2⟩ := EscapedFragment_facts v
    obtain ⟨w, hw⟩ := setFragment_ok w0 v.EscapedFragment v.Fragment q1
    rw [hw] at hP
    obtain ⟨g1, g2, g3, g4, g5, g6, g7, g8, g9, g10⟩ := setFragment_fields _ _ _ hw
    have hfr : w.Fragment = v.Fragment := by
      rw [q1] at g9
      exact (Option.some.inj g9).symm
    refine ⟨w, hP, by rw [g1, f1], by rw [g4, f4], by rw [g5, hpath0], ?_⟩
    apply hstring w g1 g2 g3 g4 g5 g6 g7 g8
    have hef : w.EscapedFragment = v.EscapedFragment := by
      apply EscapedFragment_stored w v.EscapedFragment
      · rw [hfr]; exact q1
      · rw [hfr]; exact q2
      · exact g10
    unfold fragmentPart
    rw [hfr, hef]

theorem canonicalPath_fields (u : URL) :
    (canonicalPath u).Scheme = u.Scheme ∧ (canonicalPath u).Opaque = u.Opaque ∧
      (canonicalPath u).Host = u.Host ∧ (canonicalPath u).RawPath = u.RawPath ∧
      (canonicalPath u).ForceQuery = u.ForceQuery ∧ (canonicalPath u).RawQuery = u.RawQuery := by
  unfold canonicalPath
  simp only
  split <;> split <;> exact ⟨rfl, rfl, rfl, rfl, rfl, rfl⟩

/-- The path `parseStartURL` sets, by the case of the path it parsed. -/
theorem canonicalPath_path (u : URL) :
    (u.Path = [] ∨ u.Path = lit "/" → (canonicalPath u).Path = lit "/start/") ∧
      (u.Path ≠ [] → u.Path ≠ lit "/" → HasSuffix u.Path (lit "/") = true →
        (canonicalPath u).Path = u.Path) ∧
      (u.Path ≠ [] → u.Path ≠ lit "/" → HasSuffix u.Path (lit "/") = false →
        (canonicalPath u).Path = u.Path ++ lit "/") := by
  have hstart : HasSuffix (lit "/start/") (lit "/") = true := by decide
  refine ⟨?_, ?_, ?_⟩
  · intro h
    unfold canonicalPath
    simp only [h, if_true, hstart, Bool.not_true, Bool.false_eq_true, if_false]
  · intro h1 h2 h3
    unfold canonicalPath
    simp only [h1, h2, or_self, if_false, h3, Bool.not_true, Bool.false_eq_true]
  · intro h1 h2 h3
    unfold canonicalPath
    simp only [h1, h2, or_self, if_false, h3, Bool.not_false, if_true]

theorem HasSuffix_append_self (p q : GoString) : HasSuffix (p ++ q) q = true := by
  unfold HasSuffix
  rw [List.isSuffixOf_iff_suffix]
  exact List.suffix_append _ _

/-- The path `parseStartURL` sets ends with `/`, is neither empty nor `/`, and
starts with `/` when the parsed path is empty or starts with `/`. -/
theorem canonicalPath_shape (u : URL) :
    HasSuffix (canonicalPath u).Path (lit "/") = true ∧ (canonicalPath u).Path ≠ [] ∧
      (canonicalPath u).Path ≠ lit "/" ∧
      (u.Path = [] ∨ u.Path.head? = some (ch '/') →
        (canonicalPath u).Path.head? = some (ch '/')) := by
  obtain ⟨c1, c2, c3⟩ := canonicalPath_path u
  by_cases h : u.Path = [] ∨ u.Path = lit "/"
  · rw [c1 h]
    exact ⟨by decide, by decide, by decide, fun _ => by decide⟩
  · have h1 : u.Path ≠ [] := fun e => h (Or.inl e)
    have h2 : u.Path ≠ lit "/" := fun e => h (Or.inr e)
    cases h3 : HasSuffix u.Path (lit "/")
    · rw [c3 h1 h2 h3]
      refine ⟨HasSuffix_append_self _ _, by simp [h1], ?_, ?_⟩
      · intro e
        have hl := congrArg List.length e
        have h4 : (lit "/").length = 1 := by decide
        rw [List.length_append, h4] at hl
        exact h1 (List.length_eq_zero.1 (by omega))
      · intro hp
        have hp := hp.resolve_left h1
        cases hpath : u.Path with
        | nil => exact absurd hpath h1
        | cons c t => rw [hpath] at hp; simpa using hp
    · rw [c2 h1 h2 h3]
      exact ⟨h3, h1, h2, fun hp => hp.resolve_left h1⟩

theorem canonicalPath_fixed (w : URL) (h1 : w.Path ≠ []) (h2 : w.Path ≠ lit "/")
    (h3 : HasSuffix w.Path (lit "/") = true) : canonicalPath w = w := by
  unfold canonicalPath
  simp only [h1, h2, or_self, if_false, h3, Bool.not_true, Bool.false_eq_true]

/-- What an accepted start URL is: the text `String` writes for the re-parsed
URL with its path set, which `Parse` reads back with the scheme of the first
parse (`https` if it had none), the host of the re-parse, the path that was
set, and the same text. -/
theorem parseStartURL_accepts (s r : GoString) (h : parseStartURL s = (r, true)) :
    ∃ u1 u2 w, Parse s = some u1 ∧ reparse s = some u2 ∧ u2.Host ≠ [] ∧
      r = (canonicalPath u2).String ∧ Parse r = some w ∧
      w.Scheme = (if u1.Scheme = [] then lit "https" else u1.Scheme) ∧ w.Scheme ≠ [] ∧
      w.Host = u2.Host ∧ w.Path = (canonicalPath u2).Path ∧ w.String = r := by
  unfold parseStartURL parseStartURLCore at h
  cases hr : reparse s with
  | none => rw [hr] at h; simp at h
  | some u2 =>
    rw [hr] at h
    simp only at h
    by_cases hh : u2.Host = []
    · rw [if_pos hh] at h; simp at h
    · rw [if_neg hh] at h
      simp only [Prod.mk.injEq, and_true] at h
      obtain ⟨u1, hp1, hsch, hsok, hH⟩ := reparse_facts s u2 hr hh
      have hp2 : Parse (defaultScheme u1).String = some u2 := by
        unfold reparse at hr
        rw [hp1] at hr
        exact hr
      obtain ⟨_, g2, _, g4⟩ := Parse_facts _ u2 hp2
      obtain ⟨go, gp, gr⟩ := g4 hh
      obtain ⟨c1, c2, c3, c4, c5, c6⟩ := canonicalPath_fields u2
      obtain ⟨_, _, _, k4⟩ := canonicalPath_shape u2
      obtain ⟨w, hw, w1, w2, w3, w4⟩ := Parse_String_round_trip (canonicalPath u2)
        (by rw [c1]; exact hsok) (by rw [c2]; exact go)
        (by unfold QueryOK; rw [c5, c6]; exact g2) (by rw [c3]; exact hh)
        (by rw [c3]; exact hH) (k4 gp) (by rw [c4]; exact gr)
      refine ⟨u1, u2, w, hp1, rfl, hh, h.symm, by rw [← h]; exact hw, by rw [w1, c1, hsch], ?_,
        by rw [w2, c3], w3, by rw [w4, h]⟩
      rw [w1, c1]
      exact (SchemeOK_valid _ hsok).1

end UrlRoundTrip

/-! ## Start URLs: the claims -/

section StartURL

open url strings

/-- C1: `parseStartURL` is idempotent on its successes: when it returns
`(u, true)` for an input, it returns `(u, true)` for `u` as well. -/
theorem parseStartURL_idempotent (s u : GoString) (h : parseStartURL s = (u, true)) :
    parseStartURL u = (u, true) := by
  obtain ⟨u1, u2, w, _, _, hh, hr, hw, _, hne, whost, wpath, wstr⟩ := parseStartURL_accepts s u h
  obtain ⟨k1, k2, k3, _⟩ := canonicalPath_shape u2
  have hd : defaultScheme w = w := by
    unfold defaultScheme
    rw [if_neg hne]
  have hre : reparse u = some w := by
    unfold reparse
    rw [hw]
    simp only
    rw [hd, wstr, hw]
  unfold parseStartURL parseStartURLCore
  rw [hre]
  simp only
  rw [if_neg (by rw [whost]; exact hh),
    canonicalPath_fixed w (by rw [wpath]; exact k2) (by rw [wpath]; exact k3)
      (by rw [wpath]; exact k1)]
  simp only [wstr]

theorem parseStartURL_idempotent_witness :
    parseStartURL (lit "example.com/foo") = (lit "https://example.com/foo/", true) ∧
      parseStartURL (lit "https://example.com/foo/") = (lit "https://example.com/foo/", true) :=
  ⟨by decide!, parseStartURL_idempotent (lit "example.com/foo") _ (by decide!)⟩

/-- C2, as stated, fails: `parseStartURL` accepts `http://example.com` and
returns `http://example.com/start/`, whose scheme is `http`, not `https`. -/
theorem parseStartURL_keeps_http :
    parseStartURL (lit "http://example.com") = (lit "http://example.com/start/", true) ∧
      (Parse (lit "http://example.com/start/")).map (fun w => w.Scheme) = some (lit "http") ∧
      lit "http" ≠ lit "https" := by
  decide!

/-- C2, amended: every start URL that `parseStartURL` accepts parses to a URL
whose scheme is the scheme of the parsed input, `https` when the input has
none, whose host is not empty and whose path ends with `/`. -/
theorem parseStartURL_invariant (s u : GoString) (h : parseStartURL s = (u, true)) :
    ∃ u1 w, Parse s = some u1 ∧ Parse u = some w ∧
      w.Scheme = (if u1.Scheme = [] then lit "https" else u1.Scheme) ∧ w.Host ≠ [] ∧
      HasSuffix w.Path (lit "/") = true := by
  obtain ⟨u1, u2, w, hp1, _, hh, _, hw, wsch, _, whost, wpath, _⟩ := parseStartURL_accepts s u h
  refine ⟨u1, w, hp1, hw, wsch, by rw [whost]; exact hh, ?_⟩
  rw [wpath]
  exact (canonicalPath_shape u2).1

theorem parseStartURL_invariant_witness :
    parseStartURL (lit "http://example.com") = (lit "http://example.com/start/", true) ∧
      ∃ u1 w, Parse (lit "http://example.com") = some u1 ∧
        Parse (lit "http://example.com/start/") = some w ∧
        w.Scheme = (if u1.Scheme = [] then lit "https" else u1.Scheme) ∧ w.Host ≠ [] ∧
        HasSuffix w.Path (lit "/") = true :=
  ⟨by decide!, parseStartURL_invariant (lit "http://example.com") _ (by decide!)⟩

/-- C3: for every accepted input, with `u2` the URL of the re-parse (the
parsed path is `u2.Path`) and `w` the URL the result parses to: when the
parsed path is empty or `/` the path of the result is `/start/`; otherwise it
is the parsed path, unchanged when it ends with `/` and with one `/` appended
when it does not; a missing scheme is filled in as `https`. The two examples
of the claim are evaluated. -/
theorem parseStartURL_path_rule :
    (∀ s u : GoString, parseStartURL s = (u, true) →
      ∃ u1 u2 w, Parse s = some u1 ∧ reparse s = some u2 ∧ Parse u = some w ∧
        (u2.Path = [] ∨ u2.Path = lit "/" → w.Path = lit "/start/") ∧
        (u2.Path ≠ [] → u2.Path ≠ lit "/" → HasSuffix u2.Path (lit "/") = true →
          w.Path = u2.Path) ∧
        (u2.Path ≠ [] → u2.Path ≠ lit "/" → HasSuffix u2.Path (lit "/") = false →
          w.Path = u2.Path ++ lit "/") ∧
        (u1.Scheme = [] → w.Scheme = lit "https")) ∧
    parseStartURL (lit "example.com") = (lit "https://example.com/start/", true) ∧
    parseStartURL (lit "https://foo.awsapps.com/start") =
      (lit "https://foo.awsapps.com/start/", true) := by
  refine ⟨?_, by decide!, by decide!⟩
  intro s u h
  obtain ⟨u1, u2, w, hp1, hr, _, _, hw, wsch, _, _, wpath, _⟩ := parseStartURL_accepts s u h
  obtain ⟨c1, c2, c3⟩ := canonicalPath_path u2
  refine ⟨u1, u2, w, hp1, hr, hw, ?_, ?_, ?_, ?_⟩
  · intro hc; rw [wpath]; exact c1 hc
  · intro h1 h2 h3; rw [wpath]; exact c2 h1 h2 h3
  · intro h1 h2 h3; rw [wpath]; exact c3 h1 h2 h3
  · intro hs; rw [wsch, if_pos hs]

end StartURL

/-! ## Account-name sanitisation -/

theorem lit_underscore : lit "_" = [ch '_'] := by decide

theorem nonAlphanumeric_underscore : regexp.nonAlphanumeric (ch '_') = true := by decide

theorem replaceAllLoop_mem (b : Bool) (s : GoString) :
    ∀ c ∈ regexp.replaceAllLoop [ch '_'] b s, regexp.nonAlphanumeric c = false ∨ c = ch '_' := by
  induction s generalizing b with
  | nil => intro c hc; simp [regexp.replaceAllLoop] at hc
  | cons x xs ih =>
    intro c hc
    unfold regexp.replaceAllLoop at hc
    by_cases hx : regexp.nonAlphanumeric x = true
    · rw [if_pos hx] at hc
      rcases List.mem_append.1 hc with h | h
      · cases b
        · right; simpa using h
        · simp at h
      · exact ih true c h
    · rw [if_neg hx] at hc
      rcases List.mem_cons.1 hc with h | h
      · left; rw [h]; simpa using hx
      · exact ih false c h

/-- The output of the scan never starts with an underscore when the scan is
inside a match, and never holds two underscores in a row. -/
theorem replaceAllLoop_chain (b : Bool) (s : GoString) :
    List.Chain' (fun x y => ¬(x = ch '_' ∧ y = ch '_')) (regexp.replaceAllLoop [ch '_'] b s) ∧
      (b = true → (regexp.replaceAllLoop [ch '_'] b s).head? ≠ some (ch '_')) := by
  induction s generalizing b with
  | nil => simp [regexp.replaceAllLoop]
  | cons x xs ih =>
    unfold regexp.replaceAllLoop
    by_cases hx : regexp.nonAlphanumeric x = true
    · rw [if_pos hx]
      cases b
      · refine ⟨?_, by simp⟩
        simp only [Bool.false_eq_true, if_false, List.singleton_append]
        rw [List.chain'_cons']
        refine ⟨?_, (ih true).1⟩
        intro y hy
        have := (ih true).2 rfl
        intro h
        exact this (by rw [hy, h.2])
      · simpa using ih true
    · rw [if_neg hx]
      have hne : x ≠ ch '_' := by
        intro h
        rw [h] at hx
        exact hx nonAlphanumeric_underscore
      refine ⟨?_, by intro _; simpa using hne⟩
      rw [List.chain'_cons']
      refine ⟨?_, (ih false).1⟩
      intro y _ h
      exact hne h.1

theorem replaceAllLoop_count (prev : Option Byte) (b : Bool) (s : GoString)
    (hb : b = (match prev with
      | some p => regexp.nonAlphanumeric p
      | none => false)) :
    (regexp.replaceAllLoop [ch '_'] b s).count (ch '_') =
      ((prev :: s.map some).zip s).countP fun p =>
        regexp.nonAlphanumeric p.2 &&
          !(match p.1 with
            | some b => regexp.nonAlphanumeric b
            | none => false) := by
  induction s generalizing prev b with
  | nil => simp [regexp.replaceAllLoop]
  | cons x xs ih =>
    unfold regexp.replaceAllLoop
    simp only [List.map_cons, List.zip_cons_cons, List.countP_cons]
    by_cases hx : regexp.nonAlphanumeric x = true
    · rw [if_pos hx, List.count_append, ih (some x) true (by simp [hx]), ← hb]
      cases b <;> simp [hx, Nat.add_comm]
    · rw [if_neg hx]
      have hne : x ≠ ch '_' := by
        intro h
        rw [h] at hx
        exact hx nonAlphanumeric_underscore
      rw [List.count_cons_of_ne hne.symm, ih (some x) false (by simp [hx])]
      simp [hx]

theorem replaceAllLoop_filter (b : Bool) (s : GoString) :
    (regexp.replaceAllLoop [ch '_'] b s).filter (fun c => !regexp.nonAlphanumeric c) =
      s.filter (fun c => !regexp.nonAlphanumeric c) := by
  induction s generalizing b with
  | nil => simp [regexp.replaceAllLoop]
  | cons x xs ih =>
    unfold regexp.replaceAllLoop
    by_cases hx : regexp.nonAlphanumeric x = true
    · rw [if_pos hx, List.filter_append, ih true]
      cases b <;> simp [hx, nonAlphanumeric_underscore]
    · rw [if_neg hx]
      simp [hx, ih false]

/-- C5: account-name sanitisation writes only bytes of `[a-zA-Z0-9_]`, never
two underscores in a row, exactly one underscore per maximal run of bytes
outside `[a-zA-Z0-9]`, and keeps the ASCII letters and digits as they are and
in order; `"My Account!!"` becomes `"My_Account_"`. -/
theorem sanitize_runs (name : GoString) :
    (∀ c ∈ sanitize name, regexp.nonAlphanumeric c = false ∨ c = ch '_') ∧
    List.Chain' (fun x y => ¬(x = ch '_' ∧ y = ch '_')) (sanitize name) ∧
    (sanitize name).count (ch '_') = maximalRuns name ∧
    (sanitize name).filter (fun c => !regexp.nonAlphanumeric c) =
      name.filter (fun c => !regexp.nonAlphanumeric c) ∧
    sanitize (lit "My Account!!") = lit "My_Account_" := by
  unfold sanitize regexp.ReplaceAllString maximalRuns
  rw [lit_underscore]
  exact ⟨replaceAllLoop_mem false name, (replaceAllLoop_chain false name).1,
    replaceAllLoop_count none false name rfl, replaceAllLoop_filter false name, by decide⟩

/-! ## The command: guards of `RunE` -/

/-- C7: without `--force`, a file at the config path makes the command fail
with `config found ... use --force to overwrite` and leave the state as it
was: config file, config directory and SSO cache untouched, nothing printed
(`UpdateConfig` starts by printing) and no request sent. -/
theorem RunE_config_found (env : Env) (fuel : Nat) (flags : Flags) (arg : GoString) (w : World)
    (hforce : flags.force = false) (hfile : w.configFile.isSome = true) :
    RunE env fuel flags arg w =
      some (some (lit "config found at " ++ env.configFile ++
        lit "\nuse --force to overwrite"), w) := by
  unfold RunE
  simp [hforce, hfile]

theorem RunE_config_found_witness :
    RunE (exampleEnv [] fun _ => []) 0 (exampleFlags false) (lit "example.com") exampleWorld =
      some (some (lit "config found at " ++ (exampleEnv [] fun _ => []).configFile ++
        lit "\nuse --force to overwrite"), exampleWorld) :=
  RunE_config_found (exampleEnv [] fun _ => []) 0 (exampleFlags false) (lit "example.com")
    exampleWorld rfl rfl

/-- C4: `parseStartURL` returns `("", false)` whenever the re-parse of the
input with its scheme defaulted fails or yields an empty host, in particular
for `""` and for `"not a url with spaces and no host"`; the command then
leaves the state as it was (`UpdateConfig` is not run) and, once past the
config-file guard, returns `invalid START_URL: <arg>`. -/
theorem parseStartURL_rejects :
    (∀ s : GoString, (∀ u, reparse s = some u → u.Host = []) → parseStartURL s = ([], false)) ∧
    parseStartURL (lit "") = ([], false) ∧
    parseStartURL (lit "not a url with spaces and no host") = ([], false) ∧
    (∀ (env : Env) (fuel : Nat) (flags : Flags) (arg : GoString) (w : World),
      (parseStartURL arg).2 = false →
        ∃ err, RunE env fuel flags arg w = some (some err, w) ∧
          (flags.force = true ∨ w.configFile = none → err = lit "invalid START_URL: " ++ arg)) := by
  refine ⟨?_, by decide, by decide, ?_⟩
  · intro s h
    unfold parseStartURL parseStartURLCore
    cases hr : reparse s with
    | none => rfl
    | some u => simp [h u hr]
  · intro env fuel flags arg w h
    unfold RunE
    by_cases hg : (!flags.force) = true ∧ w.configFile.isSome = true
    · rw [if_pos hg]
      refine ⟨_, rfl, ?_⟩
      rintro (hf | hn)
      · simp [hf] at hg
      · simp [hn] at hg
    · rw [if_neg hg]
      simp [h]

/-! ## The catalog: pages, profiles, failures -/

theorem pageLoop_world {α : Type} (request : Option GoString → Call)
    (fetch : Option GoString → Except GoError (Page α)) (fuel : Nat) :
    ∀ (p : Paginator) (acc : List α) (w : World) (r : Except GoError (List α)) (w1 : World),
      pageLoop request fetch fuel p acc w = some (r, w1) →
        w1.configFile = w.configFile ∧ w1.configDir = w.configDir ∧
          w1.ssoCache = w.ssoCache ∧ w1.stdout = w.stdout ∧
          ∃ cs, w1.calls = w.calls ++ cs ∧ ∀ c ∈ cs, ∃ t, c = request t := by
  induction fuel with
  | zero =>
    intro p acc w r w1 h
    unfold pageLoop at h
    split at h
    · simp at h
    · simp only [Option.some.injEq, Prod.mk.injEq] at h
      rw [← h.2]
      exact ⟨rfl, rfl, rfl, rfl, [], by simp, by simp⟩
  | succ n ih =>
    intro p acc w r w1 h
    unfold pageLoop at h
    split at h
    · cases hf : fetch p.nextToken with
      | error err =>
        simp only [hf, Option.some.injEq, Prod.mk.injEq] at h
        rw [← h.2]
        exact ⟨rfl, rfl, rfl, rfl, [request p.nextToken], rfl, by simp⟩
      | ok out =>
        simp only [hf] at h
        obtain ⟨h1, h2, h3, h4, cs, h5, h6⟩ := ih _ _ _ _ _ h
        refine ⟨h1, h2, h3, h4, request p.nextToken :: cs, ?_, ?_⟩
        · rw [h5]; simp
        · intro c hc
          rcases List.mem_cons.1 hc with hc | hc
          · exact ⟨_, hc⟩
          · exact h6 c hc
    · simp only [Option.some.injEq, Prod.mk.injEq] at h
      rw [← h.2]
      exact ⟨rfl, rfl, rfl, rfl, [], by simp, by simp⟩

/-- With fuel for every page, the loop returns the pages joined in fetch order. -/
theorem pageLoop_pages {α : Type} (request : Option GoString → Call)
    (fetch : Option GoString → Except GoError (Page α)) {tok : Option GoString}
    {pages : List (List α)} (hp : Pages fetch tok pages) :
    ∀ (fuel : Nat) (p : Paginator) (acc : List α) (w : World),
      p.HasMorePages = true → p.nextToken = tok → pages.length ≤ fuel →
        ∃ w1, pageLoop request fetch fuel p acc w = some (.ok (acc ++ pages.flatten), w1) := by
  induction hp with
  | @last tok out hf hm =>
    intro fuel p acc w hmore htok hfuel
    cases fuel with
    | zero => simp at hfuel
    | succ n =>
      unfold pageLoop
      rw [if_pos hmore, htok, hf]
      simp only
      cases n with
      | zero =>
        unfold pageLoop
        rw [if_neg (by simp [hm])]
        exact ⟨{ w with calls := w.calls ++ [request tok] }, by simp⟩
      | succ m =>
        unfold pageLoop
        rw [if_neg (by simp [hm])]
        exact ⟨{ w with calls := w.calls ++ [request tok] }, by simp⟩
  | @more tok out rest hf hm _ ih =>
    intro fuel p acc w hmore htok hfuel
    cases fuel with
    | zero => simp at hfuel
    | succ n =>
      unfold pageLoop
      rw [if_pos hmore, htok, hf]
      simp only
      obtain ⟨w1, h1⟩ := ih n ⟨false, out.NextToken⟩ (acc ++ out.items)
        { w with calls := w.calls ++ [request tok] } hm rfl (by simpa using hfuel)
      exact ⟨w1, by rw [h1]; simp⟩

/-- With fuel for the failing fetch, the loop returns its error and no list. -/
theorem pageLoop_fails {α : Type} (request : Option GoString → Call)
    (fetch : Option GoString → Except GoError (Page α)) {tok : Option GoString}
    {n : Nat} {err : GoError} (hp : FailsAfter fetch tok n err) :
    ∀ (fuel : Nat) (p : Paginator) (acc : List α) (w : World),
      p.HasMorePages = true → p.nextToken = tok → n < fuel →
        ∃ w1, pageLoop request fetch fuel p acc w = some (.error err, w1) := by
  induction hp with
  | @now tok err hf =>
    intro fuel p acc w hmore htok hfuel
    cases fuel with
    | zero => simp at hfuel
    | succ n =>
      unfold pageLoop
      rw [if_pos hmore, htok, hf]
      exact ⟨_, rfl⟩
  | @later tok out n err hf hm _ ih =>
    intro fuel p acc w hmore htok hfuel
    cases fuel with
    | zero => simp at hfuel
    | succ k =>
      unfold pageLoop
      rw [if_pos hmore, htok, hf]
      simp only
      exact ih k ⟨false, out.NextToken⟩ (acc ++ out.items)
        { w with calls := w.calls ++ [request tok] } hm rfl (by omega)

theorem rolesLoop_spec (a : AccountInfo) (roles : List RoleInfo) :
    ∀ (profiles : List Profile) (w : World),
      (rolesLoop a roles profiles w).1 = profiles ++ roles.map (mkProfile a) ∧
        (rolesLoop a roles profiles w).2.configFile = w.configFile ∧
        (rolesLoop a roles profiles w).2.configDir = w.configDir ∧
        (rolesLoop a roles profiles w).2.ssoCache = w.ssoCache ∧
        (rolesLoop a roles profiles w).2.calls = w.calls := by
  induction roles with
  | nil => intro profiles w; simp [rolesLoop]
  | cons r rs ih =>
    intro profiles w
    unfold rolesLoop
    obtain ⟨h1, h2, h3, h4, h5⟩ := ih (profiles ++ [mkProfile a r])
      (w.print (lit "  - " ++ r.RoleName ++ lit "\n"))
    refine ⟨?_, ?_, ?_, ?_, ?_⟩
    · rw [h1]; simp
    · rw [h2]; rfl
    · rw [h3]; rfl
    · rw [h4]; rfl
    · rw [h5]; rfl

theorem OnlyRoleCalls.refl (token : GoString) (ids : List GoString) (w : World) :
    OnlyRoleCalls token ids w w :=
  ⟨rfl, rfl, rfl, [], by simp, by simp⟩

theorem OnlyRoleCalls.trans {token : GoString} {ids1 ids2 ids : List GoString}
    {w w1 w2 : World} (h1 : OnlyRoleCalls token ids1 w w1) (h2 : OnlyRoleCalls token ids2 w1 w2)
    (s1 : ids1 ⊆ ids) (s2 : ids2 ⊆ ids) : OnlyRoleCalls token ids w w2 := by
  obtain ⟨a1, a2, a3, cs1, a4, a5⟩ := h1
  obtain ⟨b1, b2, b3, cs2, b4, b5⟩ := h2
  refine ⟨b1.trans a1, b2.trans a2, b3.trans a3, cs1 ++ cs2, ?_, ?_⟩
  · rw [b4, a4, List.append_assoc]
  · intro c hc
    rcases List.mem_append.1 hc with hc | hc
    · obtain ⟨id, hid, t, ht⟩ := a5 c hc
      exact ⟨id, s1 hid, t, ht⟩
    · obtain ⟨id, hid, t, ht⟩ := b5 c hc
      exact ⟨id, s2 hid, t, ht⟩

/-- One round of the loop over the accounts, up to the fetch of the roles. -/
theorem getRoles_step (env : Env) (fuel : Nat) (token : GoString) (a : AccountInfo) (w : World)
    (r : Except GoError (List RoleInfo)) (w1 : World)
    (h : getRoles env fuel token a.AccountId w = some (r, w1)) :
    OnlyRoleCalls token [a.AccountId] w w1 := by
  obtain ⟨h1, h2, h3, _, cs, h5, h6⟩ := pageLoop_world _ _ _ _ _ _ _ _ h
  refine ⟨h1, h2, h3, cs, h5, ?_⟩
  intro c hc
  obtain ⟨t, ht⟩ := h6 c hc
  exact ⟨a.AccountId, by simp, t, ht⟩

/-- When the roles of every account arrive, the loop over the accounts
appends one profile per role, account after account. -/
theorem accountsLoop_ok (env : Env) (fuel : Nat) (token : GoString)
    (rolePages : AccountInfo → List (List RoleInfo)) (accounts : List AccountInfo) :
    ∀ (profiles : List Profile) (w : World),
      (∀ a ∈ accounts, Pages (env.ListAccountRoles token a.AccountId) none (rolePages a) ∧
        (rolePages a).length ≤ fuel) →
      ∃ w1, accountsLoop env fuel token accounts profiles w =
          some (.ok (profiles ++ accounts.flatMap fun a =>
            (rolePages a).flatten.map (mkProfile a)), w1) ∧
        OnlyRoleCalls token (accounts.map fun a => a.AccountId) w w1 := by
  induction accounts with
  | nil =>
    intro profiles w _
    exact ⟨w, by simp [accountsLoop], OnlyRoleCalls.refl _ _ _⟩
  | cons a rest ih =>
    intro profiles w h
    obtain ⟨hp, hf⟩ := h a (by simp)
    obtain ⟨w1, h1⟩ := pageLoop_pages (Call.ListAccountRoles token a.AccountId)
      (env.ListAccountRoles token a.AccountId) hp fuel ⟨true, none⟩ []
      (w.print (lit "Account: " ++ a.AccountName ++ lit " (" ++ a.AccountId ++ lit ")\n"))
      rfl rfl hf
    have hstep := getRoles_step env fuel token a _ _ _ h1
    obtain ⟨r1, r2, r3, r4, r5⟩ := rolesLoop_spec a (rolePages a).flatten profiles
      (w1.print (lit "Roles:\n"))
    obtain ⟨w2, h2, hw2⟩ := ih (rolesLoop a (rolePages a).flatten profiles
      (w1.print (lit "Roles:\n"))).1 ((rolesLoop a (rolePages a).flatten profiles
      (w1.print (lit "Roles:\n"))).2.print (lit "\n"))
      (fun x hx => h x (List.mem_cons_of_mem _ hx))
    refine ⟨w2, ?_, ?_⟩
    · unfold accountsLoop
      simp only [getRoles] at h1 ⊢
      rw [h1]
      simp only [List.nil_append]
      rw [h2, r1]
      simp
    · have hmid : OnlyRoleCalls token [a.AccountId] w
          ((rolesLoop a (rolePages a).flatten profiles (w1.print (lit "Roles:\n"))).2.print
            (lit "\n")) := by
        obtain ⟨a1, a2, a3, cs, a4, a5⟩ := hstep
        exact ⟨r2.trans a1, r3.trans a2, r4.trans a3, cs, r5.trans a4, a5⟩
      exact OnlyRoleCalls.trans hmid hw2 (by simp) (by simp)

/-- When the fetch of the roles of account `a` fails, the loop over the
accounts ends there with that error: the accounts after `a` are not looked at. -/
theorem accountsLoop_fails (env : Env) (fuel : Nat) (token : GoString)
    (rolePages : AccountInfo → List (List RoleInfo)) (a : AccountInfo) (post : List AccountInfo)
    (n : Nat) (err : GoError)
    (ha : FailsAfter (env.ListAccountRoles token a.AccountId) none n err) (hn : n < fuel)
    (pre : List AccountInfo) :
    ∀ (profiles : List Profile) (w : World),
      (∀ x ∈ pre, Pages (env.ListAccountRoles token x.AccountId) none (rolePages x) ∧
        (rolePages x).length ≤ fuel) →
      ∃ w1, accountsLoop env fuel token (pre ++ a :: post) profiles w = some (.error err, w1) ∧
        OnlyRoleCalls token ((pre ++ [a]).map fun x => x.AccountId) w w1 := by
  induction pre with
  | nil =>
    intro profiles w _
    obtain ⟨w1, h1⟩ := pageLoop_fails (Call.ListAccountRoles token a.AccountId)
      (env.ListAccountRoles token a.AccountId) ha fuel ⟨true, none⟩ []
      (w.print (lit "Account: " ++ a.AccountName ++ lit " (" ++ a.AccountId ++ lit ")\n"))
      rfl rfl hn
    have hstep := getRoles_step env fuel token a _ _ _ h1
    refine ⟨w1, ?_, ?_⟩
    · simp only [List.nil_append]
      unfold accountsLoop
      simp only [getRoles] at h1 ⊢
      rw [h1]
    · simpa using hstep
  | cons x rest ih =>
    intro profiles w h
    obtain ⟨hp, hf⟩ := h x (by simp)
    obtain ⟨w1, h1⟩ := pageLoop_pages (Call.ListAccountRoles token x.AccountId)
      (env.ListAccountRoles token x.AccountId) hp fuel ⟨true, none⟩ []
      (w.print (lit "Account: " ++ x.AccountName ++ lit " (" ++ x.AccountId ++ lit ")\n"))
      rfl rfl hf
    have hstep := getRoles_step env fuel token x _ _ _ h1
    obtain ⟨_, r2, r3, r4, r5⟩ := rolesLoop_spec x (rolePages x).flatten profiles
      (w1.print (lit "Roles:\n"))
    obtain ⟨w2, h2, hw2⟩ := ih (rolesLoop x (rolePages x).flatten profiles
      (w1.print (lit "Roles:\n"))).1 ((rolesLoop x (rolePages x).flatten profiles
      (w1.print (lit "Roles:\n"))).2.print (lit "\n"))
      (fun y hy => h y (List.mem_cons_of_mem _ hy))
    refine ⟨w2, ?_, ?_⟩
    · simp only [List.cons_append]
      unfold accountsLoop
      simp only [getRoles] at h1 ⊢
      rw [h1]
      simp only [List.nil_append]
      rw [h2]
    · have hmid : OnlyRoleCalls token [x.AccountId] w
          ((rolesLoop x (rolePages x).flatten profiles (w1.print (lit "Roles:\n"))).2.print
            (lit "\n")) := by
        obtain ⟨a1, a2, a3, cs, a4, a5⟩ := hstep
        exact ⟨r2.trans a1, r3.trans a2, r4.trans a3, cs, r5.trans a4, a5⟩
      exact OnlyRoleCalls.trans hmid hw2 (by simp) (by simp)

theorem KeySetValue_names (f : ini.File) (sname key value : GoString) :
    (f.KeySetValue sname key value).sections.map (fun sec => sec.name) =
      f.sections.map (fun sec => sec.name) := by
  have h : ∀ owner, (f.assign owner key value).sections.map (fun sec => sec.name) =
      f.sections.map (fun sec => sec.name) := by
    intro owner
    unfold ini.File.assign
    simp only [List.map_map]
    apply List.map_congr_left
    intro sec _
    simp only [Function.comp]
    split
    · split <;> rfl
    · rfl
  unfold ini.File.KeySetValue
  split
  · exact h _
  · exact h _

/-- The document saved before the login holds the default section of
`ini.Empty()`, which `SaveTo` leaves out while it is empty, and the
`sso-session` section, nothing else. -/
theorem sessionConfig_names (startURL ssoSessionName ssoRegion : GoString) :
    (sessionConfig startURL ssoSessionName ssoRegion).sections.map (fun sec => sec.name) =
      [ini.DefaultSection, lit "sso-session " ++ ssoSessionName] := by
  unfold sessionConfig
  rw [KeySetValue_names, KeySetValue_names]
  have hne : lit "sso-session " ++ ssoSessionName ≠ [] := by
    have : lit "sso-session " = ch 's' :: lit "so-session " := by decide
    rw [this]; simp
  have hd : ini.DefaultSection ≠ lit "sso-session " ++ ssoSessionName := by
    have h1 : lit "sso-session " = ch 's' :: lit "so-session " := by decide
    have h2 : ini.DefaultSection = ch 'D' :: lit "EFAULT" := by decide
    rw [h1, h2]
    intro h
    simp only [List.cons_append, List.cons.injEq] at h
    exact absurd h.1 (by decide)
  unfold ini.File.Section ini.File.GetSection
  simp only [if_neg hne]
  simp [ini.Empty, ini.File.NewSection, hd]

/-- `UpdateConfig` from the call of `getAccounts` on, when every step before
has succeeded. -/
theorem UpdateConfig_catalog (env : Env) (fuel : Nat)
    (startURL ssoSessionName ssoRegion defaultRegion token : GoString)
    (cache : List (GoString × GoString)) (w : World)
    (hmk : env.mkdirAll = none) (hrm : env.removeAll = none) (hsave : env.saveTo true = none)
    (hlogin : env.login ssoSessionName = .ok cache)
    (htok : env.getAccessToken ssoSessionName = .ok token) :
    UpdateConfig env fuel startURL ssoSessionName ssoRegion defaultRegion w =
      match getAccounts env fuel token
        (beforeCatalog env startURL ssoSessionName ssoRegion cache w) with
      | none => none
      | some (.error err, w) => some (some err, w)
      | some (.ok accounts, w) =>
        match accountsLoop env fuel token accounts [] w with
        | none => none
        | some (.error err, w) => some (some err, w)
        | some (.ok profiles, w) =>
          match env.saveTo false with
          | some err =>
            some (some err, (profilesLoop ssoSessionName defaultRegion profiles
              (sessionConfig startURL ssoSessionName ssoRegion) w).2.print
                (lit "Saving config to: " ++ env.configFile ++ lit "\n"))
          | none =>
            some (none, { (profilesLoop ssoSessionName defaultRegion profiles
              (sessionConfig startURL ssoSessionName ssoRegion) w).2.print
                (lit "Saving config to: " ++ env.configFile ++ lit "\n") with
              configFile := some (.saved (profilesLoop ssoSessionName defaultRegion profiles
                (sessionConfig startURL ssoSessionName ssoRegion) w).1) }) := by
  unfold UpdateConfig
  simp only [hmk, hrm, hsave, hlogin, htok]
  rfl

/-- The loop over the profiles prints one `Added profile` line per profile,
in order. -/
theorem profilesLoop_stdout (ssoSessionName defaultRegion : GoString) (profiles : List Profile) :
    ∀ (cfg : ini.File) (w : World),
      (profilesLoop ssoSessionName defaultRegion profiles cfg w).2.stdout =
        w.stdout ++ profiles.map fun p =>
          lit "Added profile " ++ [39] ++ p.Name ++ [39] ++ lit " to config\n" := by
  induction profiles with
  | nil => intro cfg w; simp [profilesLoop]
  | cons p ps ih =>
    intro cfg w
    unfold profilesLoop
    simp only
    rw [ih]
    simp [World.print]

/-- C6: when the steps before the catalog succeed and every page fetch
succeeds, `UpdateConfig` fetches the accounts (pages joined in fetch order)
and builds a profile list with one entry per role of each account, in the
order of the accounts and, within an account, of its roles; its length is the
sum of the numbers of roles; every entry is named
`sanitize(accountName) + "/" + roleName` and carries the account id and the
role name.  `UpdateConfig` returns what the loop over exactly this list
leaves: the outcome of the last save, one `Added profile` line per entry in
order, and, when the save succeeds, the document that loop built.  Two
accounts with two roles each give four profiles, and four profile sections
in the saved document. -/
theorem profiles_one_per_role (env : Env) (fuel : Nat)
    (startURL ssoSessionName ssoRegion defaultRegion token : GoString)
    (cache : List (GoString × GoString)) (w : World)
    (accountPages : List (List AccountInfo)) (rolePages : AccountInfo → List (List RoleInfo))
    (hmk : env.mkdirAll = none) (hrm : env.removeAll = none) (hsave : env.saveTo true = none)
    (hlogin : env.login ssoSessionName = .ok cache)
    (htok : env.getAccessToken ssoSessionName = .ok token)
    (hacc : Pages (env.ListAccounts token) none accountPages)
    (hroles : ∀ a ∈ accountPages.flatten,
      Pages (env.ListAccountRoles token a.AccountId) none (rolePages a))
    (hfuel : accountPages.length ≤ fuel)
    (hfuel2 : ∀ a ∈ accountPages.flatten, (rolePages a).length ≤ fuel) :
    (∃ w1 w2 profiles,
      getAccounts env fuel token (beforeCatalog env startURL ssoSessionName ssoRegion cache w) =
        some (.ok accountPages.flatten, w1) ∧
      accountsLoop env fuel token accountPages.flatten [] w1 = some (.ok profiles, w2) ∧
      profiles = accountPages.flatten.flatMap (fun a => (rolePages a).flatten.map fun r =>
        ({ Name := sanitize a.AccountName ++ lit "/" ++ r.RoleName
           SSOAccountID := a.AccountId
           SSORoleName := r.RoleName } : Profile)) ∧
      profiles.length = (accountPages.flatten.map fun a => (rolePages a).flatten.length).sum ∧
      UpdateConfig env fuel startURL ssoSessionName ssoRegion defaultRegion w =
        some (env.saveTo false,
          if env.saveTo false = none then
            { (profilesLoop ssoSessionName defaultRegion profiles
                (sessionConfig startURL ssoSessionName ssoRegion) w2).2.print
                  (lit "Saving config to: " ++ env.configFile ++ lit "\n") with
              configFile := some (.saved (profilesLoop ssoSessionName defaultRegion profiles
                (sessionConfig startURL ssoSessionName ssoRegion) w2).1) }
          else
            (profilesLoop ssoSessionName defaultRegion profiles
              (sessionConfig startURL ssoSessionName ssoRegion) w2).2.print
                (lit "Saving config to: " ++ env.configFile ++ lit "\n")) ∧
      (profilesLoop ssoSessionName defaultRegion profiles
          (sessionConfig startURL ssoSessionName ssoRegion) w2).2.stdout =
        w2.stdout ++ profiles.map fun p =>
          lit "Added profile " ++ [39] ++ p.Name ++ [39] ++ lit " to config\n") ∧
    (accountsLoop twoByTwoEnv 1 (lit "token")
        [⟨lit "111", lit "Account1 Name"⟩, ⟨lit "222", lit "Account2 Name"⟩] [] exampleWorld).map
      (fun r => r.1) =
      some (.ok [⟨lit "Account1_Name/Role1", lit "111", lit "Role1"⟩,
        ⟨lit "Account1_Name/Role2", lit "111", lit "Role2"⟩,
        ⟨lit "Account2_Name/Role1", lit "222", lit "Role1"⟩,
        ⟨lit "Account2_Name/Role2", lit "222", lit "Role2"⟩]) ∧
    savedDocument (UpdateConfig twoByTwoEnv 1 (lit "https://example.awsapps.com/start/")
        (lit "default") (lit "us-east-1") (lit "eu-west-1") exampleWorld) =
      some ⟨[⟨lit "DEFAULT", []⟩,
        ⟨lit "sso-session default",
          [(lit "sso_region", lit "us-east-1"),
            (lit "sso_start_url", lit "https://example.awsapps.com/start/")]⟩,
        ⟨lit "profile Account1_Name/Role1",
          [(lit "sso_session", lit "default"), (lit "sso_account_id", lit "111"),
            (lit "sso_role_name", lit "Role1"), (lit "region", lit "eu-west-1")]⟩,
        ⟨lit "profile Account1_Name/Role2",
          [(lit "sso_session", lit "default"), (lit "sso_account_id", lit "111"),
            (lit "sso_role_name", lit "Role2"), (lit "region", lit "eu-west-1")]⟩,
        ⟨lit "profile Account2_Name/Role1",
          [(lit "sso_session", lit "default"), (lit "sso_account_id", lit "222"),
            (lit "sso_role_name", lit "Role1"), (lit "region", lit "eu-west-1")]⟩,
        ⟨lit "profile Account2_Name/Role2",
          [(lit "sso_session", lit "default"), (lit "sso_account_id", lit "222"),
            (lit "sso_role_name", lit "Role2"), (lit "region", lit "eu-west-1")]⟩]⟩ := by
  refine ⟨?_, by decide, by decide⟩
  obtain ⟨w1, h1⟩ := pageLoop_pages (Call.ListAccounts token) (env.ListAccounts token) hacc
    fuel ⟨true, none⟩ [] (beforeCatalog env startURL ssoSessionName ssoRegion cache w)
    rfl rfl hfuel
  obtain ⟨w2, h2, _⟩ := accountsLoop_ok env fuel token rolePages accountPages.flatten [] w1
    (fun a ha => ⟨hroles a ha, hfuel2 a ha⟩)
  refine ⟨w1, w2, _, by simpa [getAccounts] using h1, h2, ?_, ?_, ?_, profilesLoop_stdout _ _ _ _ _⟩
  · rw [List.nil_append]
    rfl
  · rw [List.nil_append, List.length_flatMap]
    congr 1
    apply List.map_congr_left
    intro a _
    simp only [List.length_flatten, List.map_map, Function.comp, List.length_map]
  · rw [UpdateConfig_catalog env fuel startURL ssoSessionName ssoRegion defaultRegion token
      cache w hmk hrm hsave hlogin htok]
    simp only [getAccounts]
    rw [h1]
    simp only [List.nil_append]
    rw [h2]
    cases env.saveTo false with
    | none => rfl
    | some err => rfl

theorem profiles_one_per_role_witness :
    ∃ w1 w2 profiles,
      getAccounts twoByTwoEnv 1 (lit "token")
          (beforeCatalog twoByTwoEnv (lit "https://example.awsapps.com/start/") (lit "default")
            (lit "us-east-1") [(lit "cache/token.json", lit "accessToken")] exampleWorld) =
        some (.ok [(⟨lit "111", lit "Account1 Name"⟩ : AccountInfo),
          ⟨lit "222", lit "Account2 Name"⟩], w1) ∧
      accountsLoop twoByTwoEnv 1 (lit "token")
        [⟨lit "111", lit "Account1 Name"⟩, ⟨lit "222", lit "Account2 Name"⟩] [] w1 =
          some (.ok profiles, w2) ∧
      profiles = [⟨lit "Account1_Name/Role1", lit "111", lit "Role1"⟩,
        ⟨lit "Account1_Name/Role2", lit "111", lit "Role2"⟩,
        ⟨lit "Account2_Name/Role1", lit "222", lit "Role1"⟩,
        ⟨lit "Account2_Name/Role2", lit "222", lit "Role2"⟩] ∧
      profiles.length = 4 ∧
      UpdateConfig twoByTwoEnv 1 (lit "https://example.awsapps.com/start/") (lit "default")
          (lit "us-east-1") (lit "eu-west-1") exampleWorld =
        some (none,
          { (profilesLoop (lit "default") (lit "eu-west-1") profiles
              (sessionConfig (lit "https://example.awsapps.com/start/") (lit "default")
                (lit "us-east-1")) w2).2.print
                (lit "Saving config to: /home/user/.aws/config\n") with
            configFile := some (.saved (profilesLoop (lit "default") (lit "eu-west-1") profiles
              (sessionConfig (lit "https://example.awsapps.com/start/") (lit "default")
                (lit "us-east-1")) w2).1) }) ∧
      (profilesLoop (lit "default") (lit "eu-west-1") profiles
          (sessionConfig (lit "https://example.awsapps.com/start/") (lit "default")
            (lit "us-east-1")) w2).2.stdout =
        w2.stdout ++ [lit "Added profile \x27Account1_Name/Role1\x27 to config\n",
          lit "Added profile \x27Account1_Name/Role2\x27 to config\n",
          lit "Added profile \x27Account2_Name/Role1\x27 to config\n",
          lit "Added profile \x27Account2_Name/Role2\x27 to config\n"] := by
  obtain ⟨w1, w2, profiles, h1, h2, h3, h4, h5, h6⟩ :=
    (profiles_one_per_role twoByTwoEnv 1 (lit "https://example.awsapps.com/start/")
      (lit "default") (lit "us-east-1") (lit "eu-west-1") (lit "token")
      [(lit "cache/token.json", lit "accessToken")] exampleWorld
      [[⟨lit "111", lit "Account1 Name"⟩, ⟨lit "222", lit "Account2 Name"⟩]]
      (fun _ => [[⟨lit "Role1"⟩, ⟨lit "Role2"⟩]]) rfl rfl rfl rfl rfl
      (@Pages.last _ _ none ⟨_, none⟩ rfl rfl)
      (fun _ _ => @Pages.last _ _ none ⟨_, none⟩ rfl rfl)
      (Nat.le_refl 1) (fun _ _ => Nat.le_refl 1)).1
  have hp : profiles = [⟨lit "Account1_Name/Role1", lit "111", lit "Role1"⟩,
      ⟨lit "Account1_Name/Role2", lit "111", lit "Role2"⟩,
      ⟨lit "Account2_Name/Role1", lit "222", lit "Role1"⟩,
      ⟨lit "Account2_Name/Role2", lit "222", lit "Role2"⟩] := by
    rw [h3]
    decide
  subst hp
  exact ⟨w1, w2, _, h1, h2, rfl, rfl, h5, by rw [h6]; exact congrArg _ (by decide)⟩

/-- C9: once the session document is saved and the login done, a failing
page fetch ends `getAccounts` or `getRoles` with that error and no list, and
`UpdateConfig` returns the error at once: the file on disk is the document
saved before the login, whose only named section is the `sso-session` one,
and no roles are requested for the accounts after the failing one. -/
theorem UpdateConfig_aborts (env : Env) (fuel : Nat)
    (startURL ssoSessionName ssoRegion defaultRegion token : GoString)
    (cache : List (GoString × GoString)) (w : World)
    (hmk : env.mkdirAll = none) (hrm : env.removeAll = none) (hsave : env.saveTo true = none)
    (hlogin : env.login ssoSessionName = .ok cache)
    (htok : env.getAccessToken ssoSessionName = .ok token) :
    (∀ n err, FailsAfter (env.ListAccounts token) none n err → n < fuel →
      ∀ w0, ∃ w1, getAccounts env fuel token w0 = some (.error err, w1)) ∧
    (∀ accountId n err, FailsAfter (env.ListAccountRoles token accountId) none n err → n < fuel →
      ∀ w0, ∃ w1, getRoles env fuel token accountId w0 = some (.error err, w1)) ∧
    (∀ n err, FailsAfter (env.ListAccounts token) none n err → n < fuel →
      ∃ w1, UpdateConfig env fuel startURL ssoSessionName ssoRegion defaultRegion w =
          some (some err, w1) ∧
        w1.configFile = some (.saved (sessionConfig startURL ssoSessionName ssoRegion)) ∧
        ∀ c ∈ w1.calls, c ∈ w.calls ∨ ∃ t, c = Call.ListAccounts token t) ∧
    (∀ (accountPages : List (List AccountInfo)) (rolePages : AccountInfo → List (List RoleInfo))
        (pre : List AccountInfo) (a : AccountInfo) (post : List AccountInfo) (n : Nat)
        (err : GoError),
      Pages (env.ListAccounts token) none accountPages → accountPages.length ≤ fuel →
      accountPages.flatten = pre ++ a :: post →
      (∀ x ∈ pre, Pages (env.ListAccountRoles token x.AccountId) none (rolePages x) ∧
        (rolePages x).length ≤ fuel) →
      FailsAfter (env.ListAccountRoles token a.AccountId) none n err → n < fuel →
      ∃ w1, UpdateConfig env fuel startURL ssoSessionName ssoRegion defaultRegion w =
          some (some err, w1) ∧
        w1.configFile = some (.saved (sessionConfig startURL ssoSessionName ssoRegion)) ∧
        ∀ c ∈ w1.calls, c ∈ w.calls ∨ (∃ t, c = Call.ListAccounts token t) ∨
          ∃ x ∈ pre ++ [a], ∃ t, c = Call.ListAccountRoles token x.AccountId t) ∧
    (sessionConfig startURL ssoSessionName ssoRegion).sections.map (fun sec => sec.name) =
      [ini.DefaultSection, lit "sso-session " ++ ssoSessionName] := by
  refine ⟨?_, ?_, ?_, ?_, sessionConfig_names _ _ _⟩
  · intro n err hf hn w0
    exact pageLoop_fails _ _ hf fuel ⟨true, none⟩ [] w0 rfl rfl hn
  · intro accountId n err hf hn w0
    exact pageLoop_fails _ _ hf fuel ⟨true, none⟩ [] w0 rfl rfl hn
  · intro n err hf hn
    obtain ⟨w1, h1⟩ := pageLoop_fails (Call.ListAccounts token) (env.ListAccounts token) hf
      fuel ⟨true, none⟩ [] (beforeCatalog env startURL ssoSessionName ssoRegion cache w)
      rfl rfl hn
    obtain ⟨a1, _, _, _, cs, a5, a6⟩ := pageLoop_world _ _ _ _ _ _ _ _ h1
    refine ⟨w1, ?_, ?_, ?_⟩
    · rw [UpdateConfig_catalog env fuel startURL ssoSessionName ssoRegion defaultRegion token
        cache w hmk hrm hsave hlogin htok]
      simp only [getAccounts]
      rw [h1]
    · rw [a1]; rfl
    · intro c hc
      rw [a5] at hc
      rcases List.mem_append.1 hc with hc | hc
      · left; exact hc
      · right; exact a6 c hc
  · intro accountPages rolePages pre a post n err hacc hfuel hsplit hpre hfail hn
    obtain ⟨w1, h1⟩ := pageLoop_pages (Call.ListAccounts token) (env.ListAccounts token) hacc
      fuel ⟨true, none⟩ [] (beforeCatalog env startURL ssoSessionName ssoRegion cache w)
      rfl rfl hfuel
    obtain ⟨a1, _, _, _, cs, a5, a6⟩ := pageLoop_world _ _ _ _ _ _ _ _ h1
    obtain ⟨w2, h2, b1, _, _, cs2, b5, b6⟩ := accountsLoop_fails env fuel token rolePages a post
      n err hfail hn pre [] w1 hpre
    refine ⟨w2, ?_, ?_, ?_⟩
    · rw [UpdateConfig_catalog env fuel startURL ssoSessionName ssoRegion defaultRegion token
        cache w hmk hrm hsave hlogin htok]
      simp only [getAccounts]
      rw [h1]
      simp only [List.nil_append, hsplit]
      rw [h2]
    · rw [b1, a1]; rfl
    · intro c hc
      rw [b5, a5] at hc
      rcases List.mem_append.1 hc with hc | hc
      · rcases List.mem_append.1 hc with hc | hc
        · left; exact hc
        · right; left; exact a6 c hc
      · right; right
        obtain ⟨id, hid, t, ht⟩ := b6 c hc
        obtain ⟨x, hx, hxid⟩ := List.mem_map.1 hid
        exact ⟨x, hx, t, by rw [hxid]; exact ht⟩

theorem UpdateConfig_aborts_witness :
    ∃ w1, UpdateConfig failingEnv 2 (lit "https://example.awsapps.com/start/") (lit "default")
        (lit "us-east-1") (lit "us-east-1") exampleWorld =
          some (some (lit "TooManyRequestsException"), w1) ∧
      w1.configFile = some (.saved (sessionConfig (lit "https://example.awsapps.com/start/")
        (lit "default") (lit "us-east-1"))) ∧
      ∀ c ∈ w1.calls, c ∈ exampleWorld.calls ∨ (∃ t, c = Call.ListAccounts (lit "token") t) ∨
        ∃ x ∈ [(⟨lit "111", lit "Account1 Name"⟩ : AccountInfo)] ++
            [⟨lit "222", lit "Account2 Name"⟩],
          ∃ t, c = Call.ListAccountRoles (lit "token") x.AccountId t :=
  (UpdateConfig_aborts failingEnv 2 (lit "https://example.awsapps.com/start/") (lit "default")
    (lit "us-east-1") (lit "us-east-1") (lit "token") [(lit "cache/token.json", lit "accessToken")]
    exampleWorld rfl rfl rfl rfl rfl).2.2.2.1
    [[⟨lit "111", lit "Account1 Name"⟩, ⟨lit "222", lit "Account2 Name"⟩,
      ⟨lit "333", lit "Account3 Name"⟩]]
    (fun _ => [[⟨lit "Role1"⟩, ⟨lit "Role2"⟩]])
    [⟨lit "111", lit "Account1 Name"⟩] ⟨lit "222", lit "Account2 Name"⟩
    [⟨lit "333", lit "Account3 Name"⟩] 1 (lit "TooManyRequestsException")
    (@Pages.last _ _ none ⟨_, none⟩ rfl rfl) (by decide) rfl
    (fun x hx => by
      rw [List.mem_singleton.1 hx]
      exact ⟨@Pages.last _ _ none ⟨_, none⟩ rfl rfl, Nat.le_succ 1⟩)
    (@FailsAfter.later _ _ none (⟨[(⟨lit "Role1"⟩ : RoleInfo)], some (lit "page2")⟩ : Page RoleInfo)
      0 _ (by rfl) (by rfl) (FailsAfter.now (by rfl)))
    (Nat.lt_succ_self 1)

/-! ## The saved document and role names with a dot -/

/-- C8, at a catalog with the roles `R` and `R.x` of one account: the run
succeeds and the saved document holds a section `profile A/R.x` without keys,
while the section `profile A/R` carries the role name `R.x`. -/
theorem UpdateConfig_dotted_role :
    savedDocument (UpdateConfig dottedEnv 1 (lit "https://example.awsapps.com/start/")
        (lit "default") (lit "us-east-1") (lit "eu-west-1") exampleWorld) =
      some ⟨[⟨lit "DEFAULT", []⟩,
        ⟨lit "sso-session default",
          [(lit "sso_region", lit "us-east-1"),
            (lit "sso_start_url", lit "https://example.awsapps.com/start/")]⟩,
        ⟨lit "profile A/R",
          [(lit "sso_session", lit "default"), (lit "sso_account_id", lit "111"),
            (lit "sso_role_name", lit "R.x"), (lit "region", lit "eu-west-1")]⟩,
        ⟨lit "profile A/R.x", []⟩]⟩ := by
  decide

/-- C10, at two accounts whose names both sanitise to `My_Account`, with the
roles `R` and `R`, `R.x`: the run succeeds, the one section
`profile My_Account/R` ends up with the role name `R.x`, not with `R`, the role
of the last profile of that name. -/
theorem UpdateConfig_colliding_dotted :
    savedDocument (UpdateConfig collidingEnv 1 (lit "https://example.awsapps.com/start/")
        (lit "default") (lit "us-east-1") (lit "eu-west-1") exampleWorld) =
      some ⟨[⟨lit "DEFAULT", []⟩,
        ⟨lit "sso-session default",
          [(lit "sso_region", lit "us-east-1"),
            (lit "sso_start_url", lit "https://example.awsapps.com/start/")]⟩,
        ⟨lit "profile My_Account/R",
          [(lit "sso_session", lit "default"), (lit "sso_account_id", lit "222"),
            (lit "sso_role_name", lit "R.x"), (lit "region", lit "eu-west-1")]⟩,
        ⟨lit "profile My_Account/R.x", []⟩]⟩ := by
  decide

end Asso
